import Mathlib

/-!
Verification development for the `mf4lib` crate (MDF4 / DBC / TRC readers).

The Rust sources are shallowly embedded:
* machine integers become `Nat` / `Int` with explicit `% 2^w` where overflow
  or wrapping matters (release-mode semantics: `<<` / `>>` on `i64` mask the
  shift amount by 63, `u32` subtraction wraps);
* byte buffers and strings become `List Nat` / `List Char`;
* fallible code returns `Option` / `Except`; a Rust panic (slice index out of
  range, `unwrap` on `Err`/`None`, explicit `panic!`) is modelled by a
  distinguished error value;
* `f32` / `f64` values read from files are represented by their bit patterns
  (`from_le_bytes` is a bijection on bits, and the library never performs
  float arithmetic on channel data); conversions between float types and
  parsing/printing of decimal floats are abstracted behind explicit model
  structures whose fields state exactly the properties of the Rust
  primitives that the theorems use.
-/

set_option maxHeartbeats 1000000

namespace Mf4Lib

/-- Two's-complement interpretation of a bit pattern `x < 2^w` as a signed
integer of width `w`. -/
def toSigned (w : Nat) (x : Nat) : Int :=
  if x < 2 ^ (w - 1) then (x : Int) else (x : Int) - 2 ^ w

/-- Rust `as iN` cast of an integer value: take the low `w` bits and
reinterpret them in two's complement. -/
def castToSignedWidth (w : Nat) (x : Int) : Int :=
  toSigned w (x % (2 ^ w : Int)).toNat

/-- Rust `as uN` cast of an unsigned 64-bit bit pattern: keep the low `w`
bits. -/
def castToUnsignedWidth (w : Nat) (x : Nat) : Nat := x % 2 ^ w

/-- Little-endian value of `count` bytes of `data` starting at `offset`
(mathematical form, used to state claims). -/
def byteValLE (data : List Nat) (offset : Nat) : Nat → Nat
  | 0 => 0
  | i + 1 => byteValLE data offset i + data.getD (offset + i) 0 * 2 ^ (8 * i)

/-- `src/server/crates/mf4lib/src/lib.rs`, `ChannelData`: one decoded column.
Float columns hold the `f32`/`f64` bit patterns read from the file. -/
inductive ChannelData where
  | float32 (v : List Nat)
  | float64 (v : List Nat)
  | int8 (v : List Int)
  | int16 (v : List Int)
  | int32 (v : List Int)
  | int64 (v : List Int)
  | uint8 (v : List Nat)
  | uint16 (v : List Nat)
  | uint32 (v : List Nat)
  | uint64 (v : List Nat)
deriving DecidableEq

/-- `ChannelData::len`. -/
def ChannelData.len : ChannelData → Nat
  | .float32 v => v.length
  | .float64 v => v.length
  | .int8 v => v.length
  | .int16 v => v.length
  | .int32 v => v.length
  | .int64 v => v.length
  | .uint8 v => v.length
  | .uint16 v => v.length
  | .uint32 v => v.length
  | .uint64 v => v.length

/-- Last element of a signed integer column (used to state what the signed
decoder pushed). -/
def ChannelData.intLast : ChannelData → Option Int
  | .int8 v => v.getLast?
  | .int16 v => v.getLast?
  | .int32 v => v.getLast?
  | .int64 v => v.getLast?
  | _ => none

/-- `src/server/crates/mf4lib/src/lib.rs`, `ChannelDecoder`. -/
inductive ChannelDecoder where
  | float32Le (offset : Nat)
  | float64Le (offset : Nat)
  | intLe (offset : Nat) (bit_count : Nat)
  | uintLe (offset : Nat) (bit_count : Nat)
deriving DecidableEq

/-- `ChannelDecoder::create_storage`; the capacity argument only sizes the
Rust `Vec` allocation and does not affect the value. -/
def ChannelDecoder.create_storage : ChannelDecoder → Nat → ChannelData
  | .float32Le _, _ => .float32 []
  | .float64Le _, _ => .float64 []
  | .intLe _ bc, _ =>
    if 1 ≤ bc ∧ bc ≤ 8 then .int8 []
    else if 9 ≤ bc ∧ bc ≤ 16 then .int16 []
    else if 17 ≤ bc ∧ bc ≤ 32 then .int32 []
    else if 33 ≤ bc ∧ bc ≤ 64 then .int64 []
    else .int64 []
  | .uintLe _ bc, _ =>
    if 1 ≤ bc ∧ bc ≤ 8 then .uint8 []
    else if 9 ≤ bc ∧ bc ≤ 16 then .uint16 []
    else if 17 ≤ bc ∧ bc ≤ 32 then .uint32 []
    else if 33 ≤ bc ∧ bc ≤ 64 then .uint64 []
    else .uint64 []

/-- The byte-accumulation loop of `ChannelDecoder::decode_into` for the
integer decoders: `val |= (data[offset + i] as i64/u64) << (8 * i)` for
`i in 0..count`, on bit patterns.  Returns `none` when an index is out of
range (a Rust panic). -/
def readBytesLorLE (data : List Nat) (offset : Nat) : Nat → Option Nat
  | 0 => some 0
  | i + 1 => do
    let acc ← readBytesLorLE data offset i
    let b ← data.get? (offset + i)
    some (Nat.lor acc (b <<< (8 * i)))

/-- Release-mode Rust `i64` shift pair `(val << shift) >> shift`:
the shift amount is masked by 63, the left shift wraps modulo `2^64`, and
the right shift is an arithmetic (floor-division) shift on the signed
interpretation. -/
def shlShrArithI64 (bits shift : Nat) : Int :=
  Int.fdiv (toSigned 64 ((bits <<< (shift % 64)) % 2 ^ 64)) (2 ^ (shift % 64))

/-- Release-mode Rust wrapping `u32` subtraction `a - b` (for `a, b < 2^32`). -/
def wrappingSub32 (a b : Nat) : Nat := (a + 2 ^ 32 - b % 2 ^ 32) % 2 ^ 32

/-- `ChannelDecoder::decode_into`.  `none` models a Rust panic
(out-of-range slice index) or an `unreachable!()` decoder/storage mismatch. -/
def ChannelDecoder.decode_into : ChannelDecoder → List Nat → ChannelData → Option ChannelData
  | .float32Le offset, data, .float32 vec =>
    if offset + 4 ≤ data.length then
      some (.float32 (vec ++ [byteValLE data offset 4]))
    else none
  | .float64Le offset, data, .float64 vec =>
    if offset + 8 ≤ data.length then
      some (.float64 (vec ++ [byteValLE data offset 8]))
    else none
  | .intLe offset bit_count, data, storage => do
    let byte_len := (bit_count + 7) / 8
    let val ← readBytesLorLE data offset byte_len
    let shift := wrappingSub32 64 bit_count
    let signed_val := shlShrArithI64 val shift
    match storage with
    | .int8 vec => some (.int8 (vec ++ [castToSignedWidth 8 signed_val]))
    | .int16 vec => some (.int16 (vec ++ [castToSignedWidth 16 signed_val]))
    | .int32 vec => some (.int32 (vec ++ [castToSignedWidth 32 signed_val]))
    | .int64 vec => some (.int64 (vec ++ [signed_val]))
    | _ => none
  | .uintLe offset bit_count, data, storage => do
    let byte_len := (bit_count + 7) / 8
    let val ← readBytesLorLE data offset byte_len
    match storage with
    | .uint8 vec => some (.uint8 (vec ++ [castToUnsignedWidth 8 val]))
    | .uint16 vec => some (.uint16 (vec ++ [castToUnsignedWidth 16 val]))
    | .uint32 vec => some (.uint32 (vec ++ [castToUnsignedWidth 32 val]))
    | .uint64 vec => some (.uint64 (vec ++ [val]))
    | _ => none
  | _, _, _ => none

/-- Byte width of a decoder's field in the record, as used by the safety
claim: `ceil(bit_count/8)` for integers, 4 or 8 for floats. -/
def ChannelDecoder.fieldWidth : ChannelDecoder → Nat
  | .float32Le _ => 4
  | .float64Le _ => 8
  | .intLe _ bc => (bc + 7) / 8
  | .uintLe _ bc => (bc + 7) / 8

/-- Field offset of a decoder. -/
def ChannelDecoder.fieldOffset : ChannelDecoder → Nat
  | .float32Le o => o
  | .float64Le o => o
  | .intLe o _ => o
  | .uintLe o _ => o

theorem lor_shiftLeft_eq_add {acc b i : Nat} (hacc : acc < 2 ^ i) :
    Nat.lor acc (b <<< i) = acc + b * 2 ^ i := by
  apply Nat.eq_of_testBit_eq
  intro j
  have hmul := Nat.testBit_mul_pow_two_add b hacc j
  have hcomm : acc + b * 2 ^ i = 2 ^ i * b + acc := by ring
  rw [hcomm, hmul]
  show (acc ||| b <<< i).testBit j = _
  rw [Nat.testBit_or, Nat.testBit_shiftLeft]
  by_cases h : j < i
  · simp [h, Nat.not_le.mpr h]
  · have : acc.testBit j = false :=
      Nat.testBit_lt_two_pow
        (Nat.lt_of_lt_of_le hacc (Nat.pow_le_pow_right (by norm_num) (Nat.le_of_not_lt h)))
    simp [h, Nat.le_of_not_lt h, this]

theorem byteValLE_lt {data : List Nat} (hb : ∀ x ∈ data, x < 256) (offset : Nat) :
    ∀ count, byteValLE data offset count < 2 ^ (8 * count) := by
  intro count
  induction count with
  | zero => simp [byteValLE]
  | succ i ih =>
    have hbyte : data.getD (offset + i) 0 < 256 := by
      rcases h : data[offset + i]? with _ | b
      · simp [List.getD_eq_getElem?_getD, h]
      · have hmem : b ∈ data := by
          have := List.getElem?_eq_some.mp h
          rcases this with ⟨hlt, heq⟩
          exact heq ▸ List.getElem_mem hlt
        have := hb b hmem
        simp only [List.getD_eq_getElem?_getD, h, Option.getD_some]
        omega
    have hmul : data.getD (offset + i) 0 * 2 ^ (8 * i) ≤ 255 * 2 ^ (8 * i) :=
      Nat.mul_le_mul_right _ (by omega)
    have h2 : 2 ^ (8 * (i + 1)) = 256 * 2 ^ (8 * i) := by ring
    simp only [byteValLE]
    omega

theorem readBytesLorLE_eq {data : List Nat} (hb : ∀ x ∈ data, x < 256) (offset : Nat) :
    ∀ count, offset + count ≤ data.length →
      readBytesLorLE data offset count = some (byteValLE data offset count) := by
  intro count
  induction count with
  | zero => intro _; rfl
  | succ i ih =>
    intro h
    have hi := ih (by omega)
    have hlen : offset + i < data.length := by omega
    have hget : data.get? (offset + i) = some (data.get ⟨offset + i, hlen⟩) :=
      List.get?_eq_get hlen
    have hlt := byteValLE_lt hb offset i
    simp only [readBytesLorLE, hi, hget, Option.bind_eq_bind, Option.some_bind]
    congr 1
    rw [lor_shiftLeft_eq_add hlt]
    simp only [byteValLE]
    congr 2
    rw [List.getD_eq_getElem?_getD]
    rw [List.get?_eq_getElem?] at hget
    simp [hget]

theorem toSigned_bounds {w x : Nat} (hw : 1 ≤ w) (hx : x < 2 ^ w) :
    -(2 ^ (w - 1) : Int) ≤ toSigned w x ∧ toSigned w x < 2 ^ (w - 1) := by
  have h2 : (2 ^ w : Int) = 2 ^ (w - 1) * 2 := by
    rw [← pow_succ]; congr 1; omega
  have hppos : (0 : Int) < 2 ^ (w - 1) := by positivity
  unfold toSigned
  split
  · constructor
    · have : (0 : Int) ≤ x := Int.ofNat_nonneg x
      omega
    · exact_mod_cast ‹x < 2 ^ (w - 1)›
  · have hx' : (x : Int) < 2 ^ w := by exact_mod_cast hx
    have hx2 : (2 ^ (w - 1) : Int) ≤ x := by
      have := Nat.le_of_not_lt ‹¬x < 2 ^ (w - 1)›
      exact_mod_cast this
    omega

theorem castToSignedWidth_of_bounds {w : Nat} {v : Int}
    (h1 : -(2 ^ (w - 1) : Int) ≤ v) (h2 : v < 2 ^ (w - 1)) (hw : 1 ≤ w) :
    castToSignedWidth w v = v := by
  have hpow : (2 ^ w : Int) = 2 ^ (w - 1) * 2 := by
    rw [← pow_succ]; congr 1; omega
  have hppos : (0 : Int) < 2 ^ w := by positivity
  unfold castToSignedWidth
  rcases le_or_lt 0 v with hv | hv
  · have hmod : v % (2 ^ w : Int) = v := Int.emod_eq_of_lt hv (by omega)
    rw [hmod]
    have htn : ((v.toNat : Int)) = v := Int.toNat_of_nonneg hv
    have hlt : v.toNat < 2 ^ (w - 1) := by
      have : ((v.toNat : Int)) < (2 ^ (w - 1) : Int) := by rw [htn]; exact h2
      exact_mod_cast this
    unfold toSigned
    simp [hlt, htn]
  · have hmod : v % (2 ^ w : Int) = v + 2 ^ w := by
      have halt : (v + 2 ^ w) % (2 ^ w : Int) = v % 2 ^ w := by
        simp [Int.add_mul_emod_self_left]
      rw [← halt]
      exact Int.emod_eq_of_lt (by omega) (by omega)
    rw [hmod]
    have htn : (((v + 2 ^ w).toNat : Int)) = v + 2 ^ w := Int.toNat_of_nonneg (by omega)
    have hnlt : ¬((v + 2 ^ w).toNat < 2 ^ (w - 1)) := by
      intro hc
      have : ((v + 2 ^ w).toNat : Int) < (2 ^ (w - 1) : Int) := by exact_mod_cast hc
      omega
    unfold toSigned
    simp only [hnlt, if_false]
    rw [htn]
    omega

theorem shlShrArithI64_eq {x bc : Nat} (hbc1 : 1 ≤ bc) (hbc2 : bc ≤ 64) :
    shlShrArithI64 x (wrappingSub32 64 bc) = toSigned bc (x % 2 ^ bc) := by
  have hws : wrappingSub32 64 bc = 64 - bc := by
    unfold wrappingSub32
    have h1 : bc % 2 ^ 32 = bc := Nat.mod_eq_of_lt (by omega)
    rw [h1]
    have h2 : 64 + 2 ^ 32 - bc = 2 ^ 32 + (64 - bc) := by omega
    rw [h2, Nat.add_mod_left]
    exact Nat.mod_eq_of_lt (by omega)
  have hsm : (64 - bc) % 64 = 64 - bc := Nat.mod_eq_of_lt (by omega)
  set s := 64 - bc with hs
  have hsum : bc + s = 64 := by omega
  unfold shlShrArithI64
  rw [hws, hsm]
  have hshl : x <<< s = x * 2 ^ s := Nat.shiftLeft_eq x s
  have hmod : (x <<< s) % 2 ^ 64 = (x % 2 ^ bc) * 2 ^ s := by
    rw [hshl, ← hsum, pow_add, Nat.mul_mod_mul_right]
  rw [hmod]
  set y := x % 2 ^ bc with hy
  have hylt : y < 2 ^ bc := Nat.mod_lt _ (by positivity)
  have hpow64 : (2 ^ 64 : Int) = 2 ^ bc * 2 ^ s := by
    rw [← pow_add, hsum]
  have hpow63 : (2 ^ 63 : Int) = 2 ^ (bc - 1) * 2 ^ s := by
    rw [← pow_add]; congr 1; omega
  have hts : toSigned 64 (y * 2 ^ s) = toSigned bc y * 2 ^ s := by
    unfold toSigned
    have hiff : y * 2 ^ s < 2 ^ (64 - 1) ↔ y < 2 ^ (bc - 1) := by
      have h63 : (64 : Nat) - 1 = 63 := by norm_num
      rw [h63]
      have : (2 ^ 63 : Nat) = 2 ^ (bc - 1) * 2 ^ s := by
        rw [← pow_add]; congr 1; omega
      rw [this]
      exact Nat.mul_lt_mul_right (by positivity)
    by_cases hcase : y < 2 ^ (bc - 1)
    · simp only [hiff.mpr hcase, if_true, hcase, if_true]
      push_cast; ring
    · simp only [hiff, hcase, if_false]
      push_cast [hpow64]
      ring
  rw [hts]
  exact Int.mul_fdiv_cancel _ (by positivity)

theorem castToSignedWidth_eq_of_le {w w' : Nat} {v : Int}
    (h1 : -(2 ^ (w - 1) : Int) ≤ v) (h2 : v < 2 ^ (w - 1))
    (hw : 1 ≤ w) (hle : w ≤ w') :
    castToSignedWidth w' v = v := by
  have hmono : (2 ^ (w - 1) : Int) ≤ 2 ^ (w' - 1) :=
    pow_le_pow_right₀ (by norm_num) (by omega)
  exact castToSignedWidth_of_bounds (by omega) (by omega) (by omega)

/-- C2: for `bit_count ∈ [1,64]` the `IntLe` decoder, applied to the storage
it creates, appends exactly the two's-complement interpretation of
`x mod 2^bit_count`, where `x` is the little-endian value of the
`ceil(bit_count/8)` bytes at the channel's offset. -/
theorem intLe_decode_pushes_twos_complement (offset bc : Nat) (data : List Nat)
    (hbc1 : 1 ≤ bc) (hbc2 : bc ≤ 64) (hb : ∀ x ∈ data, x < 256)
    (hcov : offset + (bc + 7) / 8 ≤ data.length) :
    ∃ st, (ChannelDecoder.intLe offset bc).decode_into data
            ((ChannelDecoder.intLe offset bc).create_storage 0) = some st ∧
      st.intLast = some (toSigned bc (byteValLE data offset ((bc + 7) / 8) % 2 ^ bc)) ∧
      st.len = 1 := by
  have hread := readBytesLorLE_eq hb offset ((bc + 7) / 8) hcov
  have hval := shlShrArithI64_eq (x := byteValLE data offset ((bc + 7) / 8)) hbc1 hbc2
  set x := byteValLE data offset ((bc + 7) / 8) with hx
  set y := x % 2 ^ bc with hy
  have hylt : y < 2 ^ bc := Nat.mod_lt _ (by positivity)
  have hbounds := toSigned_bounds hbc1 hylt
  by_cases h8 : bc ≤ 8
  · have hcs : (ChannelDecoder.intLe offset bc).create_storage 0 = .int8 [] := by
      simp [ChannelDecoder.create_storage, hbc1, h8]
    refine ⟨.int8 [toSigned bc y], ?_, by simp [ChannelData.intLast],
      by simp [ChannelData.len]⟩
    rw [hcs]
    simp only [ChannelDecoder.decode_into, hread, Option.bind_eq_bind, Option.some_bind, hval]
    rw [castToSignedWidth_eq_of_le hbounds.1 hbounds.2 hbc1 h8]
    simp
  · by_cases h16 : bc ≤ 16
    · have hcs : (ChannelDecoder.intLe offset bc).create_storage 0 = .int16 [] := by
        have hc1 : ¬(1 ≤ bc ∧ bc ≤ 8) := by omega
        have hc2 : (9 ≤ bc ∧ bc ≤ 16) := by omega
        simp [ChannelDecoder.create_storage, hc1, hc2]
      refine ⟨.int16 [toSigned bc y], ?_, by simp [ChannelData.intLast],
        by simp [ChannelData.len]⟩
      rw [hcs]
      simp only [ChannelDecoder.decode_into, hread, Option.bind_eq_bind, Option.some_bind, hval]
      rw [castToSignedWidth_eq_of_le hbounds.1 hbounds.2 hbc1 h16]
      simp
    · by_cases h32 : bc ≤ 32
      · have hcs : (ChannelDecoder.intLe offset bc).create_storage 0 = .int32 [] := by
          have hc1 : ¬(1 ≤ bc ∧ bc ≤ 8) := by omega
          have hc2 : ¬(9 ≤ bc ∧ bc ≤ 16) := by omega
          have hc3 : (17 ≤ bc ∧ bc ≤ 32) := by omega
          simp [ChannelDecoder.create_storage, hc1, hc2, hc3]
        refine ⟨.int32 [toSigned bc y], ?_, by simp [ChannelData.intLast],
          by simp [ChannelData.len]⟩
        rw [hcs]
        simp only [ChannelDecoder.decode_into, hread, Option.bind_eq_bind, Option.some_bind, hval]
        rw [castToSignedWidth_eq_of_le hbounds.1 hbounds.2 hbc1 h32]
        simp
      · have hcs : (ChannelDecoder.intLe offset bc).create_storage 0 = .int64 [] := by
          have hc1 : ¬(1 ≤ bc ∧ bc ≤ 8) := by omega
          have hc2 : ¬(9 ≤ bc ∧ bc ≤ 16) := by omega
          have hc3 : ¬(17 ≤ bc ∧ bc ≤ 32) := by omega
          have hc4 : (33 ≤ bc ∧ bc ≤ 64) := by omega
          simp [ChannelDecoder.create_storage, hc1, hc2, hc3, hc4]
        refine ⟨.int64 [toSigned bc y], ?_, by simp [ChannelData.intLast],
          by simp [ChannelData.len]⟩
        rw [hcs]
        simp only [ChannelDecoder.decode_into, hread, Option.bind_eq_bind, Option.some_bind, hval]
        simp

theorem readBytesLorLE_isSome {data : List Nat} {offset : Nat} :
    ∀ {count}, offset + count ≤ data.length →
      ∃ v, readBytesLorLE data offset count = some v := by
  intro count
  induction count with
  | zero => intro _; exact ⟨0, rfl⟩
  | succ i ih =>
    intro h
    obtain ⟨v, hv⟩ := ih (by omega)
    have hlen : offset + i < data.length := by omega
    have hget : data.get? (offset + i) = some (data.get ⟨offset + i, hlen⟩) :=
      List.get?_eq_get hlen
    exact ⟨Nat.lor v (data.get ⟨offset + i, hlen⟩ <<< (8 * i)),
      by simp only [readBytesLorLE, hv, hget, Option.bind_eq_bind, Option.some_bind]⟩

theorem intLe_create_storage_shape (offset bc cap : Nat) :
    ∃ v, ((ChannelDecoder.intLe offset bc).create_storage cap = .int8 v ∨
          (ChannelDecoder.intLe offset bc).create_storage cap = .int16 v ∨
          (ChannelDecoder.intLe offset bc).create_storage cap = .int32 v ∨
          (ChannelDecoder.intLe offset bc).create_storage cap = .int64 v) ∧ v = [] := by
  refine ⟨[], ?_, rfl⟩
  simp only [ChannelDecoder.create_storage]
  repeat' split
  all_goals simp

theorem uintLe_create_storage_shape (offset bc cap : Nat) :
    ∃ v, ((ChannelDecoder.uintLe offset bc).create_storage cap = .uint8 v ∨
          (ChannelDecoder.uintLe offset bc).create_storage cap = .uint16 v ∨
          (ChannelDecoder.uintLe offset bc).create_storage cap = .uint32 v ∨
          (ChannelDecoder.uintLe offset bc).create_storage cap = .uint64 v) ∧ v = [] := by
  refine ⟨[], ?_, rfl⟩
  simp only [ChannelDecoder.create_storage]
  repeat' split
  all_goals simp

/-- C9: whenever `data` covers the decoder's field, `decode_into` applied to
the storage produced by `create_storage` succeeds (no `unreachable!()`
branch, no out-of-range panic) and appends exactly one element. -/
theorem decode_into_create_storage_appends_one (d : ChannelDecoder) (cap : Nat)
    (data : List Nat) (hcov : d.fieldOffset + d.fieldWidth ≤ data.length) :
    ∃ st, d.decode_into data (d.create_storage cap) = some st ∧
      st.len = (d.create_storage cap).len + 1 := by
  cases d with
  | float32Le offset =>
    simp only [ChannelDecoder.fieldOffset, ChannelDecoder.fieldWidth] at hcov
    refine ⟨.float32 [byteValLE data offset 4], ?_, ?_⟩
    · simp [ChannelDecoder.decode_into, ChannelDecoder.create_storage, hcov]
    · simp [ChannelData.len, ChannelDecoder.create_storage]
  | float64Le offset =>
    simp only [ChannelDecoder.fieldOffset, ChannelDecoder.fieldWidth] at hcov
    refine ⟨.float64 [byteValLE data offset 8], ?_, ?_⟩
    · simp [ChannelDecoder.decode_into, ChannelDecoder.create_storage, hcov]
    · simp [ChannelData.len, ChannelDecoder.create_storage]
  | intLe offset bc =>
    simp only [ChannelDecoder.fieldOffset, ChannelDecoder.fieldWidth] at hcov
    obtain ⟨v, hv⟩ := readBytesLorLE_isSome hcov
    obtain ⟨w, hshape, hw⟩ := intLe_create_storage_shape offset bc cap
    subst hw
    have hsv : ∀ vec : List Int, ∀ wd : Nat,
        (ChannelDecoder.intLe offset bc).decode_into data (.int8 vec) =
          some (.int8 (vec ++ [castToSignedWidth 8
            (shlShrArithI64 v (wrappingSub32 64 bc))])) := by
      intro vec _
      simp only [ChannelDecoder.decode_into, hv, Option.bind_eq_bind, Option.some_bind]
    rcases hshape with hcs | hcs | hcs | hcs
    · rw [hcs]
      exact ⟨_, hsv [] 0, by simp [ChannelData.len]⟩
    · rw [hcs]
      refine ⟨.int16 [castToSignedWidth 16 (shlShrArithI64 v (wrappingSub32 64 bc))], ?_, ?_⟩
      · simp only [ChannelDecoder.decode_into, hv, Option.bind_eq_bind, Option.some_bind]
        simp
      · simp [ChannelData.len]
    · rw [hcs]
      refine ⟨.int32 [castToSignedWidth 32 (shlShrArithI64 v (wrappingSub32 64 bc))], ?_, ?_⟩
      · simp only [ChannelDecoder.decode_into, hv, Option.bind_eq_bind, Option.some_bind]
        simp
      · simp [ChannelData.len]
    · rw [hcs]
      refine ⟨.int64 [shlShrArithI64 v (wrappingSub32 64 bc)], ?_, ?_⟩
      · simp only [ChannelDecoder.decode_into, hv, Option.bind_eq_bind, Option.some_bind]
        simp
      · simp [ChannelData.len]
  | uintLe offset bc =>
    simp only [ChannelDecoder.fieldOffset, ChannelDecoder.fieldWidth] at hcov
    obtain ⟨v, hv⟩ := readBytesLorLE_isSome hcov
    obtain ⟨w, hshape, hw⟩ := uintLe_create_storage_shape offset bc cap
    subst hw
    rcases hshape with hcs | hcs | hcs | hcs
    · rw [hcs]
      refine ⟨.uint8 [castToUnsignedWidth 8 v], ?_, ?_⟩
      · simp only [ChannelDecoder.decode_into, hv, Option.bind_eq_bind, Option.some_bind]
        simp
      · simp [ChannelData.len]
    · rw [hcs]
      refine ⟨.uint16 [castToUnsignedWidth 16 v], ?_, ?_⟩
      · simp only [ChannelDecoder.decode_into, hv, Option.bind_eq_bind, Option.some_bind]
        simp
      · simp [ChannelData.len]
    · rw [hcs]
      refine ⟨.uint32 [castToUnsignedWidth 32 v], ?_, ?_⟩
      · simp only [ChannelDecoder.decode_into, hv, Option.bind_eq_bind, Option.some_bind]
        simp
      · simp [ChannelData.len]
    · rw [hcs]
      refine ⟨.uint64 [v], ?_, ?_⟩
      · simp only [ChannelDecoder.decode_into, hv, Option.bind_eq_bind, Option.some_bind]
        simp
      · simp [ChannelData.len]

/-- Model of the Rust `f64` type as used by `ChannelData::as_f64`: a carrier
with a NaN test satisfied by `f64::NAN`, and the primitive `as f64`
conversions from each column element type (float columns are represented by
their bit patterns). -/
structure F64Model where
  F : Type
  nan : F
  isNaN : F → Bool
  nan_isNaN : isNaN nan = true
  ofF32bits : Nat → F
  ofF64bits : Nat → F
  ofI8 : Int → F
  ofI16 : Int → F
  ofI32 : Int → F
  ofI64 : Int → F
  ofU8 : Nat → F
  ofU16 : Nat → F
  ofU32 : Nat → F
  ofU64 : Nat → F

/-- `ChannelData::as_f64`: `v.get(index)` converted to `f64`, with
`f64::NAN` as the out-of-range default. -/
def ChannelData.as_f64 (m : F64Model) : ChannelData → Nat → m.F
  | .float32 v, i => ((v.get? i).map m.ofF32bits).getD m.nan
  | .float64 v, i => ((v.get? i).map m.ofF64bits).getD m.nan
  | .int8 v, i => ((v.get? i).map m.ofI8).getD m.nan
  | .int16 v, i => ((v.get? i).map m.ofI16).getD m.nan
  | .int32 v, i => ((v.get? i).map m.ofI32).getD m.nan
  | .int64 v, i => ((v.get? i).map m.ofI64).getD m.nan
  | .uint8 v, i => ((v.get? i).map m.ofU8).getD m.nan
  | .uint16 v, i => ((v.get? i).map m.ofU16).getD m.nan
  | .uint32 v, i => ((v.get? i).map m.ofU32).getD m.nan
  | .uint64 v, i => ((v.get? i).map m.ofU64).getD m.nan

/-- The element of a column at an in-range index, converted to `f64`. -/
def ChannelData.elemAsF64 (m : F64Model) :
    (c : ChannelData) → (i : Nat) → i < c.len → m.F
  | .float32 v, i, h => m.ofF32bits (v.get ⟨i, h⟩)
  | .float64 v, i, h => m.ofF64bits (v.get ⟨i, h⟩)
  | .int8 v, i, h => m.ofI8 (v.get ⟨i, h⟩)
  | .int16 v, i, h => m.ofI16 (v.get ⟨i, h⟩)
  | .int32 v, i, h => m.ofI32 (v.get ⟨i, h⟩)
  | .int64 v, i, h => m.ofI64 (v.get ⟨i, h⟩)
  | .uint8 v, i, h => m.ofU8 (v.get ⟨i, h⟩)
  | .uint16 v, i, h => m.ofU16 (v.get ⟨i, h⟩)
  | .uint32 v, i, h => m.ofU32 (v.get ⟨i, h⟩)
  | .uint64 v, i, h => m.ofU64 (v.get ⟨i, h⟩)

/-- C10: `as_f64` is total: it returns the converted element when the index
is in range and `f64::NAN` (never a panic) when it is not. -/
theorem as_f64_total (m : F64Model) (c : ChannelData) (i : Nat) :
    (∀ h : i < c.len, c.as_f64 m i = c.elemAsF64 m i h) ∧
    (c.len ≤ i → m.isNaN (c.as_f64 m i) = true) := by
  cases c <;>
    refine ⟨fun h => ?_, fun h => ?_⟩ <;>
      simp only [ChannelData.len] at h
  all_goals
    first
    | (simp only [ChannelData.as_f64, ChannelData.elemAsF64, List.get?_eq_getElem?]
       rw [List.getElem?_eq_getElem h]
       simp [List.get_eq_getElem])
    | (have hnone : _ = (none : Option _) := List.get?_eq_none.mpr h
       simp only [ChannelData.as_f64, hnone, Option.map_none, Option.getD_none]
       exact m.nan_isNaN)

/-- A concrete instance of `F64Model` (element values tagged with their
column type, `none` playing the role of NaN), used by witnesses. -/
def f64ModelTagged : F64Model where
  F := Option (Int × Nat)
  nan := none
  isNaN := Option.isNone
  nan_isNaN := rfl
  ofF32bits := fun n => some (n, 0)
  ofF64bits := fun n => some (n, 1)
  ofI8 := fun v => some (v, 2)
  ofI16 := fun v => some (v, 3)
  ofI32 := fun v => some (v, 4)
  ofI64 := fun v => some (v, 5)
  ofU8 := fun v => some (v, 6)
  ofU16 := fun v => some (v, 7)
  ofU32 := fun v => some (v, 8)
  ofU64 := fun v => some (v, 9)

/-- Witness for C10 at a concrete column and indices 0 (in range) and 3
(out of range). -/
theorem as_f64_total_witness :
    (ChannelData.int8 [5]).as_f64 f64ModelTagged 0 = some (5, 2) ∧
    f64ModelTagged.isNaN ((ChannelData.int8 [5]).as_f64 f64ModelTagged 3) = true :=
  ⟨((as_f64_total f64ModelTagged (.int8 [5]) 0).1 (by decide)).trans (by rfl),
   (as_f64_total f64ModelTagged (.int8 [5]) 3).2 (by decide)⟩

/-- Witness for C2 at `bit_count = 5`, one record byte `22 = 0b10110`
(decoded value `-10`). -/
theorem intLe_decode_pushes_twos_complement_witness :
    (1 ≤ 5 ∧ 5 ≤ 64 ∧ (∀ x ∈ [(22 : Nat)], x < 256) ∧ 0 + (5 + 7) / 8 ≤ 1) ∧
    ∃ st, (ChannelDecoder.intLe 0 5).decode_into [22]
            ((ChannelDecoder.intLe 0 5).create_storage 0) = some st ∧
      st.intLast = some (toSigned 5 (byteValLE [22] 0 ((5 + 7) / 8) % 2 ^ 5)) ∧
      st.len = 1 :=
  ⟨⟨by decide, by decide, by decide, by decide⟩,
   intLe_decode_pushes_twos_complement 0 5 [22] (by decide) (by decide) (by decide) (by decide)⟩

/-- Witness for C9 at a `UintLe` decoder with `bit_count = 12` and a
two-byte record. -/
theorem decode_into_create_storage_appends_one_witness :
    ((ChannelDecoder.uintLe 0 12).fieldOffset + (ChannelDecoder.uintLe 0 12).fieldWidth ≤ 2) ∧
    ∃ st, (ChannelDecoder.uintLe 0 12).decode_into [255, 15]
            ((ChannelDecoder.uintLe 0 12).create_storage 0) = some st ∧
      st.len = ((ChannelDecoder.uintLe 0 12).create_storage 0).len + 1 :=
  ⟨by decide, decode_into_create_storage_appends_one (.uintLe 0 12) 0 [255, 15] (by decide)⟩

/-! ## `Mf4::decode_all_data` (src/server/crates/mf4lib/src/lib.rs)

The embedding works at the level of successfully decoded blocks: a data
group is its `record_id_size`, its channel-group chain and its payload root
(`##DL` chain of `##DT` payloads, or a single `##DT` payload, each payload
being the block's `length - 24` bytes).  Text links for names and units are
taken as already-resolved strings.  File reads into the streaming buffer
return the full requested chunk. -/

/-- `src/server/crates/mf4lib/src/blocks.rs`, `DataType`. -/
inductive DataTypeE where
  | uintLe | uintBe | intLe | intBe | floatLe | floatBe
  | stringAscii | stringUtf8 | stringUtf16Le | stringUtf16Be
  | byteArray | mimeSample | mimeStream | canOpenDate | canOpenTime
  | complexLe | complexBe
deriving DecidableEq

/-- The fields of a `##CN` block consumed by `decode_all_data`. -/
structure ChannelBlockE where
  name : List Char
  unit : List Char
  channel_type : Nat
  data_type : DataTypeE
  bit_offset : Nat
  byte_offset : Nat
  bit_count : Nat
deriving DecidableEq

/-- The fields of a `##CG` block consumed by `decode_all_data`. -/
structure ChannelGroupBlockE where
  name : List Char
  record_id : Nat
  data_bytes : Nat
  invalidation_bytes : Nat
  channels : List ChannelBlockE
deriving DecidableEq

/-- The payload root of a data group: either a `##DL` chain (each chain
entry carrying the payloads of its `##DT` links) or a single `##DT`. -/
inductive DataRootE where
  | dataList (blocks : List (List (List Nat)))
  | dataTable (payload : List Nat)
deriving DecidableEq

/-- The fields of a `##DG` block consumed by `decode_all_data`. -/
structure DataGroupBlockE where
  record_id_size : Nat
  channel_groups : List ChannelGroupBlockE
  data : Option DataRootE
deriving DecidableEq

/-- `DecodedChannelInfo`. -/
structure DecodedChannelInfo where
  name : List Char
  unit : List Char
  data : ChannelData
  decoder : ChannelDecoder
deriving DecidableEq

/-- `DecodedChannelGroupInfo`. -/
structure DecodedChannelGroupInfo where
  name : List Char
  data_bytes : Nat
  invalidation_bytes : Nat
  channels : List DecodedChannelInfo
deriving DecidableEq

/-- The distinct failure modes of `decode_all_data`.  `panicked` models a
Rust panic (`panic!` for variable-length channels, slice indexing);
`diverged` models an infinite record loop (`record size = 0`). -/
inductive DecodeErr where
  | invalidRecordIdSize
  | duplicateRecordId
  | recordIdExceedsSize
  | floatBitOffset
  | floatBitCount
  | unknownRecordId
  | panicked
  | diverged
deriving DecidableEq

/-- The per-channel decoder construction in `decode_all_data`'s channel
loop: `ok none` is the `continue` for unsupported data types (note that it
skips the `channel_type == 1` panic). -/
def buildChannel (ch : ChannelBlockE) : Except DecodeErr (Option DecodedChannelInfo) := do
  let decoder ←
    match ch.data_type with
    | .floatLe =>
      if ch.bit_offset ≠ 0 then throw .floatBitOffset
      else if ch.bit_count = 32 then pure (ChannelDecoder.float32Le ch.byte_offset)
      else if ch.bit_count = 64 then pure (ChannelDecoder.float64Le ch.byte_offset)
      else throw .floatBitCount
    | .intLe => pure (ChannelDecoder.intLe ch.byte_offset ch.bit_count)
    | .uintLe => pure (ChannelDecoder.uintLe ch.byte_offset ch.bit_count)
    | _ => return none
  if ch.channel_type = 1 then throw .panicked
  else
    return some { name := ch.name, unit := ch.unit,
                  data := decoder.create_storage 0, decoder := decoder }

/-- The channel-group map of one data group (`HashMap<u64, ...>` modelled
as an association list in insertion order). -/
abbrev GroupsMap := List (Nat × DecodedChannelGroupInfo)

def GroupsMap.containsKey (m : GroupsMap) (k : Nat) : Bool :=
  m.any (fun p => p.1 = k)

def GroupsMap.lookup (m : GroupsMap) (k : Nat) : Option DecodedChannelGroupInfo :=
  (m.find? (fun p => p.1 = k)).map Prod.snd

def GroupsMap.update (m : GroupsMap) (k : Nat) (g : DecodedChannelGroupInfo) : GroupsMap :=
  m.map (fun p => if p.1 = k then (k, g) else p)

/-- The channel-group validation and construction loop of
`decode_all_data`. -/
def buildGroups (record_id_size : Nat) :
    List ChannelGroupBlockE → GroupsMap → Except DecodeErr GroupsMap
  | [], acc => pure acc
  | cg :: rest, acc => do
    if acc.containsKey cg.record_id then throw .duplicateRecordId
    else if cg.record_id ≥ 1 <<< record_id_size then throw .recordIdExceedsSize
    else
      let channels ← cg.channels.foldlM (fun (chs : List DecodedChannelInfo) ch => do
        match ← buildChannel ch with
        | none => pure chs
        | some c => pure (chs ++ [c])) []
      buildGroups record_id_size rest
        (acc ++ [(cg.record_id, { name := cg.name, data_bytes := cg.data_bytes,
                                  invalidation_bytes := cg.invalidation_bytes,
                                  channels := channels })])

/-- Apply every channel decoder of a group to one record's data slice. -/
def decodeRecordInto (record_data : List Nat) :
    List DecodedChannelInfo → Option (List DecodedChannelInfo)
  | [] => some []
  | c :: rest => do
    let st ← c.decoder.decode_into record_data c.data
    let rest' ← decodeRecordInto record_data rest
    some ({ c with data := st } :: rest')

/-- The record-id read at the head of `cursor` (`cursor.length ≥ rsize` is
the loop guard); the `_ => unreachable!()` arm is a panic. -/
def readRecordId (rsize : Nat) (cursor : List Nat) : Except DecodeErr Nat :=
  match rsize with
  | 0 => pure 0
  | 1 => pure (byteValLE cursor 0 1)
  | 2 => pure (byteValLE cursor 0 2)
  | 4 => pure (byteValLE cursor 0 4)
  | 8 => pure (byteValLE cursor 0 8)
  | _ => throw .panicked

/-- The inner record loop of `decode_table`: consume whole records from
`cursor`, returning the updated groups and the unconsumed trailing bytes.
`fuel` dominates the iteration count; running out models the infinite loop
on zero-sized records. -/
def processRecords (rsize : Nat) : Nat → GroupsMap → List Nat →
    Except DecodeErr (GroupsMap × List Nat)
  | 0, _, _ => throw .diverged
  | fuel + 1, groups, cursor =>
    if cursor.length ≥ rsize then do
      let record_id ← readRecordId rsize cursor
      let cursor := cursor.drop rsize
      match groups.lookup record_id with
      | none => throw .unknownRecordId
      | some group =>
        if cursor.length < group.data_bytes + group.invalidation_bytes then
          pure (groups, cursor)
        else do
          let record_data := cursor.take group.data_bytes
          match decodeRecordInto record_data group.channels with
          | none => throw .panicked
          | some channels' =>
            processRecords rsize fuel
              (groups.update record_id { group with channels := channels' })
              (cursor.drop (group.data_bytes + group.invalidation_bytes))
    else
      pure (groups, cursor)

/-- The streaming-buffer context of `decode_table`: the buffer capacity and
the bytes preserved from the previous read (`preserve_bytes` of them,
compacted to the front of the buffer). -/
structure DataTableDecoderContext where
  bufCap : Nat
  pending : List Nat
deriving DecidableEq

/-- The refill loop of `decode_table` over one `##DT` payload.  Each
iteration reads `min(bufCap - pending.length, remaining)` bytes (reads
return the full chunk), runs the record loop over `pending ++ chunk`, and
keeps the unconsumed tail as the new `pending`. -/
def decodeTableLoop (rsize : Nat) : Nat → DataTableDecoderContext → GroupsMap → List Nat →
    Except DecodeErr (DataTableDecoderContext × GroupsMap)
  | 0, ctx, groups, _ => pure (ctx, groups)
  | fuel + 1, ctx, groups, payload =>
    if payload.length = 0 then pure (ctx, groups)
    else do
      let chunk_length := min (ctx.bufCap - ctx.pending.length) payload.length
      if chunk_length = 0 then pure (ctx, groups)
      else do
        let chunk := payload.take chunk_length
        let (groups', leftover) ←
          processRecords rsize (ctx.pending.length + chunk_length + 1) groups
            (ctx.pending ++ chunk)
        decodeTableLoop rsize fuel { ctx with pending := leftover } groups'
          (payload.drop chunk_length)

/-- `decode_table`: stream one `##DT` payload through the shared context. -/
def decode_table (ctx : DataTableDecoderContext) (groups : GroupsMap) (rsize : Nat)
    (payload : List Nat) : Except DecodeErr (DataTableDecoderContext × GroupsMap) :=
  decodeTableLoop rsize (payload.length + 1) ctx groups payload

/-- Decode every `##DT` payload reached from the data group's `data` link,
sharing one streaming context. -/
def decodeDataRoot (rsize : Nat) (ctx : DataTableDecoderContext) (groups : GroupsMap) :
    Option DataRootE → Except DecodeErr GroupsMap
  | none => pure groups
  | some (.dataTable payload) => do
    let (_, groups') ← decode_table ctx groups rsize payload
    pure groups'
  | some (.dataList blocks) => do
    let (_, groups') ← blocks.foldlM (fun (acc : DataTableDecoderContext × GroupsMap) block =>
      block.foldlM (fun (acc : DataTableDecoderContext × GroupsMap) payload =>
        decode_table acc.1 acc.2 rsize payload) acc) (ctx, groups)
    pure groups'

/-- `Mf4::decode_all_data`. -/
def decode_all_data (dgs : List DataGroupBlockE) :
    Except DecodeErr (List DecodedChannelGroupInfo) := do
  let mut all : List DecodedChannelGroupInfo := []
  for dg in dgs do
    if ¬(dg.record_id_size = 0 ∨ dg.record_id_size = 1 ∨ dg.record_id_size = 2 ∨
         dg.record_id_size = 4 ∨ dg.record_id_size = 8) then
      throw .invalidRecordIdSize
    let groups ← buildGroups dg.record_id_size dg.channel_groups []
    let ctx : DataTableDecoderContext := { bufCap := 8192, pending := [] }
    let groups ← decodeDataRoot dg.record_id_size ctx groups dg.data
    all := all ++ groups.map Prod.snd
  return all

/-- Total payload bytes of a data group, as the claim counts them: the sum
of `length - 24` (i.e. payload length) over all `##DT` blocks reached from
the group's `data` link. -/
def totalPayloadBytes : Option DataRootE → Nat
  | none => 0
  | some (.dataTable payload) => payload.length
  | some (.dataList blocks) =>
    (blocks.map (fun block => (block.map List.length).sum)).sum

/-- One `UintLe` channel occupying the single record data byte. -/
def chOneByte : ChannelBlockE :=
  { name := [], unit := [], channel_type := 0, data_type := .uintLe,
    bit_offset := 0, byte_offset := 0, bit_count := 8 }

/-- A channel group with `record_id = 1`, `data_bytes = 1`,
`invalidation_bytes = 0`. -/
def cgBoundary : ChannelGroupBlockE :=
  { name := [], record_id := 1, data_bytes := 1, invalidation_bytes := 0,
    channels := [chOneByte] }

/-- A data group with `record_id_size = 1` whose `##DL` chain holds two
`##DT` payloads `[1]` and `[1, 1, 1]`: the record `[id 1, data 1]` that
spans the table boundary loses its id byte. -/
def dgBoundary : DataGroupBlockE :=
  { record_id_size := 1, channel_groups := [cgBoundary],
    data := some (.dataList [[[1], [1, 1, 1]]]) }

/-- C1 (code bug): `decode_all_data` accepts `dgBoundary` but decodes only
one record.  The total payload is 4 bytes and the record size is
`1 + 1 + 0 = 2`, so the claim requires column length `4 / 2 = 2`; the code
consumes the record id at the end of the first `##DT` without preserving
it across the refill, so the column has length 1. -/
theorem decode_all_data_loses_record_at_table_boundary :
    decode_all_data [dgBoundary] =
      .ok [{ name := [], data_bytes := 1, invalidation_bytes := 0,
             channels := [{ name := [], unit := [], data := .uint8 [1],
                            decoder := .uintLe 0 8 }] }] ∧
    totalPayloadBytes dgBoundary.data /
      (dgBoundary.record_id_size + cgBoundary.data_bytes + cgBoundary.invalidation_bytes) = 2 ∧
    (ChannelData.uint8 [1]).len = 1 := by
  refine ⟨by rfl, by rfl, by rfl⟩

/-- A channel group whose `record_id = 2` is unique and far below
`2^(8·record_id_size) = 256`. -/
def cgRecordId2 : ChannelGroupBlockE :=
  { name := [], record_id := 2, data_bytes := 1, invalidation_bytes := 0, channels := [] }

/-- A data group with `record_id_size = 1` containing only `cgRecordId2`. -/
def dgRecordId2 : DataGroupBlockE :=
  { record_id_size := 1, channel_groups := [cgRecordId2], data := none }

/-- C4 (code bug): the code validates `record_id < 2^record_id_size`
(`1 << record_id_size`) instead of the claimed `record_id < 2^(8 ·
record_id_size)`, so the unique record id 2 with `record_id_size = 1` is
rejected even though `2 < 256`. -/
theorem decode_all_data_rejects_valid_record_id :
    decode_all_data [dgRecordId2] = .error .recordIdExceedsSize ∧
    cgRecordId2.record_id < 2 ^ (8 * dgRecordId2.record_id_size) := by
  refine ⟨by rfl, by decide⟩

/-! ## The conversion compiler of `Mf4::channels`
(src/server/crates/mf4lib/src/lib.rs, `recurse`;
src/server/crates/mf4lib/src/blocks.rs, `ConversionType::read_options`). -/

/-- Expression nodes (`Node` in lib.rs); `f64` literals are bit patterns. -/
inductive Node where
  | arg
  | text (s : List Char)
  | value (v : Nat)
  | values (vs : List Nat)
  | group (n : Nat)
  | functionCall (name : List Char)
deriving DecidableEq

/-- `src/server/crates/mf4lib/src/blocks.rs`, `ConversionType`. -/
inductive ConversionType where
  | oneToOne | linear | rational | algebraic
  | valueToValueTableWithInterpolation
  | valueToValueTableWithoutInterpolation
  | valueRangeToValueTable
  | valueToTextOrScale
  | valueRangeToTextOrScale
  | textToValue | textToText
deriving DecidableEq

/-- `ConversionType::read_options`: decode the raw tag byte; any value
outside `0..=10` is a `BadMagic` error. -/
def ConversionType.readTag : Nat → Except Unit ConversionType
  | 0 => .ok .oneToOne
  | 1 => .ok .linear
  | 2 => .ok .rational
  | 3 => .ok .algebraic
  | 4 => .ok .valueToValueTableWithInterpolation
  | 5 => .ok .valueToValueTableWithoutInterpolation
  | 6 => .ok .valueRangeToValueTable
  | 7 => .ok .valueToTextOrScale
  | 8 => .ok .valueRangeToTextOrScale
  | 9 => .ok .textToValue
  | 10 => .ok .textToText
  | _ => .error ()

/-- A `##CC` block as stored in the file: the raw `conversion_type` byte,
the child links after the four fixed links, and the `f64` parameter bit
patterns. -/
structure RawCcBlock where
  conversion_type_tag : Nat
  refs : List Nat
  values : List Nat
deriving DecidableEq

/-- A block reachable from a conversion link: `##CC` or `##TX`. -/
inductive RawCcOrTx where
  | cc (b : RawCcBlock)
  | tx (data : List Char)
deriving DecidableEq

/-- A conversion-link store: maps link offsets to the block stored there. -/
abbrev CcStore := Nat → Option RawCcOrTx

/-- Typed `##CC` block (`ChannelConversionBlock` restricted to the fields
`recurse` reads). -/
structure ChannelConversionBlockE where
  conversion_type : ConversionType
  refs : List Nat
  values : List Nat
deriving DecidableEq

/-- `ChannelConversionOrTextBlock` decoded at a link:
`none` when the link resolves to nothing or the `##CC` block's
`conversion_type` byte is invalid (the `binrw` read fails, so the `unwrap`
in `recurse` panics). -/
def readCcOrTx (store : CcStore) (link : Nat) :
    Option (ChannelConversionBlockE ⊕ List Char) :=
  match store link with
  | none => none
  | some (.tx data) => some (.inr data)
  | some (.cc b) =>
    match ConversionType.readTag b.conversion_type_tag with
    | .error _ => none
    | .ok ty => some (.inl { conversion_type := ty, refs := b.refs, values := b.values })

/-- Failure modes of the conversion compiler: the arity error, a panic
(`unwrap` on a failed block read, out-of-range indexing), or fuel
exhaustion on a cyclic link graph (infinite recursion in Rust). -/
inductive CompileErr where
  | invalidParamCount
  | panicked
  | outOfFuel
deriving DecidableEq

/-- Elements of `l` at even positions (`chunks(2)` first components). -/
def evens : List Nat → List Nat
  | [] => []
  | [a] => [a]
  | a :: _ :: rest => a :: evens rest

/-- Elements of `l` at odd positions (`chunks(2)` second components). -/
def odds : List Nat → List Nat
  | [] => []
  | [_] => []
  | _ :: b :: rest => b :: odds rest

/-- `recurse` from `Mf4::channels`: compile the conversion tree at `link`,
appending nodes to `expr`.  Each arm mirrors the Rust match on
`conversion_type`; the final `_` arm (reached for `Algebraic`,
`TextToValue` and `TextToText`) pushes the `unsupported()` placeholder. -/
def compileConversion (store : CcStore) : Nat → Nat → List Node →
    Except CompileErr (List Node)
  | 0, _, _ => throw .outOfFuel
  | fuel + 1, link, expr =>
    match readCcOrTx store link with
    | none => throw .panicked
    | some (.inr data) => pure (expr ++ [.text data])
    | some (.inl b) =>
      match b.conversion_type with
      | .oneToOne =>
        if b.values.length ≠ 0 then throw .invalidParamCount
        else pure (expr ++ [.arg])
      | .linear =>
        if h : b.values.length ≠ 2 then throw .invalidParamCount
        else
          pure (expr ++ [.arg, .value (b.values.getD 1 0), .group 2,
            .functionCall "*".toList, .value (b.values.getD 0 0), .group 2,
            .functionCall "+".toList])
      | .rational =>
        if b.values.length ≠ 6 then throw .invalidParamCount
        else
          pure (expr ++
            [.arg, .arg, .value (b.values.getD 0 0), .group 3, .functionCall "*".toList,
             .arg, .value (b.values.getD 1 0), .group 2, .functionCall "*".toList,
             .value (b.values.getD 2 0), .group 3, .functionCall "+".toList,
             .arg, .arg, .value (b.values.getD 3 0), .group 3, .functionCall "*".toList,
             .arg, .value (b.values.getD 4 0), .group 2, .functionCall "*".toList,
             .value (b.values.getD 5 0), .group 3, .functionCall "+".toList,
             .group 2, .functionCall "/".toList])
      | .valueToValueTableWithInterpolation =>
        if b.values.length % 2 ≠ 0 then throw .invalidParamCount
        else
          pure (expr ++ [.arg, .values (evens b.values), .values (odds b.values),
            .group 3, .functionCall "lerp".toList])
      | .valueToValueTableWithoutInterpolation =>
        if b.values.length % 2 ≠ 0 then throw .invalidParamCount
        else
          pure (expr ++ [.arg, .values (evens b.values), .values (odds b.values),
            .group 3, .functionCall "nearest".toList])
      | .valueRangeToValueTable =>
        -- chunks(3) with |values| ≡ 1 (mod 3): the final one-element chunk
        -- is indexed at [1], an out-of-range panic.
        if b.values.length % 3 ≠ 1 then throw .invalidParamCount
        else throw .panicked
      | .valueToTextOrScale =>
        let key_count := b.values.length
        let ref_count := b.refs.length
        if key_count ≠ ref_count ∧ ref_count ≠ key_count + 1 then
          throw .invalidParamCount
        else do
          let expr := expr ++ [.arg, .values b.values]
          let expr ← (b.refs.take key_count).foldlM
            (fun e r => compileConversion store fuel r e) expr
          let expr := expr ++ [.group (key_count + 2), .functionCall "map".toList]
          if ref_count > key_count then
            match b.refs.getLast? with
            | none => throw .panicked
            | some last =>
              if last ≠ 0 then do
                let expr ← compileConversion store fuel last expr
                pure (expr ++ [.group 2, .functionCall "??".toList])
              else pure expr
          else pure expr
      | .valueRangeToTextOrScale =>
        let key_count := b.values.length / 2
        let ref_count := b.refs.length
        if b.values.length % 2 ≠ 0 ∨ (key_count ≠ ref_count ∧ ref_count ≠ key_count + 1) then
          throw .invalidParamCount
        else do
          let expr := expr ++ [.arg, .values (evens b.values), .values (odds b.values)]
          let expr ← (b.refs.take key_count).foldlM
            (fun e r => compileConversion store fuel r e) expr
          let expr := expr ++ [.group (key_count + 3), .functionCall "map_range".toList]
          if ref_count > key_count then
            match b.refs.getLast? with
            | none => throw .panicked
            | some last =>
              if last ≠ 0 then do
                let expr ← compileConversion store fuel last expr
                pure (expr ++ [.group 2, .functionCall "??".toList])
              else pure expr
          else pure expr
      | _ => pure (expr ++ [.functionCall "unsupported".toList])

/-- A store holding one `##CC` block whose `conversion_type` byte is 11,
outside the recognized enumeration. -/
def storeTag11 : CcStore := fun l =>
  if l = 1 then some (.cc { conversion_type_tag := 11, refs := [], values := [] }) else none

/-- C7 counterexample: compiling a channel's conversion link that leads to
a `##CC` block with the unknown `conversion_type` tag 11 panics (the
`binrw` read of `ConversionType` fails and `recurse` unwraps it); it does
not produce the `unsupported()` placeholder, so `channels()` fails rather
than returning successfully. -/
theorem compileConversion_unknown_tag_panics :
    compileConversion storeTag11 2 1 [] = .error .panicked ∧
    compileConversion storeTag11 2 1 [] ≠
      .ok [Node.functionCall "unsupported".toList] := by
  have h : compileConversion storeTag11 2 1 [] = .error .panicked := by rfl
  refine ⟨h, ?_⟩
  rw [h]
  intro hc
  exact Except.noConfusion hc

/-- C7 amended: for a `##CC` block whose `conversion_type` tag is in the
recognized enumeration but unsupported by the compiler (`Algebraic` = 3,
`TextToValue` = 9, `TextToText` = 10), compilation succeeds and appends
exactly the placeholder `unsupported()` call. -/
theorem compileConversion_unsupported_type_placeholder
    (store : CcStore) (fuel link : Nat) (expr : List Node) (b : RawCcBlock)
    (hstore : store link = some (.cc b))
    (htag : b.conversion_type_tag = 3 ∨ b.conversion_type_tag = 9 ∨
            b.conversion_type_tag = 10) :
    compileConversion store (fuel + 1) link expr =
      .ok (expr ++ [.functionCall "unsupported".toList]) := by
  rcases htag with h | h | h <;>
    · simp [compileConversion, readCcOrTx, hstore, h, ConversionType.readTag]
      rfl

/-- A store holding one `##CC` block with tag 9 (`TextToValue`). -/
def storeTag9 : CcStore := fun l =>
  if l = 7 then some (.cc { conversion_type_tag := 9, refs := [], values := [] }) else none

/-- Witness for the amended C7 theorem at tag 9 (`TextToValue`). -/
theorem compileConversion_unsupported_type_placeholder_witness :
    storeTag9 7 = some (.cc { conversion_type_tag := 9, refs := [], values := [] }) ∧
    compileConversion storeTag9 1 7 [] = .ok [Node.functionCall "unsupported".toList] :=
  ⟨by rfl,
   by
    have h9 := compileConversion_unsupported_type_placeholder storeTag9 0 7 []
      { conversion_type_tag := 9, refs := [], values := [] } (by rfl) (by decide)
    simpa using h9⟩

/-! ## The TRC row iterator (src/server/crates/mf4lib/src/trc.rs,
`NodeIter::next`).

Lines are the strings produced by `read_line` (each line keeps its trailing
newline; EOF is the end of the list).  The `f64` offset parse and the
`* 1000.0 as u64` conversion are abstracted behind a model structure. -/

/-- `src/server/crates/mf4lib/src/trc.rs`, `Column`. -/
inductive Column where
  | number | offset | txRxError | type | bus | id | ignore | length | data
deriving DecidableEq

/-- `Frame { id, time_us, data }` (src/server/crates/mf4lib/src/frame.rs). -/
structure FrameE where
  id : Nat
  time_us : Nat
  data : List Nat
deriving DecidableEq

/-- Model of the `f64` offset handling in the TRC reader:
`str.parse::<f64>()` on one token, and `(v * 1000.0) as u64`. -/
structure TrcFloatModel where
  F : Type
  parse : List Char → Option F
  toTimeUs : F → Nat

/-- Is `c` one of the Rust token delimiters `' '`, `'\r'`, `'\n'`? -/
def isTrcDelim (c : Char) : Bool := c = ' ' ∨ c = '\r' ∨ c = '\n'

/-- The char loop of `NodeIter::next` as a character-level tokenizer: a
delimiter flushes the current nonempty run as one token; a final run that
reaches the end of the line without a delimiter is never processed and is
dropped.  This describes the source's tokenization only on ASCII lines:
the source slices the line by byte index at character-ordinal positions
(see `rowItems`). -/
def lineTokensAux : List Char → List Char → List (List Char)
  | [], _ => []
  | c :: rest, cur =>
    if isTrcDelim c then
      if cur.isEmpty then lineTokensAux rest []
      else cur.reverse :: lineTokensAux rest []
    else lineTokensAux rest (c :: cur)

/-- The character-level tokens of a row: maximal nonempty delimiter-free
runs that are terminated by a delimiter. -/
def lineTokens (l : List Char) : List (List Char) := lineTokensAux l []

/-- The UTF-8 byte length of one character. -/
def utf8Len (c : Char) : Nat :=
  if c.toNat < 128 then 1 else if c.toNat < 2048 then 2
  else if c.toNat < 65536 then 3 else 4

/-- Drop the characters occupying the first `n` bytes of the line; `none`
when `n` is out of range or not a character boundary (a Rust slice
panic). -/
def byteDrop : List Char → Nat → Option (List Char)
  | l, 0 => some l
  | [], _ + 1 => none
  | c :: rest, n + 1 =>
    if utf8Len c ≤ n + 1 then byteDrop rest (n + 1 - utf8Len c) else none

/-- Take the characters occupying the first `n` bytes of the line; `none`
when `n` is out of range or not a character boundary (a Rust slice
panic). -/
def byteTake : List Char → Nat → Option (List Char)
  | _, 0 => some []
  | [], _ + 1 => none
  | c :: rest, n + 1 =>
    if utf8Len c ≤ n + 1 then (byteTake rest (n + 1 - utf8Len c)).map (fun t => c :: t)
    else none

/-- `&buffer[a..b]` on a string seen as a character list, with `a` and `b`
BYTE indices: `none` models the Rust panic on a reversed range, an
out-of-range index or an index that is not a character boundary. -/
def byteSlice (l : List Char) (a b : Nat) : Option (List Char) :=
  if a ≤ b then (byteDrop l a).bind (fun l2 => byteTake l2 (b - a)) else none

/-- The char loop of `NodeIter::next` as the source performs it: `i` and
`start` count characters (`chars().enumerate()`), but each flush slices
the line by BYTE index (`&self.buffer[start..i]`), so on a line with
multibyte characters a flush can panic (`none`) or yield a slice that is
not the delimiter-free run. -/
def rowItemsAux (orig : List Char) : List Char → Nat → Nat → List (Option (List Char))
  | [], _, _ => []
  | c :: rest, i, s =>
    if isTrcDelim c then
      if s = i then rowItemsAux orig rest (i + 1) (i + 1)
      else byteSlice orig s i :: rowItemsAux orig rest (i + 1) (i + 1)
    else rowItemsAux orig rest (i + 1) s

/-- The flushed slices of a row, in flush order; a `none` entry is a slice
panic. -/
def rowItems (line : List Char) : List (Option (List Char)) :=
  rowItemsAux line line 0 0

/-- One hex digit (`from_str_radix` base 16, both cases). -/
def hexDigit? (c : Char) : Option Nat :=
  if '0' ≤ c ∧ c ≤ '9' then some (c.toNat - '0'.toNat)
  else if 'a' ≤ c ∧ c ≤ 'f' then some (c.toNat - 'a'.toNat + 10)
  else if 'A' ≤ c ∧ c ≤ 'F' then some (c.toNat - 'A'.toNat + 10)
  else none

/-- `uN::from_str_radix(s, 16)`: an optional `+` sign, then one or more hex
digits, with the value below `2^bits` (overflow is an error). -/
def fromStrRadix16 (bits : Nat) (s : List Char) : Option Nat :=
  let core : List Char → Option Nat := fun ds =>
    if ds.isEmpty then none
    else
      ds.foldlM (fun acc c => (hexDigit? c).map (fun d => acc * 16 + d)) 0
  let v? := match s with
    | '+' :: rest => core rest
    | _ => core s
  match v? with
  | none => none
  | some v => if v < 2 ^ bits then some v else none

/-- Outcome of processing one non-header row. -/
inductive RowOutcome where
  | frame (f : FrameE)
  | skip
  | panicked
deriving DecidableEq

/-- The token/column loop body of `NodeIter::next`: fold the row's flushed
slices against the remaining columns (`columns.iter()`; an exhausted
iterator treats further tokens as data bytes).  A `none` slice is a
byte-boundary panic raised before the column is examined. -/
def processTokens (m : TrcFloatModel) :
    List (Option (List Char)) → List Column → Nat → Nat → List Nat → RowOutcome
  | [], _, id, t, data => .frame { id := id, time_us := t, data := data }
  | none :: _, _, _, _, _ => .panicked
  | some tok :: toks, cols, id, t, data =>
    match cols with
    | [] =>
      match fromStrRadix16 8 tok with
      | some byte => processTokens m toks [] id t (data ++ [byte])
      | none => .skip
    | col :: cols' =>
      match col with
      | .data =>
        match fromStrRadix16 8 tok with
        | some byte => processTokens m toks cols' id t (data ++ [byte])
        | none => .skip
      | .number => processTokens m toks cols' id t data
      | .offset =>
        match m.parse tok with
        | some v => processTokens m toks cols' id (m.toTimeUs v) data
        | none => .panicked
      | .txRxError =>
        if tok = "Rx".toList ∨ tok = "Tx".toList then processTokens m toks cols' id t data
        else .skip
      | .bus => processTokens m toks cols' id t data
      | .id =>
        match fromStrRadix16 32 tok with
        | some v => processTokens m toks cols' v t data
        | none => .panicked
      | .type =>
        if tok = "DT".toList ∨ tok = "FD".toList then processTokens m toks cols' id t data
        else .skip
      | .ignore => processTokens m toks cols' id t data
      | .length => processTokens m toks cols' id t data

/-- Process one non-header row. -/
def processRow (m : TrcFloatModel) (cols : List Column) (line : List Char) : RowOutcome :=
  processTokens m (rowItems line) cols 0 0 []

/-- `NodeIter::next`: skip header rows and rows whose processing says so;
`error` is a Rust panic (malformed id or offset, or a slice at a byte
index that is not a character boundary). -/
def trcNext (m : TrcFloatModel) (cols : List Column) :
    List (List Char) → Except Unit (Option (FrameE × List (List Char)))
  | [] => .ok none
  | line :: rest =>
    if line.head? = some ';' then trcNext m cols rest
    else
      match processRow m cols line with
      | .panicked => .error ()
      | .skip => trcNext m cols rest
      | .frame f => .ok (some (f, rest))

/-- The v1.0 default column layout. -/
def columnsV10 : List Column := [.number, .offset, .id, .length]

/-- A model of the offset parse good enough for witnesses: tokens of plain
decimal digits parse to their value (as `str::parse::<f64>` does for small
integers), everything else fails (as it does for `"x"`). -/
def trcNatModel : TrcFloatModel where
  F := Nat
  parse := fun s =>
    if s.isEmpty then none
    else s.foldlM (fun acc c =>
      if '0' ≤ c ∧ c ≤ '9' then some (acc * 10 + (c.toNat - '0'.toNat)) else none) 0
  toTimeUs := fun v => v * 1000

theorem byteDrop_ascii (l : List Char) : ∀ n, (∀ c ∈ l, utf8Len c = 1) →
    n ≤ l.length → byteDrop l n = some (l.drop n) := by
  induction l with
  | nil =>
    intro n _ hn
    have h0 : n = 0 := by simpa using hn
    subst h0
    rfl
  | cons c rest ih =>
    intro n hA hn
    cases n with
    | zero => rfl
    | succ k =>
      have h1 : utf8Len c = 1 := hA c (by simp)
      rw [byteDrop, if_pos (by omega), h1]
      have := ih k (fun x hx => hA x (by simp [hx])) (by simpa using hn)
      simpa using this

theorem byteTake_ascii (l : List Char) : ∀ n, (∀ c ∈ l, utf8Len c = 1) →
    n ≤ l.length → byteTake l n = some (l.take n) := by
  induction l with
  | nil =>
    intro n _ hn
    have h0 : n = 0 := by simpa using hn
    subst h0
    rfl
  | cons c rest ih =>
    intro n hA hn
    cases n with
    | zero => rfl
    | succ k =>
      have h1 : utf8Len c = 1 := hA c (by simp)
      rw [byteTake, if_pos (by omega), h1]
      have := ih k (fun x hx => hA x (by simp [hx])) (by simpa using hn)
      rw [show k + 1 - 1 = k from rfl, this]
      rfl

theorem byteSlice_ascii (l : List Char) (a b : Nat) (hA : ∀ c ∈ l, utf8Len c = 1)
    (hab : a ≤ b) (hb : b ≤ l.length) :
    byteSlice l a b = some ((l.drop a).take (b - a)) := by
  rw [byteSlice, if_pos hab, byteDrop_ascii l a hA (le_trans hab hb)]
  rw [show (some (l.drop a)).bind (fun l2 => byteTake l2 (b - a)) =
    byteTake (l.drop a) (b - a) from rfl]
  exact byteTake_ascii (l.drop a)
    (b - a) (fun c hc => hA c (List.mem_of_mem_drop hc))
    (by rw [List.length_drop]; omega)

theorem rowItemsAux_ascii (orig : List Char) (hA : ∀ c ∈ orig, utf8Len c = 1)
    (l : List Char) :
    ∀ pre mid : List Char, orig = pre ++ (mid.reverse ++ l) →
    rowItemsAux orig l (pre.length + mid.length) pre.length =
      (lineTokensAux l mid).map some := by
  induction l with
  | nil => intro pre mid _; rfl
  | cons c rest ih =>
    intro pre mid horig
    cases hd : isTrcDelim c with
    | false =>
      rw [rowItemsAux, if_neg (by simp [hd]), lineTokensAux, if_neg (by simp [hd])]
      have := ih pre (c :: mid) (by simp [horig])
      rw [show pre.length + (c :: mid).length = pre.length + mid.length + 1 from by
        simp [Nat.add_assoc]] at this
      exact this
    | true =>
      cases mid with
      | nil =>
        rw [rowItemsAux, if_pos (by simp [hd]), if_pos (by simp),
          lineTokensAux, if_pos (by simp [hd]), if_pos (by rfl)]
        have := ih (pre ++ [c]) [] (by simp [horig])
        simpa using this
      | cons m0 mtl =>
        have hsne : ¬pre.length = pre.length + (m0 :: mtl).length := by
          simp
        rw [rowItemsAux, if_pos (by simp [hd]), if_neg hsne,
          lineTokensAux, if_pos (by simp [hd]),
          if_neg (by simp)]
        have hsl : byteSlice orig pre.length (pre.length + (m0 :: mtl).length) =
            some (m0 :: mtl).reverse := by
          rw [byteSlice_ascii orig _ _ hA (Nat.le_add_right _ _)
            (by rw [horig]; simp)]
          rw [horig, Nat.add_sub_cancel_left,
            show pre ++ ((m0 :: mtl).reverse ++ c :: rest) =
              pre ++ ((m0 :: mtl).reverse ++ c :: rest) from rfl,
            List.drop_left,
            show (m0 :: mtl).length = ((m0 :: mtl).reverse).length from by simp,
            List.take_left]
        rw [hsl]
        have := ih (pre ++ (m0 :: mtl).reverse ++ [c]) [] (by simp [horig])
        rw [List.map_cons]
        refine congrArg (fun x => some (m0 :: mtl).reverse :: x) ?_
        have hP : (pre ++ (m0 :: mtl).reverse ++ [c]).length =
            pre.length + (m0 :: mtl).length + 1 := by
          simp
          omega
        rw [List.length_nil, Nat.add_zero, hP] at this
        exact this

theorem rowItems_ascii (line : List Char) (hA : ∀ c ∈ line, c.toNat < 128) :
    rowItems line = (lineTokens line).map some := by
  have hA1 : ∀ c ∈ line, utf8Len c = 1 := fun c hc => by
    rw [utf8Len, if_pos (hA c hc)]
  have := rowItemsAux_ascii line hA1 line [] [] (by simp)
  simpa [rowItems, lineTokens] using this

/-- C8 counterexample: an empty (non-header) line yields
`Frame { id: 0, time_us: 0, data: [] }` rather than no frame, and a row
whose offset token is malformed (`"x"`, which `str::parse::<f64>` rejects)
panics (`unwrap` on `Err`) instead of being skipped. -/
theorem trcNext_empty_line_and_bad_offset :
    trcNext trcNatModel columnsV10 [['\n']] =
      .ok (some ({ id := 0, time_us := 0, data := [] }, [])) ∧
    trcNext trcNatModel columnsV10 ["1 x 1 8\n".toList] = .error () := by
  exact ⟨by rfl, by rfl⟩

/-- C8 amended: header rows are skipped; a row whose processing says `skip`
is skipped without failing or ending iteration; a row whose processing
yields a frame is returned; a row with no complete tokens (in particular
an empty line) yields `Frame { id: 0, time_us: 0, data: [] }`; a malformed
data byte, `Type` token or `TxRx` token skips the row; a malformed offset
or id token panics; a flush whose byte slice misses a character boundary
panics.  On a row of ASCII characters the flushed slices are exactly the
delimiter-separated runs, so there the skip rules apply as stated; a row
holding a multibyte character panics instead of being skipped, e.g.
`"1 2 3 8 é"` under the v1.0 layout. -/
theorem trc_iter_amended (m : TrcFloatModel) (cols : List Column) :
    (∀ line rest, line.head? = some ';' →
        trcNext m cols (line :: rest) = trcNext m cols rest) ∧
    (∀ line rest, line.head? ≠ some ';' → processRow m cols line = .skip →
        trcNext m cols (line :: rest) = trcNext m cols rest) ∧
    (∀ line rest f, line.head? ≠ some ';' → processRow m cols line = .frame f →
        trcNext m cols (line :: rest) = .ok (some (f, rest))) ∧
    (∀ line, line.head? ≠ some ';' → rowItems line = [] →
        processRow m cols line = .frame { id := 0, time_us := 0, data := [] }) ∧
    (∀ tok toks id t data, fromStrRadix16 8 tok = none →
        processTokens m (some tok :: toks) [] id t data = .skip) ∧
    (∀ tok toks cols' id t data, fromStrRadix16 8 tok = none →
        processTokens m (some tok :: toks) (Column.data :: cols') id t data = .skip) ∧
    (∀ tok toks cols' id t data, tok ≠ "DT".toList → tok ≠ "FD".toList →
        processTokens m (some tok :: toks) (Column.type :: cols') id t data = .skip) ∧
    (∀ tok toks cols' id t data, tok ≠ "Rx".toList → tok ≠ "Tx".toList →
        processTokens m (some tok :: toks) (Column.txRxError :: cols') id t data = .skip) ∧
    (∀ tok toks cols' id t data, m.parse tok = none →
        processTokens m (some tok :: toks) (Column.offset :: cols') id t data = .panicked) ∧
    (∀ tok toks cols' id t data, fromStrRadix16 32 tok = none →
        processTokens m (some tok :: toks) (Column.id :: cols') id t data = .panicked) ∧
    (∀ toks cols' id t data,
        processTokens m (none :: toks) cols' id t data = .panicked) ∧
    (∀ line, (∀ c ∈ line, c.toNat < 128) →
        rowItems line = (lineTokens line).map some) ∧
    (∀ rest, trcNext m columnsV10 ("1 2 3 8 é\n".toList :: rest) = .error ()) := by
  refine ⟨?_, ?_, ?_, ?_, ?_, ?_, ?_, ?_, ?_, ?_, ?_, ?_, ?_⟩
  · intro line rest h
    simp [trcNext, h]
  · intro line rest h hskip
    simp [trcNext, h, hskip]
  · intro line rest f h hframe
    simp [trcNext, h, hframe]
  · intro line h htok
    simp [processRow, htok, processTokens]
  · intro tok toks id t data h
    simp [processTokens, h]
  · intro tok toks cols' id t data h
    simp [processTokens, h]
  · intro tok toks cols' id t data h1 h2
    have h1' : tok ≠ ['D', 'T'] := by simpa using h1
    have h2' : tok ≠ ['F', 'D'] := by simpa using h2
    simp [processTokens, h1', h2']
  · intro tok toks cols' id t data h1 h2
    have h1' : tok ≠ ['R', 'x'] := by simpa using h1
    have h2' : tok ≠ ['T', 'x'] := by simpa using h2
    simp [processTokens, h1', h2']
  · intro tok toks cols' id t data h
    simp [processTokens, h]
  · intro tok toks cols' id t data h
    simp [processTokens, h]
  · intro toks cols' id t data
    rfl
  · intro line hA
    exact rowItems_ascii line hA
  · intro rest
    have hitems : rowItems ("1 2 3 8 é\n".toList) =
        [some ['1'], some ['2'], some ['3'], some ['8'], none] := by rfl
    have hrow : processRow m columnsV10 ("1 2 3 8 é\n".toList) = .panicked := by
      rw [processRow, hitems]
      rw [show processTokens m
          [some ['1'], some ['2'], some ['3'], some ['8'], none] columnsV10 0 0 [] =
        (match m.parse ['2'] with
          | some v => processTokens m [some ['3'], some ['8'], none]
              [Column.id, Column.length] 0 (m.toTimeUs v) []
          | none => RowOutcome.panicked) from rfl]
      cases hp : m.parse ['2'] with
      | none => rfl
      | some v => rfl
    have hrow2 : processRow m columnsV10
        ['1', ' ', '2', ' ', '3', ' ', '8', ' ', 'é', '\n'] = RowOutcome.panicked := hrow
    simp [trcNext, hrow2]

/-- Witness for the amended C8 theorem: a row with a non-hex data byte
(`GG`) is skipped, continuing iteration on the remaining lines, and its
flushed slices coincide with the character-level tokens since the row is
ASCII. -/
theorem trc_iter_amended_witness :
    (("1 2 3 8 GG 00\n".toList).head? ≠ some ';') ∧
    processRow trcNatModel columnsV10 "1 2 3 8 GG 00\n".toList = .skip ∧
    trcNext trcNatModel columnsV10 ["1 2 3 8 GG 00\n".toList, ['\n']] =
      trcNext trcNatModel columnsV10 [['\n']] ∧
    rowItems "1 2 3 8 GG 00\n".toList =
      (lineTokens "1 2 3 8 GG 00\n".toList).map some :=
  ⟨by decide, by rfl,
   (trc_iter_amended trcNatModel columnsV10).2.1 _ _ (by decide) (by rfl),
   (trc_iter_amended trcNatModel columnsV10).2.2.2.2.2.2.2.2.2.2.2.1 _ (by decide)⟩

end Mf4Lib

namespace DbcM

/-! ## The DBC lexer (src/server/crates/mf4lib/src/dbc.rs, `Lexer`).

The lexer state is the not-yet-consumed input: the current character `c` is
the head (`'\x00'` at end of input), `scan_char` drops it.  Returned slices
`&input[start..ci]` are the characters consumed between the two states. -/

/-- The lexer state: remaining input, current character first. -/
abbrev Lex := List Char

/-- The lexer's current character `c` (`'\x00'` at end of input). -/
def cur (s : Lex) : Char := s.headD '\x00'

/-- `scan_char`. -/
def scanChar (s : Lex) : Lex := s.tail

/-- `char::is_ascii_digit`. -/
def isAsciiDigit (c : Char) : Bool := '0' ≤ c ∧ c ≤ '9'

/-- `char::is_ascii_uppercase`. -/
def isAsciiUppercase (c : Char) : Bool := 'A' ≤ c ∧ c ≤ 'Z'

/-- `char::is_ascii_alphabetic`. -/
def isAsciiAlphabetic (c : Char) : Bool :=
  ('A' ≤ c ∧ c ≤ 'Z') ∨ ('a' ≤ c ∧ c ≤ 'z')

/-- `char::is_ascii_alphanumeric`. -/
def isAsciiAlphanumeric (c : Char) : Bool := isAsciiAlphabetic c ∨ isAsciiDigit c

/-- `scan_while`: consume while the predicate holds of the current
character, returning the consumed slice.  (Every predicate passed by the
source rejects `'\x00'`, so stopping at end of input is subsumed.) -/
def scanWhile (p : Char → Bool) : Lex → List Char × Lex
  | [] => ([], [])
  | c :: rest =>
    if p c then
      let (t, r) := scanWhile p rest
      (c :: t, r)
    else ([], c :: rest)

/-- A parse error; the source also records line/column/position, which no
claim depends on. -/
structure ParseErrorE where
  message : List Char
deriving DecidableEq

/-- `next_line`. -/
def next_line (s : Lex) : List Char × Lex :=
  scanWhile (fun c => ¬(c = '\n' ∨ c = '\x00')) s

/-- `next_spaces`. -/
def next_spaces (s : Lex) : List Char × Lex :=
  scanWhile (fun c => c = ' ' ∨ c = '\t') s

/-- `next_char`. -/
def next_char (value : Char) (s : Lex) : Bool × Lex :=
  if cur s ≠ value then (false, s) else (true, scanChar s)

/-- `next_chars`. -/
def next_chars (value : List Char) (s : Lex) : Bool × Lex :=
  match value with
  | [] => (false, s)
  | v :: vs =>
    match next_char v s with
    | (true, s') => (true, s')
    | (false, s') => next_chars vs s'

/-- `next_keyword`. -/
def next_keyword (s : Lex) : Option (List Char) × Lex :=
  let (ident, s') := scanWhile (fun c => isAsciiUppercase c ∨ c = '_') s
  if ident.isEmpty then (none, s') else (some ident, s')

/-- `next_dbc_identifier`. -/
def next_dbc_identifier (s : Lex) : Option (List Char) × Lex :=
  if ¬(isAsciiAlphabetic (cur s)) ∧ cur s ≠ '_' then (none, s)
  else
    let (ident, s') := scanWhile (fun c => isAsciiAlphanumeric c ∨ c = '_') s
    if ident.isEmpty then (none, s') else (some ident, s')

/-- The scan loop of `next_string` (after the opening quote): while the
current character is neither `'"'` nor `'\x00'`, advance; if the character
now current is a backslash, advance twice more (consuming it and the
character it escapes).  Returns the state at loop exit. -/
def nextStringScan : Lex → Lex
  | [] => []
  | [c] => if c = '"' ∨ c = '\x00' then [c] else nextStringScan []
  | c :: c2 :: rest2 =>
    if c = '"' ∨ c = '\x00' then c :: c2 :: rest2
    else if c2 = '\\' then
      match rest2 with
      | [] => nextStringScan []
      | _ :: rest3 => nextStringScan rest3
    else nextStringScan (c2 :: rest2)

/-- `next_string`. -/
def next_string (s : Lex) : Except ParseErrorE (Option (List Char) × Lex) :=
  if cur s ≠ '"' then .ok (none, s)
  else
    let s1 := scanChar s
    let send := nextStringScan s1
    if cur send ≠ '"' then .error ⟨"expected quote".toList⟩
    else .ok (some (s1.take (s1.length - send.length)), scanChar send)

/-- Modelled from the claim's words (C6): a scan in which *every* backslash
after the opening quote consumes the immediately following character
literally, until a closing quote. -/
def specStringScanC6 : Lex → Lex
  | [] => []
  | [c] => if c = '"' then [c] else specStringScanC6 []
  | c :: c2 :: rest2 =>
    if c = '"' then c :: c2 :: rest2
    else if c = '\\' then specStringScanC6 rest2
    else specStringScanC6 (c2 :: rest2)

/-- Modelled from the claim's words (C6): `next_string` with the claimed
escape rule. -/
def spec_next_stringC6 (s : Lex) : Except ParseErrorE (Option (List Char) × Lex) :=
  if cur s ≠ '"' then .ok (none, s)
  else
    let s1 := scanChar s
    let send := specStringScanC6 s1
    if cur send ≠ '"' then .error ⟨"expected quote".toList⟩
    else .ok (some (s1.take (s1.length - send.length)), scanChar send)

/-- C6 counterexample: on the input `"\"x"` the claimed rule (backslash
always consumes the next character, including as first character after the
opening quote) yields the string `\"x`, but `next_string` returns just `\`:
the quote right after the leading backslash terminates the string. -/
theorem next_string_leading_backslash_differs :
    next_string ('"' :: '\\' :: '"' :: 'x' :: '"' :: []) =
      .ok (some ['\\'], ['x', '"']) ∧
    spec_next_stringC6 ('"' :: '\\' :: '"' :: 'x' :: '"' :: []) =
      .ok (some ['\\', '"', 'x'], []) ∧
    (['\\'] : List Char) ≠ ['\\', '"', 'x'] := by
  refine ⟨by rfl, by rfl, by decide⟩

/-- Characters without special meaning for the string scanner. -/
def plainChar (c : Char) : Prop := c ≠ '"' ∧ c ≠ '\x00' ∧ c ≠ '\\'

instance : DecidablePred plainChar := fun c => by
  unfold plainChar
  infer_instance

theorem nextStringScan_step {c : Char} {rest : List Char}
    (hc : c ≠ '"') (hc0 : c ≠ '\x00') (hr : cur rest ≠ '\\') :
    nextStringScan (c :: rest) = nextStringScan rest := by
  cases rest with
  | nil => simp [nextStringScan, hc, hc0]
  | cons c2 rest2 =>
    have hc2 : c2 ≠ '\\' := by simpa [cur] using hr
    rw [nextStringScan.eq_def]
    simp [hc, hc0, hc2]

theorem nextStringScan_quote (rest : List Char) :
    nextStringScan ('"' :: rest) = '"' :: rest := by
  cases rest with
  | nil => rfl
  | cons c2 rest2 =>
    rw [nextStringScan.eq_def]
    simp

theorem nextStringScan_plain :
    ∀ (content : List Char), (∀ c ∈ content, plainChar c) →
      ∀ rest, nextStringScan (content ++ '"' :: rest) = '"' :: rest := by
  intro content
  induction content with
  | nil =>
    intro _ rest
    exact nextStringScan_quote rest
  | cons c cs ih =>
    intro h rest
    have hc := h c (by simp)
    have hcs : ∀ x ∈ cs, plainChar x := fun x hx => h x (by simp [hx])
    have hcur : cur (cs ++ '"' :: rest) ≠ '\\' := by
      cases cs with
      | nil => simp [cur]
      | cons c2 cs2 =>
        have h2 := (h c2 (by simp)).2.2
        simpa [cur] using h2
    rw [List.cons_append, nextStringScan_step hc.1 hc.2.1 hcur]
    exact ih hcs rest

theorem nextStringScan_no_terminator :
    ∀ (content : List Char), (∀ c ∈ content, plainChar c) →
      nextStringScan content = [] := by
  intro content
  induction content with
  | nil => intro _; rfl
  | cons c cs ih =>
    intro h
    have hc := h c (by simp)
    have hcs : ∀ x ∈ cs, plainChar x := fun x hx => h x (by simp [hx])
    have hcur : cur cs ≠ '\\' := by
      cases cs with
      | nil => simp [cur]
      | cons c2 cs2 =>
        have h2 := (h c2 (by simp)).2.2
        simpa [cur] using h2
    rw [nextStringScan_step hc.1 hc.2.1 hcur]
    exact ih hcs

/-- C6 amended: the quoted-string rule of the lexer returns the slice
between the quotes where a backslash consumes the immediately following
character *when the backslash is reached after consuming an ordinary
character* — a backslash that is the first character after the opening
quote (or that directly follows an escape pair) is an ordinary character,
and a quote right after it terminates the string.  A string of plain
characters is returned verbatim with the input after the closing quote,
and a missing terminating quote yields a `ParseError`. -/
theorem next_string_amended :
    (∀ (content : List Char), (∀ c ∈ content, plainChar c) → ∀ rest,
        next_string ('"' :: content ++ '"' :: rest) = .ok (some content, rest)) ∧
    (∀ (c x : Char) (tail : List Char), c ≠ '"' → c ≠ '\x00' →
        nextStringScan (c :: '\\' :: x :: tail) = nextStringScan tail) ∧
    (∀ rest : List Char, nextStringScan ('\\' :: '"' :: rest) = '"' :: rest) ∧
    (∀ (content : List Char), (∀ c ∈ content, plainChar c) →
        next_string ('"' :: content) = .error ⟨"expected quote".toList⟩) := by
  refine ⟨?_, ?_, ?_, ?_⟩
  · intro content h rest
    have hscan := nextStringScan_plain content h rest
    simp only [next_string, cur, scanChar, ne_eq]
    simp only [List.cons_append, List.headD_cons, List.tail_cons]
    rw [hscan]
    simp only [List.headD_cons, List.tail_cons, List.length_append, List.length_cons,
      Nat.add_sub_cancel, List.take_left]
    simp
  · intro c x tail hc hc0
    rw [nextStringScan.eq_def]
    simp [hc, hc0]
  · intro rest
    rw [nextStringScan.eq_def]
    have h1 : ¬(('\\' : Char) = '"' ∨ ('\\' : Char) = '\x00') := by decide
    have h2 : ¬(('"' : Char) = '\\') := by decide
    simp only [h1, if_false, h2]
    exact nextStringScan_quote rest
  · intro content h
    have hscan := nextStringScan_no_terminator content h
    simp [next_string, cur, scanChar, hscan]

/-- Witness for the amended C6 theorem: `"ab"r` parses to `ab` leaving
`r`; a backslash after an ordinary character consumes a quote; `"ab`
without a terminator is an error. -/
theorem next_string_amended_witness :
    next_string ('"' :: 'a' :: 'b' :: '"' :: 'r' :: []) = .ok (some ['a', 'b'], ['r']) ∧
    nextStringScan ('z' :: '\\' :: '"' :: 'q' :: []) = nextStringScan ['q'] ∧
    next_string ('"' :: 'a' :: 'b' :: []) = .error ⟨"expected quote".toList⟩ :=
  ⟨by
    have h := next_string_amended.1 ['a', 'b'] (by decide) ['r']
    simpa using h,
   next_string_amended.2.1 'z' '"' ['q'] (by decide) (by decide),
   by
    have h := next_string_amended.2.2.2 ['a', 'b'] (by decide)
    simpa using h⟩

/-- Decimal digit character for `d < 10`. -/
def digitChar (d : Nat) : Char := Char.ofNat ('0'.toNat + d)

/-- Decimal representation of a `Nat` (Rust `Display` for unsigned
integers), with fuel for the division recursion. -/
def natToDecimalAux : Nat → Nat → List Char
  | 0, _ => []
  | fuel + 1, n =>
    if n < 10 then [digitChar n]
    else natToDecimalAux fuel (n / 10) ++ [digitChar (n % 10)]

/-- Decimal representation of a `Nat`. -/
def natToDecimal (n : Nat) : List Char := natToDecimalAux (n + 1) n

/-- Decimal representation of an `Int` (Rust `Display` for signed
integers). -/
def intToDecimal (i : Int) : List Char :=
  if i < 0 then '-' :: natToDecimal i.natAbs else natToDecimal i.natAbs

/-- The shape of Rust's `Display` output for a finite `f64`: an optional
minus sign, one or more digits, and an optional fraction (Rust never prints
an exponent, `inf`, or `NaN` for finite values). -/
def decimalShape (l : List Char) : Prop :=
  ∃ sgn intpart frac,
    (sgn = [] ∨ sgn = ['-']) ∧
    intpart ≠ [] ∧ (∀ c ∈ intpart, isAsciiDigit c) ∧
    (frac = [] ∨ ∃ fd, fd ≠ [] ∧ (∀ c ∈ fd, isAsciiDigit c) ∧ frac = '.' :: fd) ∧
    l = sgn ++ intpart ++ frac

/-- Model of the `f64` operations used by the DBC parser and writer: the
carrier, `str::parse::<f64>` on a scanned lexeme, `Display`, and `round()`
as an exact integer; the property fields state the Rust facts the
round-trip proof uses (exact display/parse round trip for finite values,
decimal display shape, and exact parsing of integers below `2^53`). -/
structure FloatModel where
  F : Type
  deq : DecidableEq F
  parseLexeme : List Char → Option F
  printF : F → List Char
  roundInt : F → Int
  print_parse : ∀ x, parseLexeme (printF x) = some x
  print_shape : ∀ x, decimalShape (printF x)
  parse_intDec : ∀ i : Int, i.natAbs < 2 ^ 53 →
    ∃ x, parseLexeme (intToDecimal i) = some x ∧ roundInt x = i
  parse_empty : parseLexeme [] = none

/-- Rust `as i64` of a mathematical integer (saturating). -/
def castAsI64 (i : Int) : Int := max (-(2 ^ 63)) (min (2 ^ 63 - 1) i)

/-- Rust `as u64` of a mathematical integer (saturating at the ends). -/
def castAsU64 (i : Int) : Nat := (max 0 (min (2 ^ 64 - 1 : Int) i)).toNat

/-- Rust `as u32` of a `u64` value (truncating). -/
def castAsU32 (n : Nat) : Nat := n % 2 ^ 32

/-- The lexeme scan of `next_double`: optional sign, digits, optional
fraction, optional exponent. -/
def scanDouble (s : Lex) : List Char × Lex :=
  let (sgn, s1) :=
    if cur s = '+' ∨ cur s = '-' then ([cur s], scanChar s) else ([], s)
  let (d1, s2) := scanWhile isAsciiDigit s1
  let (dot, s3) := if cur s2 = '.' then (['.'], scanChar s2) else ([], s2)
  let (d2, s4) := scanWhile isAsciiDigit s3
  let (ex, s5) :=
    if cur s4 = 'e' ∨ cur s4 = 'E' then
      let e := cur s4
      let s4a := scanChar s4
      let (esgn, s4b) :=
        if cur s4a = '+' ∨ cur s4a = '-' then ([cur s4a], scanChar s4a) else ([], s4a)
      let (d3, s4c) := scanWhile isAsciiDigit s4b
      (e :: esgn ++ d3, s4c)
    else ([], s4)
  (sgn ++ d1 ++ dot ++ d2 ++ ex, s5)


/-- `next_double`. -/
def next_double (fm : FloatModel) (s : Lex) : Option fm.F × Lex :=
  let (lx, s') := scanDouble s
  (fm.parseLexeme lx, s')

/-- `expect_char`. -/
def expect_char (value : Char) (s : Lex) : Except ParseErrorE Lex :=
  match next_char value s with
  | (true, s') => .ok s'
  | (false, s') => .error ⟨'e' :: 'x' :: 'p' :: 'e' :: 'c' :: 't' :: 'e' :: 'd' :: ' ' :: [value]⟩

/-- `expect_chars`. -/
def expect_chars (value : List Char) (s : Lex) : Except ParseErrorE (Char × Lex) :=
  match value with
  | [] => .error ⟨"expected chars".toList⟩
  | v :: vs =>
    match next_char v s with
    | (true, s') => .ok (v, s')
    | (false, s') => expect_chars vs s'

/-- `expect_newline` (ordering of the side-effecting checks preserved). -/
def expect_newline (s : Lex) : Except ParseErrorE Lex :=
  let (_, s) := next_spaces s
  let (b1, s) := next_chars ['\n', '\x00'] s
  if b1 then .ok s
  else
    let (br, s) := next_char '\r' s
    let (b2, s) := if br then next_chars ['\n', '\x00'] s else (false, s)
    if b2 then .ok s
    else
      let (bsl, s) := next_char '/' s
      if bsl then
        match next_char '/' s with
        | (true, s) =>
          let (_, s) := next_line s
          match expect_chars ['\n', '\x00'] s with
          | .ok (_, s) => .ok s
          | .error e => .error e
        | (false, _) => .error ⟨"expected newline".toList⟩
      else .error ⟨"expected newline".toList⟩

/-- `expect_spaces`. -/
def expect_spaces (s : Lex) : Except ParseErrorE Lex :=
  let (sp, s') := next_spaces s
  if sp.isEmpty then .error ⟨"expected space".toList⟩ else .ok s'

/-- `expect_keyword`. -/
def expect_keyword (s : Lex) : Except ParseErrorE (List Char × Lex) :=
  match next_keyword s with
  | (some k, s') => .ok (k, s')
  | (none, _) => .error ⟨"expected keyword".toList⟩

/-- `expect_string`. -/
def expect_string (s : Lex) : Except ParseErrorE (List Char × Lex) := do
  match ← next_string s with
  | (some str, s') => .ok (str, s')
  | (none, _) => .error ⟨"expected quoted string".toList⟩

/-- `expect_signed` (`next_double` rounded `as i64`). -/
def expect_signed (fm : FloatModel) (s : Lex) : Except ParseErrorE (Int × Lex) :=
  match next_double fm s with
  | (some v, s') => .ok (castAsI64 (fm.roundInt v), s')
  | (none, _) => .error ⟨"expected signed".toList⟩

/-- `expect_unsigned` (`next_double` rounded `as u64`). -/
def expect_unsigned (fm : FloatModel) (s : Lex) : Except ParseErrorE (Nat × Lex) :=
  match next_double fm s with
  | (some v, s') => .ok (castAsU64 (fm.roundInt v), s')
  | (none, _) => .error ⟨"expected unsigned".toList⟩

/-- `expect_double`. -/
def expect_double (fm : FloatModel) (s : Lex) : Except ParseErrorE (fm.F × Lex) :=
  match next_double fm s with
  | (some v, s') => .ok (v, s')
  | (none, _) => .error ⟨"expected double".toList⟩

/-- `expect_dbc_identifier`. -/
def expect_dbc_identifier (s : Lex) : Except ParseErrorE (List Char × Lex) :=
  match next_dbc_identifier s with
  | (some i, s') => .ok (i, s')
  | (none, _) => .error ⟨"expected dbc identifier".toList⟩

/-- `AttributeValue`. -/
inductive AttributeValueE (F : Type) where
  | float (v : F)
  | str (v : List Char)

/-- `expect_attribute_value`. -/
def expect_attribute_value (fm : FloatModel) (s : Lex) :
    Except ParseErrorE (AttributeValueE fm.F × Lex) :=
  match next_double fm s with
  | (some v, s') => .ok (.float v, s')
  | (none, s') =>
    match expect_string s' with
    | .ok (v, s'') => .ok (.str v, s'')
    | .error _ => .error ⟨"expected attribute value".toList⟩

/-- `is_eof`. -/
def is_eof (s : Lex) : Bool := cur s = '\x00'


/-! ## The DBC data model and parser (src/server/crates/mf4lib/src/dbc.rs).

`HashMap`s are modelled as association lists: `insert` replaces in place or
appends, iteration is list order.  (Rust's iteration order is unspecified;
the round-trip theorem therefore compares signal lists up to permutation
and multiplex maps as finite maps.)  `HashSet` is a list deduplicated on
insertion.  `f64` fields live in a `FloatModel` carrier. -/

/-- A DBC identifier-ish string. -/
abbrev NameL := List Char

/-- `Dbc::EMPTY_ECU`. -/
def EMPTY_ECU : NameL := "Vector__XXX".toList

/-- `ByteOrder`. -/
inductive ByteOrder where
  | bigEndian | littleEndian
deriving DecidableEq

/-- `ValueType`. -/
inductive ValueType where
  | unsigned | signed
deriving DecidableEq

/-- `MultiplexerIndicator`. -/
structure MultiplexerIndicator where
  is_multiplexer : Bool
  mux_index : Option Nat
deriving DecidableEq

/-- `Signal` (nested: the multiplex tree).  `value_descriptions` and
`multiplexed` are `HashMap`s modelled as association lists. -/
inductive Signal (F : Type) where
  | mk (name : NameL) (start_bit : Nat) (signal_size : Nat)
       (byte_order : ByteOrder) (value_type : ValueType)
       (factor : F) (offset : F) (minimum : F) (maximum : F)
       (unit : NameL) (receiver : List NameL)
       (value_descriptions : List (Int × NameL))
       (multiplexed : List (Nat × List (Signal F)))

def Signal.name {F} : Signal F → NameL
  | .mk n _ _ _ _ _ _ _ _ _ _ _ _ => n

def Signal.start_bit {F} : Signal F → Nat
  | .mk _ sb _ _ _ _ _ _ _ _ _ _ _ => sb

def Signal.signal_size {F} : Signal F → Nat
  | .mk _ _ sz _ _ _ _ _ _ _ _ _ _ => sz

def Signal.byte_order {F} : Signal F → ByteOrder
  | .mk _ _ _ bo _ _ _ _ _ _ _ _ _ => bo

def Signal.value_type {F} : Signal F → ValueType
  | .mk _ _ _ _ vt _ _ _ _ _ _ _ _ => vt

def Signal.factor {F} : Signal F → F
  | .mk _ _ _ _ _ f _ _ _ _ _ _ _ => f

def Signal.offsetF {F} : Signal F → F
  | .mk _ _ _ _ _ _ o _ _ _ _ _ _ => o

def Signal.minimum {F} : Signal F → F
  | .mk _ _ _ _ _ _ _ mi _ _ _ _ _ => mi

def Signal.maximum {F} : Signal F → F
  | .mk _ _ _ _ _ _ _ _ ma _ _ _ _ => ma

def Signal.unit {F} : Signal F → NameL
  | .mk _ _ _ _ _ _ _ _ _ u _ _ _ => u

def Signal.receiver {F} : Signal F → List NameL
  | .mk _ _ _ _ _ _ _ _ _ _ r _ _ => r

def Signal.value_descriptions {F} : Signal F → List (Int × NameL)
  | .mk _ _ _ _ _ _ _ _ _ _ _ vd _ => vd

def Signal.multiplexed {F} : Signal F → List (Nat × List (Signal F))
  | .mk _ _ _ _ _ _ _ _ _ _ _ _ mx => mx

/-- `Message`. -/
structure Message (F : Type) where
  id : Nat
  name : NameL
  len : Nat
  transmitter : Option NameL
  signals : List (Signal F)

/-- `Dbc`. -/
structure Dbc (F : Type) where
  messages : List (Message F)

/-- `SignalNative`. -/
structure SignalNative (F : Type) where
  name : NameL
  multiplexer_indicator : MultiplexerIndicator
  start_bit : Nat
  signal_size : Nat
  byte_order : ByteOrder
  value_type : ValueType
  factor : F
  offset : F
  minimum : F
  maximum : F
  unit : NameL
  receiver : List NameL

/-- `MessageNative`. -/
structure MessageNative where
  id : Nat
  name : NameL
  len : Nat
  transmitter : Option NameL
deriving DecidableEq

/-- Association-list lookup (`HashMap::get`). -/
def alistGet {K V : Type} [DecidableEq K] (m : List (K × V)) (k : K) : Option V :=
  (m.find? (fun p => p.1 = k)).map (fun p => p.2)

/-- `HashMap::contains_key`. -/
def alistContains {K V : Type} [DecidableEq K] (m : List (K × V)) (k : K) : Bool :=
  (alistGet m k).isSome

/-- `HashMap::insert`: replace in place or append. -/
def alistInsert {K V : Type} [DecidableEq K] (m : List (K × V)) (k : K) (v : V) :
    List (K × V) :=
  if alistContains m k then m.map (fun p => if p.1 = k then (k, v) else p)
  else m ++ [(k, v)]

/-- `entry(k).or_default()` followed by a mutation of the slot. -/
def alistModify {K V : Type} [DecidableEq K] (m : List (K × V)) (k : K) (d : V)
    (f : V → V) : List (K × V) :=
  if alistContains m k then m.map (fun p => if p.1 = k then (k, f p.2) else p)
  else m ++ [(k, f d)]

/-- `entry(k).or_default()` read back (the map with the slot ensured, and
the slot's value). -/
def alistGetD {K V : Type} [DecidableEq K] (m : List (K × V)) (k : K) (d : V) : V :=
  (alistGet m k).getD d

/-- Extended/inline multiplex relations of one message:
`muxer name → selector value → muxed signal names`. -/
abbrev MuxMap := List (NameL × List (Nat × List NameL))

/-- Per-signal value descriptions of one message. -/
abbrev ValsMap := List (NameL × List (Int × NameL))

/-- The accumulating state of `Dbc::parse`. -/
structure PState (F : Type) where
  new_symbols : List NameL
  messages_dbc : List MessageNative
  ext : List (Nat × MuxMap)
  inl : List (Nat × MuxMap)
  signals_db : List (Nat × List (NameL × SignalNative F))
  vals : List (Nat × ValsMap)

/-- The empty parser state. -/
def PState.init (F : Type) : PState F :=
  { new_symbols := [], messages_dbc := [], ext := [], inl := [], signals_db := [], vals := [] }


/-! ### The per-keyword handlers of `Dbc::parse`.

Loops take a fuel argument; callers pass `s.length + 1`, which suffices
because every loop iteration that continues consumes at least one
character. -/

/-- The identifier loop of the `BU_` branch. -/
def buNodesLoop : Nat → Lex → Lex
  | 0, s => s
  | fuel + 1, s =>
    match next_dbc_identifier s with
    | (some _, s') =>
      let (_, s'') := next_spaces s'
      buNodesLoop fuel s''
    | (none, s') => s'

/-- `VERSION` branch. -/
def handleVERSION (s : Lex) : Except ParseErrorE Lex := do
  let s ← expect_spaces s
  let (_, s) ← expect_string s
  expect_newline s

/-- `BS_` branch. -/
def handleBS (s : Lex) : Except ParseErrorE Lex := do
  let (_, s) := next_spaces s
  let s ← expect_char ':' s
  let (_, s) := next_spaces s
  expect_newline s

/-- `BU_` branch. -/
def handleBU (s : Lex) : Except ParseErrorE Lex := do
  let (_, s) := next_spaces s
  let s ← expect_char ':' s
  let (_, s) := next_spaces s
  let s := buNodesLoop (s.length + 1) s
  expect_newline s

/-- The `key "value"` loop shared by `VAL_TABLE_` and `VAL_`, ending at
`;`; returns the collected descriptions. -/
def valueDescsLoop (fm : FloatModel) : Nat → Lex → List (Int × NameL) →
    Except ParseErrorE (List (Int × NameL) × Lex)
  | 0, _, _ => .error ⟨"fuel".toList⟩
  | fuel + 1, s, acc =>
    match next_char ';' s with
    | (true, s') => .ok (acc, s')
    | (false, s') => do
      let (key, s') ← expect_signed fm s'
      let s' ← expect_spaces s'
      let (value, s') ← expect_string s'
      let (_, s') := next_spaces s'
      valueDescsLoop fm fuel s' (alistInsert acc key value)

/-- `VAL_TABLE_` branch (`expect_dbc_identifier` has its `Result`
discarded; the table itself is not retained). -/
def handleVAL_TABLE (fm : FloatModel) (s : Lex) : Except ParseErrorE Lex := do
  let s ← expect_spaces s
  let (_, s) := next_dbc_identifier s
  let (_, s) := next_spaces s
  let (_, s) ← valueDescsLoop fm (s.length + 1) s []
  expect_newline s

/-- The inner keyword loop of one indented `NS_` line. -/
def nsKeywordLoop : Nat → Lex → List NameL → List NameL × Lex
  | 0, s, acc => (acc, s)
  | fuel + 1, s, acc =>
    match next_keyword s with
    | (some k, s') => nsKeywordLoop fuel s' (acc ++ [k])
    | (none, s') => (acc, s')

/-- The indented-line loop of the `NS_` branch. -/
def nsLinesLoop : Nat → Lex → List NameL → Except ParseErrorE (List NameL × Lex)
  | 0, _, _ => .error ⟨"fuel".toList⟩
  | fuel + 1, s, acc =>
    let (sp, s') := next_spaces s
    if sp.isEmpty then .ok (acc, s')
    else do
      let (acc, s') := nsKeywordLoop (s'.length + 1) s' acc
      let s' ← expect_newline s'
      nsLinesLoop fuel s' acc

/-- `NS_` branch. -/
def handleNS (s : Lex) (syms : List NameL) :
    Except ParseErrorE (List NameL × Lex) := do
  let (_, s) := next_spaces s
  let s ← expect_char ':' s
  let (_, s) := next_spaces s
  let s ← expect_newline s
  nsLinesLoop (s.length + 1) s syms

/-- `CM_` branch. -/
def handleCM (fm : FloatModel) (s : Lex) : Except ParseErrorE Lex := do
  let s ← expect_spaces s
  let s ←
    match next_keyword s with
    | (none, s) => do
      let (_, s) ← expect_string s
      pure s
    | (some kw, s) =>
      if kw = "BU_".toList then do
        let s ← expect_spaces s
        let (_, s) ← expect_dbc_identifier s
        let s ← expect_spaces s
        let (_, s) ← expect_string s
        pure s
      else if kw = "BO_".toList then do
        let s ← expect_spaces s
        let (_, s) ← expect_unsigned fm s
        let s ← expect_spaces s
        let (_, s) ← expect_string s
        pure s
      else if kw = "SG_".toList then do
        let s ← expect_spaces s
        let (_, s) ← expect_unsigned fm s
        let s ← expect_spaces s
        let (_, s) ← expect_dbc_identifier s
        let s ← expect_spaces s
        let (_, s) ← expect_string s
        pure s
      else if kw = "EV_".toList then do
        let s ← expect_spaces s
        let (_, s) ← expect_dbc_identifier s
        let s ← expect_spaces s
        let (_, s) ← expect_string s
        pure s
      else .error ⟨"unknown comment type".toList⟩
  let (_, s) := next_spaces s
  let s ← expect_char ';' s
  expect_newline s


/-- The receiver-list loop of one `SG_` line. -/
def recvLoop : Nat → Lex → List NameL → Except ParseErrorE (List NameL × Lex)
  | 0, _, _ => .error ⟨"fuel".toList⟩
  | fuel + 1, s, acc =>
    match next_char ',' s with
    | (false, s') => .ok (acc, s')
    | (true, s') => do
      let (_, s') := next_spaces s'
      let (r, s') ← expect_dbc_identifier s'
      recvLoop fuel s' (if r = EMPTY_ECU then acc else acc ++ [r])

/-- One `SG_` line after the `SG_` keyword. -/
def parseSignalLine (fm : FloatModel) (s : Lex) :
    Except ParseErrorE (SignalNative fm.F × Lex) := do
  let s ← expect_spaces s
  let (name, s) ← expect_dbc_identifier s
  let s ← expect_spaces s
  let (bm, s) := next_char 'm' s
  let (indicator, s) ←
    if bm then do
      let (ix, s) ← expect_unsigned fm s
      let (bM, s) := next_char 'M' s
      let (_, s) := next_spaces s
      pure (({ is_multiplexer := bM, mux_index := some ix } : MultiplexerIndicator), s)
    else
      let (bM, s) := next_char 'M' s
      if bM then
        let (_, s) := next_spaces s
        pure (({ is_multiplexer := true, mux_index := none } : MultiplexerIndicator), s)
      else
        pure (({ is_multiplexer := false, mux_index := none } : MultiplexerIndicator), s)
  let s ← expect_char ':' s
  let (_, s) := next_spaces s
  let (start_bitU, s) ← expect_unsigned fm s
  let (_, s) := next_spaces s
  let s ← expect_char '|' s
  let (_, s) := next_spaces s
  let (signal_sizeU, s) ← expect_unsigned fm s
  let (_, s) := next_spaces s
  let s ← expect_char '@' s
  let (_, s) := next_spaces s
  let (oc, s) ← expect_chars ['0', '1'] s
  let byte_order := if oc = '0' then ByteOrder.bigEndian else ByteOrder.littleEndian
  let (_, s) := next_spaces s
  let (vc, s) ← expect_chars ['+', '-'] s
  let value_type := if vc = '+' then ValueType.unsigned else ValueType.signed
  let (_, s) := next_spaces s
  let s ← expect_char '(' s
  let (_, s) := next_spaces s
  let (factor, s) ← expect_double fm s
  let (_, s) := next_spaces s
  let s ← expect_char ',' s
  let (_, s) := next_spaces s
  let (offset, s) ← expect_double fm s
  let (_, s) := next_spaces s
  let s ← expect_char ')' s
  let (_, s) := next_spaces s
  let s ← expect_char '[' s
  let (_, s) := next_spaces s
  let (minimum, s) ← expect_double fm s
  let (_, s) := next_spaces s
  let s ← expect_char '|' s
  let (_, s) := next_spaces s
  let (maximum, s) ← expect_double fm s
  let (_, s) := next_spaces s
  let s ← expect_char ']' s
  let (_, s) := next_spaces s
  let (unit, s) ← expect_string s
  let s ← expect_spaces s
  let (r0, s) ← expect_dbc_identifier s
  let receiver0 := if r0 = EMPTY_ECU then [] else [r0]
  let (receiver, s) ← recvLoop (s.length + 1) s receiver0
  .ok ({ name := name, multiplexer_indicator := indicator,
         start_bit := castAsU32 start_bitU, signal_size := castAsU32 signal_sizeU,
         byte_order := byte_order, value_type := value_type,
         factor := factor, offset := offset, minimum := minimum, maximum := maximum,
         unit := unit, receiver := receiver }, s)

/-- The per-message signal map. -/
abbrev SigMap (F : Type) := List (NameL × SignalNative F)

/-- The indented `SG_` line loop of the `BO_` branch. -/
def boSignalsLoop (fm : FloatModel) : Nat → Lex → SigMap fm.F →
    Except ParseErrorE (SigMap fm.F × Lex)
  | 0, _, _ => .error ⟨"fuel".toList⟩
  | fuel + 1, s, ms =>
    let (sp, s') := next_spaces s
    if sp.isEmpty then .ok (ms, s')
    else
      match next_keyword s' with
      | (some kw, s'') =>
        if kw = "SG_".toList then do
          let (sig, s3) ← parseSignalLine fm s''
          let s4 ← expect_newline s3
          boSignalsLoop fm fuel s4 (alistInsert ms sig.name sig)
        else .error ⟨"expected SG_".toList⟩
      | (none, s'') => .ok (ms, s'')

/-- The inline-multiplex materialization at the end of a `BO_` block:
honored only when the accumulated signals of this message id contain
exactly one signal marked as a multiplexer. -/
def inlineMuxFromSignals {F : Type} (ms : SigMap F) (inline0 : MuxMap) : MuxMap :=
  match ms.filter (fun p => p.2.multiplexer_indicator.is_multiplexer) with
  | [muxp] =>
    ms.foldl (fun im p =>
      match p.2.multiplexer_indicator.mux_index with
      | some ix =>
        alistModify im muxp.2.name []
          (fun inner => alistModify inner ix [] (fun l => l ++ [p.2.name]))
      | none => im) inline0
  | _ => inline0

/-- `BO_` branch. -/
def handleBO (fm : FloatModel) (s : Lex) (st : PState fm.F) :
    Except ParseErrorE (PState fm.F × Lex) := do
  let s ← expect_spaces s
  let (idU, s) ← expect_unsigned fm s
  let message_id := castAsU32 idU
  let s ← expect_spaces s
  let (name, s) ← expect_dbc_identifier s
  let (_, s) := next_spaces s
  let s ← expect_char ':' s
  let (_, s) := next_spaces s
  let (lenU, s) ← expect_unsigned fm s
  let s ← expect_spaces s
  let (tr, s) ← expect_dbc_identifier s
  let transmitter := if tr = EMPTY_ECU then none else some tr
  let (_, s) := next_spaces s
  let s ← expect_newline s
  let msgNative : MessageNative :=
    { id := message_id, name := name, len := castAsU32 lenU, transmitter := transmitter }
  let st := { st with messages_dbc := st.messages_dbc ++ [msgNative] }
  let inline0 := alistGetD st.inl message_id []
  let ms0 := alistGetD st.signals_db message_id []
  let (ms, s) ← boSignalsLoop fm (s.length + 1) s ms0
  let inline1 := inlineMuxFromSignals ms inline0
  let st := { st with inl := alistInsert st.inl message_id inline1 }
  let st := { st with signals_db := alistInsert st.signals_db message_id ms }
  .ok (st, s)

/-- The transmitter-list loop of `BO_TX_BU_`. -/
def boTxBuLoop : Nat → Lex → Except ParseErrorE Lex
  | 0, _ => .error ⟨"fuel".toList⟩
  | fuel + 1, s =>
    match next_char ',' s with
    | (false, s') => .ok s'
    | (true, s') => do
      let (_, s') := next_spaces s'
      let (_, s') ← expect_dbc_identifier s'
      boTxBuLoop fuel s'

/-- `BO_TX_BU_` branch (parsed, not retained). -/
def handleBO_TX_BU (fm : FloatModel) (s : Lex) : Except ParseErrorE Lex := do
  let s ← expect_spaces s
  let (_, s) ← expect_unsigned fm s
  let (_, s) := next_spaces s
  let s ← expect_char ':' s
  let (_, s) := next_spaces s
  let (_, s) ← expect_dbc_identifier s
  let s ← boTxBuLoop (s.length + 1) s
  let s ← expect_char ';' s
  expect_newline s

/-- `VAL_` branch. -/
def handleVAL (fm : FloatModel) (s : Lex) (vals : List (Nat × ValsMap)) :
    Except ParseErrorE (List (Nat × ValsMap) × Lex) := do
  let s ← expect_spaces s
  let (idU, s) ← expect_unsigned fm s
  let message_id := castAsU32 idU
  let s ← expect_spaces s
  let (signal_name, s) ← expect_dbc_identifier s
  let (_, s) := next_spaces s
  let (vd, s) ← valueDescsLoop fm (s.length + 1) s []
  let vals := alistModify vals message_id [] (fun m => alistInsert m signal_name vd)
  let s ← expect_newline s
  .ok (vals, s)

/-- The `ENUM` value loop of `BA_DEF_`. -/
def enumValuesLoop : Nat → Lex → Except ParseErrorE Lex
  | 0, _ => .error ⟨"fuel".toList⟩
  | fuel + 1, s =>
    match next_char ',' s with
    | (false, s') => .ok s'
    | (true, s') => do
      let (_, s') := next_spaces s'
      let (_, s') ← expect_string s'
      enumValuesLoop fuel s'

/-- `BA_DEF_` branch (parsed, not retained). -/
def handleBA_DEF (fm : FloatModel) (s : Lex) : Except ParseErrorE Lex := do
  let s ← expect_spaces s
  let s ←
    match ← next_string s with
    | (none, s) => do
      let (_, s) ← expect_dbc_identifier s
      let s ← expect_spaces s
      let (_, s) ← expect_string s
      pure s
    | (some _, s) => pure s
  let s ← expect_spaces s
  let (tyName, s) ← expect_dbc_identifier s
  let (_, s) := next_spaces s
  let s ←
    if tyName = "INT".toList ∨ tyName = "HEX".toList then do
      let (_, s) ← expect_signed fm s
      let s ← expect_spaces s
      let (_, s) ← expect_signed fm s
      pure s
    else if tyName = "FLOAT".toList then do
      let (_, s) ← expect_double fm s
      let s ← expect_spaces s
      let (_, s) ← expect_double fm s
      pure s
    else if tyName = "STRING".toList then pure s
    else if tyName = "ENUM".toList then do
      let (_, s) ← expect_string s
      enumValuesLoop (s.length + 1) s
    else .error ⟨"expected attribute type".toList⟩
  let (_, s) := next_spaces s
  let s ← expect_char ';' s
  expect_newline s

/-- `BA_DEF_DEF_` branch (parsed, not retained). -/
def handleBA_DEF_DEF (fm : FloatModel) (s : Lex) : Except ParseErrorE Lex := do
  let s ← expect_spaces s
  let (_, s) ← expect_string s
  let s ← expect_spaces s
  let (_, s) ← expect_attribute_value fm s
  let (_, s) := next_spaces s
  let s ← expect_char ';' s
  expect_newline s

/-- `BA_` branch (parsed, not retained). -/
def handleBA (fm : FloatModel) (s : Lex) : Except ParseErrorE Lex := do
  let s ← expect_spaces s
  let (_, s) ← expect_string s
  let s ← expect_spaces s
  let s ←
    match next_dbc_identifier s with
    | (some kw, s) =>
      if kw = "BU_".toList then do
        let s ← expect_spaces s
        let (_, s) ← expect_dbc_identifier s
        expect_spaces s
      else if kw = "BO_".toList then do
        let s ← expect_spaces s
        let (_, s) ← expect_unsigned fm s
        expect_spaces s
      else if kw = "SG_".toList then do
        let s ← expect_spaces s
        let (_, s) ← expect_unsigned fm s
        let s ← expect_spaces s
        let (_, s) ← expect_dbc_identifier s
        expect_spaces s
      else if kw = "EV_".toList then do
        let s ← expect_spaces s
        let (_, s) ← expect_dbc_identifier s
        expect_spaces s
      else .error ⟨"expected attribute object type".toList⟩
    | (none, s) => pure s
  let (_, s) ← expect_attribute_value fm s
  let (_, s) := next_spaces s
  let s ← expect_char ';' s
  expect_newline s

/-- The inclusive selector range `start..=end`. -/
def selRange (start stop : Nat) : List Nat :=
  if stop < start then [] else List.range' start (stop - start + 1)

/-- The range loop of `SG_MUL_VAL_`. -/
def sgMulValRanges (fm : FloatModel) (message_id : Nat) (muxed muxer : NameL) :
    Nat → Lex → List (Nat × MuxMap) →
    Except ParseErrorE (List (Nat × MuxMap) × Lex)
  | 0, _, _ => .error ⟨"fuel".toList⟩
  | fuel + 1, s, ext => do
    let s ← expect_spaces s
    let (startU, s) ← expect_unsigned fm s
    let s ← expect_char '-' s
    let (stopU, s) ← expect_unsigned fm s
    let ext := (selRange startU stopU).foldl (fun e i =>
      alistModify e message_id []
        (fun mm => alistModify mm muxer []
          (fun inner => alistModify inner i [] (fun l => l ++ [muxed])))) ext
    let (c, s) ← expect_chars [';', ','] s
    if c = ';' then .ok (ext, s)
    else sgMulValRanges fm message_id muxed muxer fuel s ext

/-- `SG_MUL_VAL_` branch. -/
def handleSG_MUL_VAL (fm : FloatModel) (s : Lex) (ext : List (Nat × MuxMap)) :
    Except ParseErrorE (List (Nat × MuxMap) × Lex) := do
  let s ← expect_spaces s
  let (idU, s) ← expect_unsigned fm s
  let message_id := castAsU32 idU
  let s ← expect_spaces s
  let (muxed, s) ← expect_dbc_identifier s
  let s ← expect_spaces s
  let (muxer, s) ← expect_dbc_identifier s
  let ext := alistModify ext message_id []
    (fun mm => alistModify mm muxer [] (fun inner => inner))
  let (ext, s) ←
    match next_char ';' s with
    | (true, s) => pure (ext, s)
    | (false, s) => sgMulValRanges fm message_id muxed muxer (s.length + 1) s ext
  let s ← expect_newline s
  .ok (ext, s)


/-- The dispatch loop of `Dbc::parse`.  Fuel is the remaining input length
plus one: every iteration below end of input consumes at least one
character (a keyword, spaces, or via `expect_newline` / `next_line`),
apart from the final iteration that observes end of input. -/
def parseLoopD (fm : FloatModel) : Nat → Lex → PState fm.F →
    Except ParseErrorE (PState fm.F × Lex)
  | 0, _, _ => .error ⟨"out of fuel".toList⟩
  | fuel + 1, s, st =>
    if is_eof s then .ok (st, s)
    else
      match next_keyword s with
      | (some kw, s') =>
        if kw = "VERSION".toList then do
          let s'' ← handleVERSION s'
          parseLoopD fm fuel s'' st
        else if kw = "BS_".toList then do
          let s'' ← handleBS s'
          parseLoopD fm fuel s'' st
        else if kw = "BU_".toList then do
          let s'' ← handleBU s'
          parseLoopD fm fuel s'' st
        else if kw = "VAL_TABLE_".toList then do
          let s'' ← handleVAL_TABLE fm s'
          parseLoopD fm fuel s'' st
        else if kw = "NS_".toList then do
          let (syms, s'') ← handleNS s' st.new_symbols
          parseLoopD fm fuel s'' { st with new_symbols := syms }
        else if kw = "CM_".toList then do
          let s'' ← handleCM fm s'
          parseLoopD fm fuel s'' st
        else if kw = "BO_".toList then do
          let (st', s'') ← handleBO fm s' st
          parseLoopD fm fuel s'' st'
        else if kw = "BO_TX_BU_".toList then do
          let s'' ← handleBO_TX_BU fm s'
          parseLoopD fm fuel s'' st
        else if kw = "VAL_".toList then do
          let (vals', s'') ← handleVAL fm s' st.vals
          parseLoopD fm fuel s'' { st with vals := vals' }
        else if kw = "BA_DEF_".toList then do
          let s'' ← handleBA_DEF fm s'
          parseLoopD fm fuel s'' st
        else if kw = "BA_DEF_DEF_".toList then do
          let s'' ← handleBA_DEF_DEF fm s'
          parseLoopD fm fuel s'' st
        else if kw = "BA_".toList then do
          let s'' ← handleBA fm s'
          parseLoopD fm fuel s'' st
        else if kw = "SG_MUL_VAL_".toList then do
          let (ext', s'') ← handleSG_MUL_VAL fm s' st.ext
          parseLoopD fm fuel s'' { st with ext := ext' }
        else
          let (_, s'') := next_line s'
          parseLoopD fm fuel s'' st
      | (none, s') =>
        let (sp, s'') := next_spaces s'
        if sp.isEmpty then do
          let s3 ← expect_newline s''
          parseLoopD fm fuel s3 st
        else
          let (_, s3) := next_line s''
          parseLoopD fm fuel s3 st

/-- Failure modes of the whole `Dbc::parse` pipeline: a `ParseError`, a
panic (`unwrap` of a missing multiplexed-signal name), or fuel exhaustion
(a cyclic extended-multiplex graph, infinite recursion in Rust). -/
inductive DbcErr where
  | perr (e : ParseErrorE)
  | panicked
  | fuelOut
deriving DecidableEq

/-- `Signal::from((raw, values))`. -/
def signalFromNative {F : Type} (raw : SignalNative F) (vd : Option (List (Int × NameL))) :
    Signal F :=
  .mk raw.name raw.start_bit raw.signal_size raw.byte_order raw.value_type
    raw.factor raw.offset raw.minimum raw.maximum raw.unit raw.receiver
    (vd.getD []) []

/-- Replace a signal's multiplex map. -/
def Signal.withMultiplexed {F : Type} : Signal F → List (Nat × List (Signal F)) → Signal F
  | .mk n sb sz bo vt f o mi ma u r vd _, mx => .mk n sb sz bo vt f o mi ma u r vd mx

/-- Insertion by `start_bit` (the source uses `sort_unstable_by` on
`partial_cmp`; ties may be ordered arbitrarily there, so round-trip
hypotheses demand strictly increasing `start_bit`s). -/
def insertByStartBit {F : Type} (x : Signal F) : List (Signal F) → List (Signal F)
  | [] => [x]
  | y :: ys =>
    if x.start_bit ≤ y.start_bit then x :: y :: ys else y :: insertByStartBit x ys

/-- Sort children by `start_bit`. -/
def sortByStartBit {F : Type} : List (Signal F) → List (Signal F)
  | [] => []
  | x :: xs => insertByStartBit x (sortByStartBit xs)

/-- `build_multiplexed_signals`.  Fuel bounds the recursion depth; the
`unwrap` of an unknown child name is a panic. -/
def build_multiplexed_signals (F : Type) : Nat → SignalNative F → Option MuxMap →
    List (NameL × SignalNative F) → Option ValsMap → Except DbcErr (Signal F)
  | 0, _, _, _, _ => .error .fuelOut
  | fuel + 1, raw, mux?, sdb, vdb? =>
    let sig := signalFromNative raw (vdb?.bind (fun x => alistGet x raw.name))
    match mux? with
    | none => .ok sig
    | some muxImpl =>
      match alistGet muxImpl raw.name with
      | none => .ok (sig.withMultiplexed [])
      | some muxes => do
        let mx ← muxes.mapM (fun mux => do
          let children ← mux.2.mapM (fun nm =>
            match alistGet sdb nm with
            | none => .error .panicked
            | some rawc => build_multiplexed_signals F fuel rawc mux? sdb vdb?)
          pure (mux.1, sortByStartBit children))
        .ok (sig.withMultiplexed mx)

/-- Recursion fuel for the tree build: one more than the number of signal
entries (an acyclic multiplex graph cannot be deeper). -/
def buildFuel {F : Type} (st : PState F) : Nat :=
  st.signals_db.foldl (fun a p => a + p.2.length) 0 + 1

/-- The message construction at the end of `Dbc::parse`, including the
extended-over-inline choice.  Each message's signal list collects
`HashMap::values()`, whose order is arbitrary in Rust; the embedding
yields the association-list order, and the round-trip claim compares the
resulting signal lists only up to permutation. -/
def buildMessages (F : Type) (st : PState F) : Except DbcErr (List (Message F)) :=
  let chosen := if ¬st.ext.isEmpty then st.ext else st.inl
  st.messages_dbc.mapM (fun m =>
    match alistGet st.signals_db m.id with
    | none => .error .panicked
    | some msdb => do
      let mvdb := alistGet st.vals m.id
      let mux := alistGet chosen m.id
      let sigs ← (msdb.filter (fun p => p.2.multiplexer_indicator.mux_index = none)).mapM
        (fun p => build_multiplexed_signals F (buildFuel st) p.2 mux msdb mvdb)
      pure { id := m.id, name := m.name, len := m.len,
             transmitter := m.transmitter, signals := sigs })

/-- `Dbc::parse`. -/
def parseDbc (fm : FloatModel) (contents : List Char) : Except DbcErr (Dbc fm.F) :=
  match parseLoopD fm (contents.length + 1) contents (PState.init fm.F) with
  | .error e => .error (.perr e)
  | .ok (st, _) =>
    match buildMessages fm.F st with
    | .error e => .error e
    | .ok msgs => .ok ⟨msgs⟩


/-! ### `Dbc::save` (the writer), producing the output character list. -/

/-- Abbreviation for string-literal chunks of the writer. -/
def strL (s : String) : List Char := s.toList

/-- The fixed `NS_` symbol list of the writer. -/
def nsSymbolList : List NameL :=
  ["NS_DESC_", "CM_", "BA_DEF_", "BA_", "VAL_", "CAT_DEF_", "CAT_", "FILTER",
   "BA_DEF_DEF_", "EV_DATA_", "ENVVAR_DATA_", "SGTYPE_", "SGTYPE_VAL_",
   "BA_DEF_SGTYPE_", "BA_SGTYPE_", "SIG_TYPE_REF_", "VAL_TABLE_", "SIG_GROUP_",
   "SIG_VALTYPE_", "SIGTYPE_VALTYPE_", "BO_TX_BU_", "BA_DEF_REL_", "BA_REL_",
   "BA_DEF_DEF_REL_", "BU_SG_REL_", "BU_EV_REL_", "BU_BO_REL_",
   "SG_MUL_VAL_"].map String.toList

/-- `HashSet::insert` modelled as ordered deduplicating append (the set's
iteration order is unspecified in Rust; this model fixes first-insertion
order, and the parser ignores `BU_` node order). -/
def setInsert (l : List NameL) (x : NameL) : List NameL :=
  if x ∈ l then l else l ++ [x]

/-- `add_multiplexed_receivers`: collect the receivers of a signal tree in
preorder (fuel-based; callers pass the node count plus one). -/
def collectReceivers (F : Type) : Nat → List (Signal F) → List NameL → List NameL
  | 0, _, acc => acc
  | _ + 1, [], acc => acc
  | fuel + 1, s :: rest, acc =>
    let acc := s.receiver.foldl setInsert acc
    collectReceivers F fuel (s.multiplexed.flatMap (fun p => p.2) ++ rest) acc

mutual

/-- The number of nodes of a signal tree (recursion fuel for the
traversals). -/
def Signal.nodeCount {F : Type} : Signal F → Nat
  | .mk _ _ _ _ _ _ _ _ _ _ _ _ mx => 1 + nodeCountMux mx

def nodeCountMux {F : Type} : List (Nat × List (Signal F)) → Nat
  | [] => 0
  | (_, cs) :: rest => nodeCountList cs + nodeCountMux rest

def nodeCountList {F : Type} : List (Signal F) → Nat
  | [] => 0
  | s :: rest => s.nodeCount + nodeCountList rest

end

/-- The `BU_` node set of the writer: every transmitter and receiver in
the tree. -/
def collectNodes {F : Type} (d : Dbc F) : List NameL :=
  d.messages.foldl (fun acc m =>
    let acc := match m.transmitter with
      | some t => setInsert acc t
      | none => acc
    collectReceivers F (nodeCountList m.signals + 1) m.signals acc) []

/-- `Message::iter_signals`: the explicit-stack iterator (pop from the
back, push each multiplex child with its selector).  Fuel bounds the
iteration count; callers pass the node count plus one.  `multiplexed` is a
Rust `HashMap`, so the program's child emission order is arbitrary; the
embedding iterates the association list in its fixed order, and claim
statements avoid depending on that order. -/
def iterSignalsAux (F : Type) : Nat → List (MultiplexerIndicator × Signal F) →
    List (MultiplexerIndicator × Signal F)
  | 0, _ => []
  | fuel + 1, stack =>
    match stack.getLast? with
    | none => []
    | some top =>
      let front := stack.dropLast
      let pushed := top.2.multiplexed.flatMap (fun p =>
        p.2.map (fun c =>
          (({ is_multiplexer := ¬c.multiplexed.isEmpty,
              mux_index := some p.1 } : MultiplexerIndicator), c)))
      top :: iterSignalsAux F fuel (front ++ pushed)

/-- `Message::iter_signals` on a message. -/
def iterSignals {F : Type} (m : Message F) : List (MultiplexerIndicator × Signal F) :=
  iterSignalsAux F (nodeCountList m.signals + 1)
    (m.signals.map (fun x =>
      (({ is_multiplexer := ¬x.multiplexed.isEmpty, mux_index := none } :
        MultiplexerIndicator), x)))

/-- Byte-order character of one ` SG_ …` line. -/
def boChar : ByteOrder → Char
  | .bigEndian => '0'
  | .littleEndian => '1'

/-- Value-type character of one ` SG_ …` line. -/
def vtChar : ValueType → Char
  | .unsigned => '+'
  | .signed => '-'

/-- The multiplexer-indicator fragment of one ` SG_ …` line. -/
def muxIndChars (ind : MultiplexerIndicator) : List Char :=
  match ind.mux_index with
  | some k =>
    ['m'] ++ natToDecimal k ++ (if ind.is_multiplexer then ['M'] else []) ++ [' ']
  | none => if ind.is_multiplexer then ['M', ' '] else []

/-- The receiver-list fragment of one ` SG_ …` line. -/
def recvChars : List NameL → List Char
  | [] => [' '] ++ EMPTY_ECU
  | r :: rs => [' '] ++ r ++ rs.flatMap (fun x => [',', ' '] ++ x)

/-- The body of one ` SG_ …` line: everything after the `SG_` keyword (the
slice `parse_signal_line` re-reads), including the final newline. -/
def renderSigBody (fm : FloatModel) (ind : MultiplexerIndicator)
    (sig : Signal fm.F) : List Char :=
  [' '] ++ sig.name ++ [' '] ++ muxIndChars ind ++
  strL ": " ++ natToDecimal sig.start_bit ++ ['|'] ++ natToDecimal sig.signal_size ++
  ['@'] ++ [boChar sig.byte_order] ++ [vtChar sig.value_type] ++
  [' ', '('] ++ fm.printF sig.factor ++ [','] ++ fm.printF sig.offsetF ++
  [')', ' ', '['] ++ fm.printF sig.minimum ++ ['|'] ++ fm.printF sig.maximum ++
  [']', ' ', '"'] ++ sig.unit ++ ['"'] ++
  recvChars sig.receiver ++ ['\n']

/-- One ` SG_ …` line of the writer. -/
def renderSignalLine (fm : FloatModel) (ind : MultiplexerIndicator)
    (sig : Signal fm.F) : List Char :=
  strL " SG_" ++ renderSigBody fm ind sig

/-- One `key "value"` chunk of a `VAL_` line. -/
def pairChunk (kv : Int × NameL) : List Char :=
  intToDecimal kv.1 ++ strL " \"" ++ kv.2 ++ ['"']

/-- The body of one `VAL_` statement: everything after the `VAL_` keyword,
with each description chunk followed by the separating space (the last
space is the one before the closing `;`). -/
def renderValBody (mid : Nat) (sname : NameL) (vds : List (Int × NameL)) :
    List Char :=
  [' '] ++ natToDecimal mid ++ [' '] ++ sname ++ [' '] ++
  vds.flatMap (fun kv => pairChunk kv ++ [' ']) ++ strL ";\n"

/-- The `VAL_` lines of one signal (nothing for an empty map). -/
def renderValLine (mid : Nat) (sname : NameL) : List (Int × NameL) → List Char
  | [] => []
  | v0 :: vrest => strL "VAL_" ++ renderValBody mid sname (v0 :: vrest)

/-- The body of one `BO_` statement: everything after the `BO_` keyword (the
slice the `BO_` branch of the parse loop re-reads), including the indented
`SG_` lines but not the blank separator line. -/
def renderMsgBody (fm : FloatModel) (m : Message fm.F) : List Char :=
  [' '] ++ natToDecimal m.id ++ [' '] ++ m.name ++ strL ": " ++
  natToDecimal m.len ++ [' '] ++ (m.transmitter.getD EMPTY_ECU) ++ ['\n'] ++
  (iterSignals m).flatMap (fun p => renderSignalLine fm p.1 p.2)

/-- One message block of the writer: `BO_` header, `SG_` lines, blank line. -/
def renderMsg (fm : FloatModel) (m : Message fm.F) : List Char :=
  strL "BO_" ++ renderMsgBody fm m ++ ['\n']

/-- The `VAL_` lines of one message. -/
def renderMsgVals {F : Type} (m : Message F) : List Char :=
  (iterSignals m).flatMap (fun p => renderValLine m.id p.2.name p.2.value_descriptions)

/-- The fixed header of the writer up to and including the blank line after
the `BU_` node list. -/
def renderHeader {F : Type} (d : Dbc F) : List Char :=
  strL "VERSION \"\"\n\n" ++
  strL "NS_ :\n" ++
  nsSymbolList.flatMap (fun sy => strL "    " ++ sy ++ ['\n']) ++
  ['\n'] ++
  strL "BS_:\n" ++
  ['\n'] ++
  strL "BU_:" ++ (collectNodes d).flatMap (fun n => [' '] ++ n) ++ ['\n'] ++
  ['\n']

/-- `Dbc::save`, as the produced character stream. -/
def saveDbc (fm : FloatModel) (d : Dbc fm.F) : List Char :=
  renderHeader d ++
  d.messages.flatMap (fun m => renderMsg fm m) ++
  d.messages.flatMap (fun m => renderMsgVals m)


/-! ### Decimal printing/parsing facts and a concrete `FloatModel`. -/

/-- Value of a decimal digit character. -/
def digitVal (c : Char) : Nat := c.toNat - '0'.toNat

/-- Value of a digit string. -/
def digitsVal (l : List Char) : Nat := l.foldl (fun a c => a * 10 + digitVal c) 0

theorem digitsVal_append (a b : List Char) :
    digitsVal (a ++ b) = b.foldl (fun x c => x * 10 + digitVal c) (digitsVal a) := by
  simp [digitsVal, List.foldl_append]

theorem digitChar_isDigit {d : Nat} (h : d < 10) : isAsciiDigit (digitChar d) = true := by
  interval_cases d <;> decide

theorem digitVal_digitChar {d : Nat} (h : d < 10) : digitVal (digitChar d) = d := by
  interval_cases d <;> decide

theorem natToDecimalAux_spec :
    ∀ (fuel n : Nat), n < fuel →
      natToDecimalAux fuel n ≠ [] ∧
      (∀ c ∈ natToDecimalAux fuel n, isAsciiDigit c) ∧
      digitsVal (natToDecimalAux fuel n) = n := by
  intro fuel
  induction fuel with
  | zero => intro n h; omega
  | succ f ih =>
    intro n h
    by_cases h10 : n < 10
    · refine ⟨by simp [natToDecimalAux, h10], ?_, ?_⟩
      · intro c hc
        simp [natToDecimalAux, h10] at hc
        subst hc
        exact digitChar_isDigit h10
      · simp [natToDecimalAux, h10, digitsVal, digitVal_digitChar h10]
    · have hdiv : n / 10 < f := by
        have h1 : n / 10 < n := Nat.div_lt_self (by omega) (by omega)
        omega
      obtain ⟨hne, hdig, hval⟩ := ih (n / 10) hdiv
      refine ⟨by simp [natToDecimalAux, h10], ?_, ?_⟩
      · intro c hc
        simp only [natToDecimalAux, h10, if_false, List.mem_append, List.mem_singleton] at hc
        rcases hc with hc | hc
        · exact hdig c hc
        · subst hc
          exact digitChar_isDigit (Nat.mod_lt _ (by omega))
      · simp only [natToDecimalAux, h10, if_false]
        rw [digitsVal_append, hval]
        simp only [List.foldl_cons, List.foldl_nil,
          digitVal_digitChar (Nat.mod_lt n (show 0 < 10 by omega))]
        omega

theorem natToDecimal_spec (n : Nat) :
    natToDecimal n ≠ [] ∧ (∀ c ∈ natToDecimal n, isAsciiDigit c) ∧
      digitsVal (natToDecimal n) = n :=
  natToDecimalAux_spec (n + 1) n (by omega)

/-- Strict parse of a nonempty digit string. -/
def digitsVal? (l : List Char) : Option Nat :=
  if l ≠ [] ∧ l.all isAsciiDigit then some (digitsVal l) else none

/-- Exact integer lexeme parse (the restriction of `str::parse::<f64>` to
integer lexemes, used by the concrete model). -/
def parseIntLexeme (l : List Char) : Option Int :=
  match l with
  | '-' :: rest => (digitsVal? rest).map (fun n => -(n : Int))
  | _ => (digitsVal? l).map (fun n => (n : Int))

theorem natToDecimal_head_not_minus (n : Nat) :
    ∀ c, (natToDecimal n).head? = some c → c ≠ '-' := by
  intro c hc
  obtain ⟨hne, hdig, _⟩ := natToDecimal_spec n
  have hmem : c ∈ natToDecimal n := by
    cases hh : natToDecimal n with
    | nil => simp [hh] at hc
    | cons a l =>
      simp [hh] at hc
      simp [hh, hc]
  have := hdig c hmem
  intro hcontr
  subst hcontr
  simp [isAsciiDigit] at this

theorem parseIntLexeme_intToDecimal (i : Int) :
    parseIntLexeme (intToDecimal i) = some i := by
  obtain ⟨hne, hdig, hval⟩ := natToDecimal_spec i.natAbs
  have hds : digitsVal? (natToDecimal i.natAbs) = some i.natAbs := by
    simp only [digitsVal?, hval]
    rw [if_pos ⟨hne, by simpa [List.all_eq_true] using hdig⟩]
  by_cases hneg : i < 0
  · simp only [intToDecimal, hneg, if_true, parseIntLexeme, hds]
    simp
    rw [abs_of_neg hneg, neg_neg]
  · simp only [intToDecimal, hneg, if_false]
    cases hh : natToDecimal i.natAbs with
    | nil => exact absurd hh hne
    | cons a l =>
      have ha : a ≠ '-' := natToDecimal_head_not_minus i.natAbs a (by simp [hh])
      rw [parseIntLexeme.eq_def]
      split
      · rename_i heq
        rw [List.cons_eq_cons] at heq
        exact absurd heq.1 ha
      · rw [← hh, hds]
        simp
        exact not_lt.mp hneg

/-- The concrete `FloatModel` with carrier `Int`: exact decimal printing
and parsing (satisfies every model property; used by witnesses and
counterexamples). -/
def intFloatModel : FloatModel where
  F := Int
  deq := inferInstance
  parseLexeme := parseIntLexeme
  printF := intToDecimal
  roundInt := fun i => i
  print_parse := parseIntLexeme_intToDecimal
  print_shape := by
    intro i
    obtain ⟨hne, hdig, _⟩ := natToDecimal_spec i.natAbs
    by_cases hneg : i < 0
    · exact ⟨['-'], natToDecimal i.natAbs, [], Or.inr rfl, hne, hdig, Or.inl rfl,
        by simp [intToDecimal, hneg]⟩
    · exact ⟨[], natToDecimal i.natAbs, [], Or.inl rfl, hne, hdig, Or.inl rfl,
        by simp [intToDecimal, hneg]⟩
  parse_intDec := by
    intro i _
    exact ⟨i, parseIntLexeme_intToDecimal i, rfl⟩
  parse_empty := by simp [parseIntLexeme, digitsVal?]

/-! ### C3/C5 groundwork: token-consumption lemmas for rendered text.

Each lemma states that a lexer primitive applied to a rendered token
followed by arbitrary remaining input consumes exactly the token, provided
the first remaining character cannot extend the token. -/

/-- Keyword characters (`next_keyword`'s scan predicate). -/
def kwChar (c : Char) : Bool := isAsciiUppercase c || decide (c = '_')

/-- Identifier characters (`next_dbc_identifier`'s scan predicate). -/
def identChar (c : Char) : Bool := isAsciiAlphanumeric c || decide (c = '_')

/-- Valid identifier start characters. -/
def identStart (c : Char) : Bool := isAsciiAlphabetic c ∨ c = '_'

/-- A name the DBC identifier rule reads back exactly. -/
def validIdent (n : NameL) : Bool :=
  ¬n.isEmpty ∧ identStart (cur n) ∧ n.all identChar

/-- Space characters (`next_spaces`' scan predicate). -/
def spaceChar (c : Char) : Bool := c = ' ' ∨ c = '\t'

/-- Characters that could extend a numeric lexeme under `scanDouble`. -/
def numExtChar (c : Char) : Bool :=
  isAsciiDigit c ∨ c = '.' ∨ c = 'e' ∨ c = 'E'

theorem scanWhile_exact (p : Char → Bool) :
    ∀ (tok : List Char), (∀ c ∈ tok, p c = true) → ∀ rest, p (cur rest) = false →
      scanWhile p (tok ++ rest) = (tok, rest) := by
  intro tok
  induction tok with
  | nil =>
    intro _ rest hrest
    cases rest with
    | nil => rfl
    | cons r rs =>
      have hr : p r = false := by simpa [cur] using hrest
      simp [scanWhile, hr]
  | cons c cs ih =>
    intro htok rest hrest
    have hc : p c = true := htok c (by simp)
    have hrec := ih (fun x hx => htok x (by simp [hx])) rest hrest
    simp [scanWhile, hc, hrec]

theorem next_spaces_exact (sp : List Char) (hsp : ∀ c ∈ sp, spaceChar c = true)
    (rest : Lex) (hrest : spaceChar (cur rest) = false) :
    next_spaces (sp ++ rest) = (sp, rest) :=
  scanWhile_exact _ sp hsp rest hrest

theorem next_spaces_none (rest : Lex) (hrest : spaceChar (cur rest) = false) :
    next_spaces rest = ([], rest) :=
  next_spaces_exact [] (by simp) rest hrest

theorem expect_spaces_one (rest : Lex) (hrest : spaceChar (cur rest) = false) :
    expect_spaces (' ' :: rest) = .ok rest := by
  have h := next_spaces_exact [' '] (by simp [spaceChar]) rest hrest
  simp only [List.singleton_append] at h
  simp [expect_spaces, h]

theorem next_keyword_exact (kw : List Char) (hne : kw ≠ [])
    (hkw : ∀ c ∈ kw, kwChar c = true) (rest : Lex)
    (hrest : kwChar (cur rest) = false) :
    next_keyword (kw ++ rest) = (some kw, rest) := by
  have h : scanWhile (fun c => isAsciiUppercase c || decide (c = '_')) (kw ++ rest) =
      (kw, rest) := scanWhile_exact _ kw hkw rest hrest
  have hie : kw.isEmpty = false := by cases kw <;> simp_all
  simp [next_keyword, h, hie]

theorem next_keyword_none (rest : Lex) (hrest : kwChar (cur rest) = false) :
    next_keyword rest = (none, rest) := by
  have h : scanWhile (fun c => isAsciiUppercase c || decide (c = '_')) rest =
      ([], rest) := by
    have := scanWhile_exact (fun c => isAsciiUppercase c || decide (c = '_'))
      [] (by simp) rest hrest
    simpa using this
  simp [next_keyword, h]

theorem next_dbc_identifier_exact (n : NameL) (hn : validIdent n = true)
    (rest : Lex) (hrest : identChar (cur rest) = false) :
    next_dbc_identifier (n ++ rest) = (some n, rest) := by
  cases n with
  | nil => simp [validIdent] at hn
  | cons c cs =>
    obtain ⟨hstart, hall⟩ : identStart c = true ∧ ∀ x ∈ c :: cs, identChar x = true := by
      have := (by simpa [validIdent, cur] using hn :
        identStart c = true ∧ (c :: cs).all identChar = true)
      exact ⟨this.1, List.all_eq_true.mp this.2⟩
    have hsw : scanWhile (fun c => isAsciiAlphanumeric c || decide (c = '_'))
        (c :: (cs ++ rest)) = (c :: cs, rest) := by
      have := scanWhile_exact _ (c :: cs) hall rest hrest
      simpa using this
    have hcond : ¬(isAsciiAlphabetic (cur (c :: (cs ++ rest))) = false ∧
        ¬cur (c :: (cs ++ rest)) = '_') := by
      rcases (by simpa [identStart] using hstart :
          isAsciiAlphabetic c = true ∨ c = '_') with h | h
      · simp [cur, h]
      · simp [cur, h]
    simp [next_dbc_identifier, hcond, hsw]

theorem next_char_hit (v : Char) (rest : Lex) :
    next_char v (v :: rest) = (true, rest) := by
  simp [next_char, cur, scanChar]

theorem next_char_miss (v : Char) (s : Lex) (h : cur s ≠ v) :
    next_char v s = (false, s) := by
  simp [next_char, h]

theorem expect_char_hit (v : Char) (rest : Lex) :
    expect_char v (v :: rest) = .ok rest := by
  simp [expect_char, next_char_hit]

theorem expect_newline_nl (rest : Lex) :
    expect_newline ('\n' :: rest) = .ok rest := by
  have h1 : next_spaces ('\n' :: rest) = ([], '\n' :: rest) :=
    next_spaces_none _ (by simp [spaceChar, cur])
  simp [expect_newline, h1, next_chars, next_char_hit]

theorem next_string_plain_ok (content : List Char)
    (hplain : ∀ c ∈ content, plainChar c) (rest : Lex) :
    next_string ('"' :: (content ++ '"' :: rest)) = .ok (some content, rest) := by
  have hscan := nextStringScan_plain content hplain rest
  have hcur : cur ('"' :: (content ++ '"' :: rest)) = '"' := rfl
  have hlen : (content ++ '"' :: rest).length - ('"' :: rest).length = content.length := by
    simp
  simp [next_string, hcur, scanChar, hscan, hlen, List.take_left, cur]

theorem expect_string_plain (content : List Char)
    (hplain : ∀ c ∈ content, plainChar c) (rest : Lex) :
    expect_string ('"' :: (content ++ '"' :: rest)) = .ok (content, rest) := by
  unfold expect_string
  rw [next_string_plain_ok content hplain rest]
  rfl

/-! ### Numeric lexemes: `scanDouble` consumes a rendered number exactly. -/

theorem natToDecimal_shape (n : Nat) : decimalShape (natToDecimal n) := by
  obtain ⟨hne, hdig, _⟩ := natToDecimal_spec n
  exact ⟨[], natToDecimal n, [], Or.inl rfl, hne, hdig, Or.inl rfl, by simp⟩

theorem intToDecimal_shape (k : Int) : decimalShape (intToDecimal k) := by
  obtain ⟨hne, hdig, _⟩ := natToDecimal_spec k.natAbs
  by_cases hneg : k < 0
  · exact ⟨['-'], natToDecimal k.natAbs, [], Or.inr rfl, hne, hdig, Or.inl rfl,
      by simp [intToDecimal, hneg]⟩
  · exact ⟨[], natToDecimal k.natAbs, [], Or.inl rfl, hne, hdig, Or.inl rfl,
      by simp [intToDecimal, hneg]⟩

theorem intToDecimal_natCast (n : Nat) : intToDecimal (n : Int) = natToDecimal n := by
  simp [intToDecimal]

theorem isAsciiDigit_not_special {c : Char} (h : isAsciiDigit c = true) :
    c ≠ '+' ∧ c ≠ '-' := by
  constructor <;> (intro he; subst he; exact absurd h (by decide))

theorem numExtChar_split {c : Char} (h : numExtChar c = false) :
    isAsciiDigit c = false ∧ c ≠ '.' ∧ c ≠ 'e' ∧ c ≠ 'E' := by
  revert h
  unfold numExtChar
  cases hd : isAsciiDigit c <;> simp <;> tauto

theorem cur_cons (c : Char) (l : List Char) : cur (c :: l) = c := rfl

theorem scanChar_cons (c : Char) (l : List Char) : scanChar (c :: l) = l := rfl

theorem scanDouble_exact (l : List Char) (hshape : decimalShape l) (rest : Lex)
    (hrest : numExtChar (cur rest) = false) :
    scanDouble (l ++ rest) = (l, rest) := by
  obtain ⟨sgn, intpart, frac, hsgn, hip_ne, hip_dig, hfrac, rfl⟩ := hshape
  obtain ⟨hr_dig, hr_dot, hr_e, hr_E⟩ := numExtChar_split hrest
  have hfr_stop : isAsciiDigit (cur (frac ++ rest)) = false := by
    rcases hfrac with rfl | ⟨fd, _, _, rfl⟩
    · simpa using hr_dig
    · exact (by decide : isAsciiDigit '.' = false)
  have hip := scanWhile_exact isAsciiDigit intpart hip_dig (frac ++ rest) hfr_stop
  obtain ⟨c, cs, rfl⟩ : ∃ c cs, intpart = c :: cs := by
    cases intpart with
    | nil => exact absurd rfl hip_ne
    | cons c cs => exact ⟨c, cs, rfl⟩
  have hcdig := hip_dig c (by simp)
  obtain ⟨hc_plus, hc_minus⟩ := isAsciiDigit_not_special hcdig
  have hexp : ¬(cur rest = 'e' ∨ cur rest = 'E') := by
    simp [hr_e, hr_E]
  have hsign_cond : ¬(c = '+' ∨ c = '-') := by
    simp [hc_plus, hc_minus]
  rcases hsgn with rfl | rfl
  · rcases hfrac with rfl | ⟨fd, hfd_ne, hfd_dig, rfl⟩
    · have hd2 := scanWhile_exact isAsciiDigit [] (by simp) rest hr_dig
      simp only [List.cons_append, List.nil_append, List.append_assoc,
        List.append_nil] at hip hd2 ⊢
      simp [scanDouble, cur_cons, scanChar_cons, hsign_cond, hip, hr_dot, hd2, hexp]
    · have hfd := scanWhile_exact isAsciiDigit fd hfd_dig rest hr_dig
      simp only [List.cons_append, List.nil_append, List.append_assoc,
        List.append_nil] at hip hfd ⊢
      simp [scanDouble, cur_cons, scanChar_cons, hsign_cond, hip, hfd, hexp]
  · rcases hfrac with rfl | ⟨fd, hfd_ne, hfd_dig, rfl⟩
    · have hd2 := scanWhile_exact isAsciiDigit [] (by simp) rest hr_dig
      simp only [List.cons_append, List.nil_append, List.append_assoc,
        List.append_nil] at hip hd2 ⊢
      simp [scanDouble, cur_cons, scanChar_cons, hip, hr_dot, hd2, hexp]
    · have hfd := scanWhile_exact isAsciiDigit fd hfd_dig rest hr_dig
      simp only [List.cons_append, List.nil_append, List.append_assoc,
        List.append_nil] at hip hfd ⊢
      simp [scanDouble, cur_cons, scanChar_cons, hip, hfd, hexp]

/-! ### The `expect_*` numeric readers on rendered numbers. -/

theorem castAsU64_natCast (n : Nat) (h : n < 2 ^ 64) : castAsU64 (n : Int) = n := by
  unfold castAsU64
  omega

theorem castAsI64_small (k : Int) (h : k.natAbs < 2 ^ 63) : castAsI64 k = k := by
  unfold castAsI64
  omega

theorem castAsU32_small (n : Nat) (h : n < 2 ^ 32) : castAsU32 n = n :=
  Nat.mod_eq_of_lt h

theorem next_double_print (fm : FloatModel) (x : fm.F) (rest : Lex)
    (hrest : numExtChar (cur rest) = false) :
    next_double fm (fm.printF x ++ rest) = (some x, rest) := by
  simp [next_double, scanDouble_exact _ (fm.print_shape x) rest hrest, fm.print_parse]

theorem expect_double_exact (fm : FloatModel) (x : fm.F) (rest : Lex)
    (hrest : numExtChar (cur rest) = false) :
    expect_double fm (fm.printF x ++ rest) = .ok (x, rest) := by
  simp [expect_double, next_double_print fm x rest hrest]

theorem expect_unsigned_exact (fm : FloatModel) (n : Nat) (hn : n < 2 ^ 53)
    (rest : Lex) (hrest : numExtChar (cur rest) = false) :
    expect_unsigned fm (natToDecimal n ++ rest) = .ok (n, rest) := by
  obtain ⟨x, hpx, hrx⟩ := fm.parse_intDec (n : Int) (by simpa using hn)
  rw [intToDecimal_natCast] at hpx
  have hnd : next_double fm (natToDecimal n ++ rest) = (some x, rest) := by
    simp [next_double, scanDouble_exact _ (natToDecimal_shape n) rest hrest, hpx]
  simp [expect_unsigned, hnd, hrx, castAsU64_natCast n (by omega)]

theorem expect_signed_exact (fm : FloatModel) (k : Int) (hk : k.natAbs < 2 ^ 53)
    (rest : Lex) (hrest : numExtChar (cur rest) = false) :
    expect_signed fm (intToDecimal k ++ rest) = .ok (k, rest) := by
  obtain ⟨x, hpx, hrx⟩ := fm.parse_intDec k hk
  have hnd : next_double fm (intToDecimal k ++ rest) = (some x, rest) := by
    simp [next_double, scanDouble_exact _ (intToDecimal_shape k) rest hrest, hpx]
  simp [expect_signed, hnd, hrx, castAsI64_small k (by omega)]

/-! ### Character-class facts and the receiver-list loop on rendered text. -/

theorem ok_bind {ε α β : Type} (x : α) (f : α → Except ε β) :
    (Except.ok x : Except ε α) >>= f = f x := rfl

theorem pure_eq_ok {ε α : Type} (x : α) : (pure x : Except ε α) = .ok x := rfl

theorem identStart_not_space {c : Char} (h : identStart c = true) :
    spaceChar c = false := by
  cases hs : spaceChar c
  · rfl
  · exfalso
    have : c = ' ' ∨ c = '\t' := by simpa [spaceChar] using hs
    rcases this with rfl | rfl <;> exact absurd h (by decide)

theorem validIdent_parts (n : NameL) (hn : validIdent n = true) :
    n ≠ [] ∧ identStart (cur n) = true ∧ ∀ c ∈ n, identChar c = true := by
  simpa [validIdent] using hn

theorem validIdent_cur_not_space (n : NameL) (hn : validIdent n = true)
    (rest : Lex) : spaceChar (cur (n ++ rest)) = false := by
  obtain ⟨hne, hstart, _⟩ := validIdent_parts n hn
  cases n with
  | nil => simp at hne
  | cons c cs => exact identStart_not_space (by simpa [cur] using hstart)

theorem isAsciiDigit_not_space {c : Char} (h : isAsciiDigit c = true) :
    spaceChar c = false := by
  cases hs : spaceChar c
  · rfl
  · exfalso
    have : c = ' ' ∨ c = '\t' := by simpa [spaceChar] using hs
    rcases this with rfl | rfl <;> exact absurd h (by decide)

theorem natToDecimal_cur_not_space (n : Nat) (rest : Lex) :
    spaceChar (cur (natToDecimal n ++ rest)) = false := by
  obtain ⟨hne, hdig, _⟩ := natToDecimal_spec n
  cases hh : natToDecimal n with
  | nil => exact absurd hh hne
  | cons c cs =>
    have hc : isAsciiDigit c = true := hdig c (by simp [hh])
    exact isAsciiDigit_not_space hc

theorem decimalShape_cur_not_space (l : List Char) (h : decimalShape l)
    (rest : Lex) : spaceChar (cur (l ++ rest)) = false := by
  obtain ⟨sgn, ip, frac, hsgn, hip_ne, hip_dig, _, rfl⟩ := h
  rcases hsgn with rfl | rfl
  · cases ip with
    | nil => exact absurd rfl hip_ne
    | cons c cs =>
      have hc : isAsciiDigit c = true := hip_dig c (by simp)
      exact isAsciiDigit_not_space hc
  · exact (by decide : spaceChar '-' = false)

theorem expect_dbc_identifier_exact (n : NameL) (hn : validIdent n = true)
    (rest : Lex) (hrest : identChar (cur rest) = false) :
    expect_dbc_identifier (n ++ rest) = .ok (n, rest) := by
  simp [expect_dbc_identifier, next_dbc_identifier_exact n hn rest hrest]

theorem recv_sep_cur_not_ident (rs : List NameL) (rest : Lex) :
    identChar (cur (rs.flatMap (fun x => [',', ' '] ++ x) ++ '\n' :: rest)) = false := by
  cases rs with
  | nil => exact (by decide : identChar '\n' = false)
  | cons r rs2 => exact (by decide : identChar ',' = false)

theorem recvLoop_render (rs : List NameL) :
    ∀ fuel acc rest, rs.length < fuel →
      (∀ r ∈ rs, validIdent r = true ∧ r ≠ EMPTY_ECU) →
      recvLoop fuel (rs.flatMap (fun x => [',', ' '] ++ x) ++ '\n' :: rest) acc =
        .ok (acc ++ rs, '\n' :: rest) := by
  induction rs with
  | nil =>
    intro fuel acc rest hf _
    obtain ⟨f, rfl⟩ : ∃ f, fuel = f + 1 := ⟨fuel - 1, by omega⟩
    have hm : next_char ',' ('\n' :: rest) = (false, '\n' :: rest) :=
      next_char_miss _ _ (by decide : ('\n' : Char) ≠ ',')
    simp [recvLoop, hm]
  | cons r rs ih =>
    intro fuel acc rest hf hwf
    obtain ⟨f, rfl⟩ : ∃ f, fuel = f + 1 := ⟨fuel - 1, by omega⟩
    have hf' : rs.length < f := by simp at hf; omega
    obtain ⟨hvr, hner⟩ := hwf r (by simp)
    have hsp : next_spaces (' ' :: (r ++ (rs.flatMap (fun x => [',', ' '] ++ x) ++
        '\n' :: rest))) = ([' '], r ++ (rs.flatMap (fun x => [',', ' '] ++ x) ++
        '\n' :: rest)) := by
      have := next_spaces_exact [' '] (by simp [spaceChar])
        (r ++ (rs.flatMap (fun x => [',', ' '] ++ x) ++ '\n' :: rest))
        (validIdent_cur_not_space r hvr _)
      simpa using this
    have hid := expect_dbc_identifier_exact r hvr
      (rs.flatMap (fun x => [',', ' '] ++ x) ++ '\n' :: rest)
      (recv_sep_cur_not_ident rs rest)
    have hrec := ih f (acc ++ [r]) rest hf'
      (fun x hx => hwf x (by simp [hx]))
    simp only [List.flatMap_cons, List.cons_append, List.append_assoc,
      List.nil_append] at hsp hid hrec ⊢
    simp [recvLoop, next_char_hit, hsp, hid, ok_bind, hner, hrec]

/-- The native record the parser reconstructs for one rendered signal. -/
def nativeOf {F : Type} (ind : MultiplexerIndicator) (s : Signal F) :
    SignalNative F :=
  { name := s.name, multiplexer_indicator := ind, start_bit := s.start_bit,
    signal_size := s.signal_size, byte_order := s.byte_order,
    value_type := s.value_type, factor := s.factor, offset := s.offsetF,
    minimum := s.minimum, maximum := s.maximum, unit := s.unit,
    receiver := s.receiver }

theorem recv_tokens (rl : List NameL)
    (hwf : ∀ r ∈ rl, validIdent r = true ∧ r ≠ EMPTY_ECU) (rest : Lex) :
    ∃ r0 tail, recvChars rl ++ '\n' :: rest = ' ' :: (r0 ++ tail) ∧
      validIdent r0 = true ∧ identChar (cur tail) = false ∧
      ∀ fuel, tail.length < fuel →
        recvLoop fuel tail (if r0 = EMPTY_ECU then [] else [r0]) =
          .ok (rl, '\n' :: rest) := by
  cases rl with
  | nil =>
    refine ⟨EMPTY_ECU, '\n' :: rest, by simp [recvChars, EMPTY_ECU], by decide,
      (by exact (by decide : identChar '\n' = false)), ?_⟩
    intro fuel hf
    obtain ⟨f, rfl⟩ : ∃ f, fuel = f + 1 := ⟨fuel - 1, by omega⟩
    have hm : next_char ',' ('\n' :: rest) = (false, '\n' :: rest) :=
      next_char_miss _ _ (by decide : ('\n' : Char) ≠ ',')
    simp [recvLoop, hm]
  | cons r rs =>
    obtain ⟨hvr, hner⟩ := hwf r (by simp)
    refine ⟨r, rs.flatMap (fun x => [',', ' '] ++ x) ++ '\n' :: rest,
      by simp [recvChars], hvr, recv_sep_cur_not_ident rs rest, ?_⟩
    intro fuel hf
    have hlen : ∀ l : List NameL,
        l.length ≤ (l.flatMap (fun x => [',', ' '] ++ x)).length := by
      intro l
      induction l with
      | nil => simp
      | cons a l2 ihl =>
        rw [List.flatMap_cons, List.length_append, List.length_cons]
        have h2 : ([',', ' '] ++ a).length = 2 + a.length := by
          rw [List.length_append]
          rfl
        omega
    have hcnt : rs.length < fuel := by
      rw [List.length_append, List.length_cons] at hf
      have := hlen rs
      omega
    have := recvLoop_render rs fuel [r] rest hcnt
      (fun x hx => hwf x (by simp [hx]))
    simpa [hner] using this

/-! ### One rendered ` SG_ ` line parses back to its native record. -/

theorem stop_of (p : Char → Bool) (c : Char) (X : Lex) (h : p c = false) :
    p (cur (c :: X)) = false := h

theorem boChar_not_space (bo : ByteOrder) : spaceChar (boChar bo) = false := by
  cases bo <;> decide

theorem vtChar_not_space (vt : ValueType) : spaceChar (vtChar vt) = false := by
  cases vt <;> decide

theorem expect_chars_bo (bo : ByteOrder) (rest : Lex) :
    expect_chars ['0', '1'] (boChar bo :: rest) = .ok (boChar bo, rest) := by
  cases bo
  · simp [boChar, expect_chars, next_char_hit]
  · have hm : next_char '0' ('1' :: rest) = (false, '1' :: rest) :=
      next_char_miss _ _ (by exact (by decide : ('1' : Char) ≠ '0'))
    simp [boChar, expect_chars, hm, next_char_hit]

theorem bo_recover (bo : ByteOrder) :
    (if boChar bo = '0' then ByteOrder.bigEndian else ByteOrder.littleEndian) = bo := by
  cases bo <;> simp [boChar]

theorem expect_chars_vt (vt : ValueType) (rest : Lex) :
    expect_chars ['+', '-'] (vtChar vt :: rest) = .ok (vtChar vt, rest) := by
  cases vt
  · simp [vtChar, expect_chars, next_char_hit]
  · have hm : next_char '+' ('-' :: rest) = (false, '-' :: rest) :=
      next_char_miss _ _ (by exact (by decide : ('-' : Char) ≠ '+'))
    simp [vtChar, expect_chars, hm, next_char_hit]

theorem vt_recover (vt : ValueType) :
    (if vtChar vt = '+' then ValueType.unsigned else ValueType.signed) = vt := by
  cases vt <;> simp [vtChar]

set_option maxHeartbeats 1000000 in
theorem parseSignalLine_render (fm : FloatModel) (ind : MultiplexerIndicator)
    (sig : Signal fm.F)
    (hname : validIdent sig.name = true)
    (hsb : sig.start_bit < 2 ^ 32) (hsz : sig.signal_size < 2 ^ 32)
    (hunit : ∀ c ∈ sig.unit, plainChar c)
    (hrecv : ∀ r ∈ sig.receiver, validIdent r = true ∧ r ≠ EMPTY_ECU)
    (hix : ∀ k, ind.mux_index = some k → k < 2 ^ 53)
    (rest : Lex) :
    parseSignalLine fm (renderSigBody fm ind sig ++ rest) =
      .ok (nativeOf ind sig, '\n' :: rest) := by
  obtain ⟨r0, rtail, hrsplit, hr0v, hr0stop, hrloop⟩ :=
    recv_tokens sig.receiver hrecv rest
  set B6 := ' ' :: (r0 ++ rtail) with hB6
  set S5u := sig.unit ++ ('"' :: B6) with hS5u
  set B5 := ']' :: ' ' :: '"' :: S5u with hB5
  set Sma := fm.printF sig.maximum ++ B5 with hSma
  set Smi := fm.printF sig.minimum ++ ('|' :: Sma) with hSmi
  set B4 := ')' :: ' ' :: '[' :: Smi with hB4
  set Soff := fm.printF sig.offsetF ++ B4 with hSoff
  set Sfa := fm.printF sig.factor ++ (',' :: Soff) with hSfa
  set B3 := '@' :: boChar sig.byte_order :: vtChar sig.value_type :: ' ' :: '(' ::
    Sfa with hB3
  set Ssz := natToDecimal sig.signal_size ++ B3 with hSsz
  set Ssb := natToDecimal sig.start_bit ++ ('|' :: Ssz) with hSsb
  set C2 := ' ' :: Ssb with hC2
  set B2 := ':' :: C2 with hB2
  set B1 := ' ' :: (muxIndChars ind ++ B2) with hB1
  have hrs2 : recvChars sig.receiver ++ '\n' :: rest = ' ' :: (r0 ++ rtail) :=
    hrsplit.trans hB6
  have hbody : renderSigBody fm ind sig ++ rest = ' ' :: (sig.name ++ B1) := by
    rw [hB1, hB2, hC2, hSsb, hSsz, hB3, hSfa, hSoff, hB4, hSmi, hSma, hB5, hS5u,
      hB6]
    simp [renderSigBody, show strL ": " = [':', ' '] from rfl, hrs2]
  rw [hbody]
  have hstep1 : expect_spaces (' ' :: (sig.name ++ B1)) = .ok (sig.name ++ B1) :=
    expect_spaces_one _ (validIdent_cur_not_space _ hname _)
  have hstep2 : expect_dbc_identifier (sig.name ++ B1) = .ok (sig.name, B1) :=
    expect_dbc_identifier_exact _ hname _
      (by rw [hB1]; exact stop_of _ _ _ (by decide))
  have h5 : expect_char ':' B2 = .ok C2 := by
    rw [hB2]; exact expect_char_hit _ _
  have h6 : next_spaces C2 = ([' '], Ssb) := by
    rw [hC2]
    simpa using next_spaces_exact [' '] (by simp [spaceChar]) Ssb
      (by rw [hSsb]; exact natToDecimal_cur_not_space _ _)
  have h7 : expect_unsigned fm Ssb = .ok (sig.start_bit, '|' :: Ssz) := by
    rw [hSsb]
    exact expect_unsigned_exact fm _ (by omega) _ (stop_of _ _ _ (by decide))
  have h8 : next_spaces ('|' :: Ssz) = ([], '|' :: Ssz) :=
    next_spaces_none _ (stop_of _ _ _ (by decide))
  have h9 : expect_char '|' ('|' :: Ssz) = .ok Ssz := expect_char_hit _ _
  have h10 : next_spaces Ssz = ([], Ssz) := by
    rw [hSsz]; exact next_spaces_none _ (natToDecimal_cur_not_space _ _)
  have h11 : expect_unsigned fm Ssz = .ok (sig.signal_size, B3) := by
    rw [hSsz]
    exact expect_unsigned_exact fm _ (by omega) _
      (by rw [hB3]; exact stop_of _ _ _ (by decide))
  have h12 : next_spaces B3 = ([], B3) := by
    rw [hB3]; exact next_spaces_none _ (stop_of _ _ _ (by decide))
  have h13 : expect_char '@' B3 =
      .ok (boChar sig.byte_order :: vtChar sig.value_type :: ' ' :: '(' :: Sfa) := by
    rw [hB3]; exact expect_char_hit _ _
  have h14 : next_spaces
      (boChar sig.byte_order :: vtChar sig.value_type :: ' ' :: '(' :: Sfa) =
      ([], boChar sig.byte_order :: vtChar sig.value_type :: ' ' :: '(' :: Sfa) :=
    next_spaces_none _ (stop_of _ _ _ (boChar_not_space _))
  have h15 := expect_chars_bo sig.byte_order
    (vtChar sig.value_type :: ' ' :: '(' :: Sfa)
  have h16 : next_spaces (vtChar sig.value_type :: ' ' :: '(' :: Sfa) =
      ([], vtChar sig.value_type :: ' ' :: '(' :: Sfa) :=
    next_spaces_none _ (stop_of _ _ _ (vtChar_not_space _))
  have h17 := expect_chars_vt sig.value_type (' ' :: '(' :: Sfa)
  have h18 : next_spaces (' ' :: '(' :: Sfa) = ([' '], '(' :: Sfa) := by
    simpa using next_spaces_exact [' '] (by simp [spaceChar]) ('(' :: Sfa)
      (stop_of _ _ _ (by decide))
  have h19 : expect_char '(' ('(' :: Sfa) = .ok Sfa := expect_char_hit _ _
  have h20 : next_spaces Sfa = ([], Sfa) := by
    rw [hSfa]
    exact next_spaces_none _ (decimalShape_cur_not_space _ (fm.print_shape _) _)
  have h21 : expect_double fm Sfa = .ok (sig.factor, ',' :: Soff) := by
    rw [hSfa]; exact expect_double_exact fm _ _ (stop_of _ _ _ (by decide))
  have h22 : next_spaces (',' :: Soff) = ([], ',' :: Soff) :=
    next_spaces_none _ (stop_of _ _ _ (by decide))
  have h23 : expect_char ',' (',' :: Soff) = .ok Soff := expect_char_hit _ _
  have h24 : next_spaces Soff = ([], Soff) := by
    rw [hSoff]
    exact next_spaces_none _ (decimalShape_cur_not_space _ (fm.print_shape _) _)
  have h25 : expect_double fm Soff = .ok (sig.offsetF, B4) := by
    rw [hSoff]
    exact expect_double_exact fm _ _ (by rw [hB4]; exact stop_of _ _ _ (by decide))
  have h26 : next_spaces B4 = ([], B4) := by
    rw [hB4]; exact next_spaces_none _ (stop_of _ _ _ (by decide))
  have h27 : expect_char ')' B4 = .ok (' ' :: '[' :: Smi) := by
    rw [hB4]; exact expect_char_hit _ _
  have h28 : next_spaces (' ' :: '[' :: Smi) = ([' '], '[' :: Smi) := by
    simpa using next_spaces_exact [' '] (by simp [spaceChar]) ('[' :: Smi)
      (stop_of _ _ _ (by decide))
  have h29 : expect_char '[' ('[' :: Smi) = .ok Smi := expect_char_hit _ _
  have h30 : next_spaces Smi = ([], Smi) := by
    rw [hSmi]
    exact next_spaces_none _ (decimalShape_cur_not_space _ (fm.print_shape _) _)
  have h31 : expect_double fm Smi = .ok (sig.minimum, '|' :: Sma) := by
    rw [hSmi]; exact expect_double_exact fm _ _ (stop_of _ _ _ (by decide))
  have h32 : next_spaces ('|' :: Sma) = ([], '|' :: Sma) :=
    next_spaces_none _ (stop_of _ _ _ (by decide))
  have h33 : expect_char '|' ('|' :: Sma) = .ok Sma := expect_char_hit _ _
  have h34 : next_spaces Sma = ([], Sma) := by
    rw [hSma]
    exact next_spaces_none _ (decimalShape_cur_not_space _ (fm.print_shape _) _)
  have h35 : expect_double fm Sma = .ok (sig.maximum, B5) := by
    rw [hSma]
    exact expect_double_exact fm _ _ (by rw [hB5]; exact stop_of _ _ _ (by decide))
  have h36 : next_spaces B5 = ([], B5) := by
    rw [hB5]; exact next_spaces_none _ (stop_of _ _ _ (by decide))
  have h37 : expect_char ']' B5 = .ok (' ' :: '"' :: S5u) := by
    rw [hB5]; exact expect_char_hit _ _
  have h38 : next_spaces (' ' :: '"' :: S5u) = ([' '], '"' :: S5u) := by
    simpa using next_spaces_exact [' '] (by simp [spaceChar]) ('"' :: S5u)
      (stop_of _ _ _ (by decide))
  have h39 : expect_string ('"' :: S5u) = .ok (sig.unit, B6) := by
    rw [hS5u]; exact expect_string_plain _ hunit B6
  have h40 : expect_spaces B6 = .ok (r0 ++ rtail) := by
    rw [hB6]; exact expect_spaces_one _ (validIdent_cur_not_space _ hr0v _)
  have h41 : expect_dbc_identifier (r0 ++ rtail) = .ok (r0, rtail) :=
    expect_dbc_identifier_exact _ hr0v _ hr0stop
  have h42 : recvLoop (rtail.length + 1) rtail
      (if r0 = EMPTY_ECU then [] else [r0]) = .ok (sig.receiver, '\n' :: rest) :=
    hrloop _ (Nat.lt_succ_self _)
  obtain ⟨isM, ix⟩ := ind
  cases ix with
  | none =>
    cases isM
    · have hA1 : expect_spaces B1 = .ok B2 := by
        rw [hB1]
        have hmx : muxIndChars ⟨false, none⟩ = [] := rfl
        rw [hmx, List.nil_append]
        exact expect_spaces_one _ (by rw [hB2]; exact stop_of _ _ _ (by decide))
      have hA2 : next_char 'm' B2 = (false, B2) := by
        rw [hB2]; exact next_char_miss _ _ (by exact (by decide : (':' : Char) ≠ 'm'))
      have hA3 : next_char 'M' B2 = (false, B2) := by
        rw [hB2]; exact next_char_miss _ _ (by exact (by decide : (':' : Char) ≠ 'M'))
      simp only [parseSignalLine, hstep1, ok_bind, hstep2, hA1, hA2, hA3, h5, h6, h7,
        h8, h9, h10, h11, h12, h13, h14, h15, h16, h17, h18, h19, h20, h21, h22,
        h23, h24, h25, h26, h27, h28, h29, h30, h31, h32, h33, h34, h35, h36,
        h37, h38, h39, h40, h41, h42, pure_eq_ok]
      simp [nativeOf, castAsU32_small _ hsb, castAsU32_small _ hsz, bo_recover, vt_recover]
    · have hA1 : expect_spaces B1 = .ok ('M' :: ' ' :: B2) := by
        rw [hB1]
        have hmx : muxIndChars ⟨true, none⟩ = ['M', ' '] := rfl
        rw [hmx]
        exact expect_spaces_one _ (stop_of _ _ _ (by decide))
      have hA2 : next_char 'm' ('M' :: ' ' :: B2) = (false, 'M' :: ' ' :: B2) :=
        next_char_miss _ _ (by exact (by decide : ('M' : Char) ≠ 'm'))
      have hA3 : next_char 'M' ('M' :: ' ' :: B2) = (true, ' ' :: B2) :=
        next_char_hit _ _
      have hA4 : next_spaces (' ' :: B2) = ([' '], B2) := by
        simpa using next_spaces_exact [' '] (by simp [spaceChar]) B2
          (by rw [hB2]; exact stop_of _ _ _ (by decide))
      simp only [parseSignalLine, hstep1, ok_bind, hstep2, hA1, hA2, hA3, hA4, h5, h6,
        h7, h8, h9, h10, h11, h12, h13, h14, h15, h16, h17, h18, h19, h20, h21,
        h22, h23, h24, h25, h26, h27, h28, h29, h30, h31, h32, h33, h34, h35,
        h36, h37, h38, h39, h40, h41, h42, pure_eq_ok]
      simp [nativeOf, castAsU32_small _ hsb, castAsU32_small _ hsz, bo_recover, vt_recover]
  | some k =>
    have hk : k < 2 ^ 53 := hix k rfl
    cases isM
    · have hmx : muxIndChars ⟨false, some k⟩ =
          'm' :: (natToDecimal k ++ [' ']) := by
        simp [muxIndChars]
      have hA1 : expect_spaces B1 = .ok ('m' :: (natToDecimal k ++ (' ' :: B2))) := by
        rw [hB1, hmx]
        have : ('m' :: (natToDecimal k ++ [' '])) ++ B2 =
            'm' :: (natToDecimal k ++ (' ' :: B2)) := by simp
        rw [this]
        exact expect_spaces_one _ (stop_of _ _ _ (by decide))
      have hA2 : next_char 'm' ('m' :: (natToDecimal k ++ (' ' :: B2))) =
          (true, natToDecimal k ++ (' ' :: B2)) := next_char_hit _ _
      have hA3 : expect_unsigned fm (natToDecimal k ++ (' ' :: B2)) =
          .ok (k, ' ' :: B2) :=
        expect_unsigned_exact fm _ hk _ (stop_of _ _ _ (by decide))
      have hA4 : next_char 'M' (' ' :: B2) = (false, ' ' :: B2) :=
        next_char_miss _ _ (by exact (by decide : (' ' : Char) ≠ 'M'))
      have hA5 : next_spaces (' ' :: B2) = ([' '], B2) := by
        simpa using next_spaces_exact [' '] (by simp [spaceChar]) B2
          (by rw [hB2]; exact stop_of _ _ _ (by decide))
      simp only [parseSignalLine, hstep1, ok_bind, hstep2, hA1, hA2, hA3, hA4, hA5, h5,
        h6, h7, h8, h9, h10, h11, h12, h13, h14, h15, h16, h17, h18, h19, h20,
        h21, h22, h23, h24, h25, h26, h27, h28, h29, h30, h31, h32, h33, h34,
        h35, h36, h37, h38, h39, h40, h41, h42, pure_eq_ok]
      simp [nativeOf, castAsU32_small _ hsb, castAsU32_small _ hsz, bo_recover, vt_recover]
    · have hmx : muxIndChars ⟨true, some k⟩ =
          'm' :: (natToDecimal k ++ ['M', ' ']) := by
        simp [muxIndChars]
      have hA1 : expect_spaces B1 =
          .ok ('m' :: (natToDecimal k ++ ('M' :: ' ' :: B2))) := by
        rw [hB1, hmx]
        have : ('m' :: (natToDecimal k ++ ['M', ' '])) ++ B2 =
            'm' :: (natToDecimal k ++ ('M' :: ' ' :: B2)) := by simp
        rw [this]
        exact expect_spaces_one _ (stop_of _ _ _ (by decide))
      have hA2 : next_char 'm' ('m' :: (natToDecimal k ++ ('M' :: ' ' :: B2))) =
          (true, natToDecimal k ++ ('M' :: ' ' :: B2)) := next_char_hit _ _
      have hA3 : expect_unsigned fm (natToDecimal k ++ ('M' :: ' ' :: B2)) =
          .ok (k, 'M' :: ' ' :: B2) :=
        expect_unsigned_exact fm _ hk _ (stop_of _ _ _ (by decide))
      have hA4 : next_char 'M' ('M' :: ' ' :: B2) = (true, ' ' :: B2) :=
        next_char_hit _ _
      have hA5 : next_spaces (' ' :: B2) = ([' '], B2) := by
        simpa using next_spaces_exact [' '] (by simp [spaceChar]) B2
          (by rw [hB2]; exact stop_of _ _ _ (by decide))
      simp only [parseSignalLine, hstep1, ok_bind, hstep2, hA1, hA2, hA3, hA4, hA5, h5,
        h6, h7, h8, h9, h10, h11, h12, h13, h14, h15, h16, h17, h18, h19, h20,
        h21, h22, h23, h24, h25, h26, h27, h28, h29, h30, h31, h32, h33, h34,
        h35, h36, h37, h38, h39, h40, h41, h42, pure_eq_ok]
      simp [nativeOf, castAsU32_small _ hsb, castAsU32_small _ hsz, bo_recover, vt_recover]

/-! ### The `SG_` line loop of a `BO_` block on rendered lines. -/

/-- Line-level well-formedness of one rendered signal. -/
def wfSigLine (fm : FloatModel) (p : MultiplexerIndicator × Signal fm.F) : Prop :=
  validIdent p.2.name = true ∧ p.2.start_bit < 2 ^ 32 ∧ p.2.signal_size < 2 ^ 32 ∧
  (∀ c ∈ p.2.unit, plainChar c) ∧
  (∀ r ∈ p.2.receiver, validIdent r = true ∧ r ≠ EMPTY_ECU) ∧
  (∀ k, p.1.mux_index = some k → k < 2 ^ 53)

/-- The signal-map fold the `SG_` loop performs over rendered lines. -/
def insertNatives {F : Type} (ms : SigMap F)
    (L : List (MultiplexerIndicator × Signal F)) : SigMap F :=
  L.foldl (fun ms p => alistInsert ms (nativeOf p.1 p.2).name (nativeOf p.1 p.2)) ms

theorem renderSigBody_cur_kw (fm : FloatModel) (ind : MultiplexerIndicator)
    (sig : Signal fm.F) (X : Lex) :
    kwChar (cur (renderSigBody fm ind sig ++ X)) = false := by
  unfold renderSigBody
  simp only [List.append_assoc, List.cons_append, List.singleton_append,
    List.nil_append]
  exact (by decide : kwChar ' ' = false)

theorem boSignalsLoop_render (fm : FloatModel)
    (L : List (MultiplexerIndicator × Signal fm.F)) :
    ∀ fuel ms rest, L.length < fuel → (∀ p ∈ L, wfSigLine fm p) →
      spaceChar (cur rest) = false → kwChar (cur rest) = false →
      boSignalsLoop fm fuel
        (L.flatMap (fun p => renderSignalLine fm p.1 p.2) ++ rest) ms =
        .ok (insertNatives ms L, rest) := by
  induction L with
  | nil =>
    intro fuel ms rest hf _ hsp _
    obtain ⟨f, rfl⟩ : ∃ f, fuel = f + 1 := ⟨fuel - 1, by omega⟩
    have h1 : next_spaces rest = ([], rest) := next_spaces_none _ hsp
    simp [boSignalsLoop, h1, insertNatives]
  | cons p L ih =>
    intro fuel ms rest hf hwf hsp hkw
    obtain ⟨f, rfl⟩ : ∃ f, fuel = f + 1 := ⟨fuel - 1, by omega⟩
    obtain ⟨hname, hsb, hsz, hunit, hrecv, hix⟩ := hwf p (by simp)
    have hf' : L.length < f := by simp at hf; omega
    set X := L.flatMap (fun p => renderSignalLine fm p.1 p.2) ++ rest with hX
    have hin : (p :: L).flatMap (fun p => renderSignalLine fm p.1 p.2) ++ rest =
        ' ' :: ('S' :: 'G' :: '_' :: (renderSigBody fm p.1 p.2 ++ X)) := by
      rw [hX]
      simp [renderSignalLine, show strL " SG_" = [' ', 'S', 'G', '_'] from rfl]
    have h1 : next_spaces (' ' :: ('S' :: 'G' :: '_' ::
        (renderSigBody fm p.1 p.2 ++ X))) =
        ([' '], 'S' :: 'G' :: '_' :: (renderSigBody fm p.1 p.2 ++ X)) := by
      simpa using next_spaces_exact [' '] (by simp [spaceChar])
        ('S' :: 'G' :: '_' :: (renderSigBody fm p.1 p.2 ++ X))
        (stop_of _ _ _ (by decide))
    have h2 : next_keyword ('S' :: 'G' :: '_' :: (renderSigBody fm p.1 p.2 ++ X)) =
        (some ['S', 'G', '_'], renderSigBody fm p.1 p.2 ++ X) := by
      have := next_keyword_exact ['S', 'G', '_'] (by decide) (by decide)
        (renderSigBody fm p.1 p.2 ++ X) (renderSigBody_cur_kw fm p.1 p.2 X)
      simpa using this
    have h3 := parseSignalLine_render fm p.1 p.2 hname hsb hsz hunit hrecv hix X
    have h4 : expect_newline ('\n' :: X) = .ok X := expect_newline_nl X
    have h5 := ih f (alistInsert ms (nativeOf p.1 p.2).name (nativeOf p.1 p.2))
      rest hf' (fun q hq => hwf q (by simp [hq])) hsp hkw
    rw [hin]
    rw [← hX] at *
    simp [boSignalsLoop, h1, h2, h3, h4, ok_bind, insertNatives, h5]

/-! ### `Message::iter_signals` on a depth-1 multiplex forest. -/

/-- The indicator `iter_signals` attaches to a top-level signal. -/
def topPair {F : Type} (x : Signal F) : MultiplexerIndicator × Signal F :=
  ({ is_multiplexer := ¬x.multiplexed.isEmpty, mux_index := none }, x)

/-- The indicator-tagged children `iter_signals` pushes for one signal. -/
def childPairs {F : Type} (s : Signal F) :
    List (MultiplexerIndicator × Signal F) :=
  s.multiplexed.flatMap (fun p => p.2.map (fun c =>
    ({ is_multiplexer := !c.multiplexed.isEmpty, mux_index := some p.1 }, c)))

/-- The emission order of `iter_signals` on a depth-1 forest: top-level
signals from the back, each followed by its children reversed. -/
def emitDepth1 {F : Type} : List (Signal F) →
    List (MultiplexerIndicator × Signal F)
  | [] => []
  | s :: rest => emitDepth1 rest ++ (topPair s :: (childPairs s).reverse)

/-- A multiplex forest of depth at most 1. -/
def wfDepth1 {F : Type} (sigs : List (Signal F)) : Prop :=
  ∀ s ∈ sigs, ∀ p ∈ s.multiplexed, ∀ c ∈ p.2, c.multiplexed = []

theorem emitDepth1_append {F : Type} (a b : List (Signal F)) :
    emitDepth1 (a ++ b) = emitDepth1 b ++ emitDepth1 a := by
  induction a with
  | nil => simp [emitDepth1]
  | cons s a ih => simp [emitDepth1, ih, List.append_assoc]

theorem nodeCount_leaf {F : Type} (s : Signal F) (h : s.multiplexed = []) :
    s.nodeCount = 1 := by
  cases s with
  | mk n sb sz bo vt f o mi ma u r vd mx =>
    simp [Signal.multiplexed] at h
    subst h
    simp [Signal.nodeCount, nodeCountMux]

theorem nodeCountList_append {F : Type} (a b : List (Signal F)) :
    nodeCountList (a ++ b) = nodeCountList a + nodeCountList b := by
  induction a with
  | nil => simp [nodeCountList]
  | cons s a ih => simp [nodeCountList, ih]; omega

theorem nodeCountList_leaves {F : Type} (cs : List (Signal F))
    (h : ∀ c ∈ cs, c.multiplexed = []) : nodeCountList cs = cs.length := by
  induction cs with
  | nil => simp [nodeCountList]
  | cons c cs ih =>
    rw [nodeCountList, nodeCount_leaf c (h c (by simp)),
      ih (fun x hx => h x (by simp [hx]))]
    simp [Nat.add_comm]

theorem nodeCountMux_depth1 {F : Type} (mx : List (Nat × List (Signal F)))
    (h : ∀ p ∈ mx, ∀ c ∈ p.2, c.multiplexed = []) :
    nodeCountMux mx = (mx.flatMap (fun p => p.2)).length := by
  induction mx with
  | nil => simp [nodeCountMux]
  | cons p mx ih =>
    rw [nodeCountMux, nodeCountList_leaves p.2 (h p (by simp)),
      ih (fun q hq => h q (by simp [hq]))]
    simp

theorem childPairs_length {F : Type} (s : Signal F) :
    (childPairs s).length = (s.multiplexed.flatMap (fun p => p.2)).length := by
  unfold childPairs
  simp [Function.comp_def]

theorem iterAux_leaves {F : Type} (leaves : List (MultiplexerIndicator × Signal F)) :
    ∀ fuel front, (∀ p ∈ leaves, p.2.multiplexed = []) →
      iterSignalsAux F (fuel + leaves.length) (front ++ leaves) =
        leaves.reverse ++ iterSignalsAux F fuel front := by
  induction leaves using List.reverseRecOn with
  | nil => intro fuel front _; simp
  | append_singleton ys y ih =>
    intro fuel front h
    have hy : y.2.multiplexed = [] := h y (by simp)
    have hstep : iterSignalsAux F ((fuel + ys.length) + 1)
        ((front ++ ys) ++ [y]) =
        y :: iterSignalsAux F (fuel + ys.length) ((front ++ ys) ++
          (y.2.multiplexed.flatMap fun p =>
            List.map (fun c => ({ is_multiplexer := !c.multiplexed.isEmpty, mux_index := some p.1 }, c)) p.2)) := by
      rw [iterSignalsAux]
      simp [List.getLast?_concat, List.dropLast_concat]
    rw [show fuel + (ys ++ [y]).length = (fuel + ys.length) + 1 by
        rw [List.length_append, List.length_singleton]; omega,
      show front ++ (ys ++ [y]) = (front ++ ys) ++ [y] by simp]
    rw [hstep]
    rw [hy]
    simp only [List.flatMap_nil, List.append_nil]
    rw [ih fuel front (fun q hq => h q (by simp [hq]))]
    simp

theorem nodeCount_eq {F : Type} (s : Signal F) :
    s.nodeCount = 1 + nodeCountMux s.multiplexed := by
  cases s with
  | mk n sb sz bo vt f o mi ma u r vd mx => rfl

theorem iterAux_top {F : Type} (signals : List (Signal F)) :
    ∀ fuel, wfDepth1 signals →
      iterSignalsAux F (nodeCountList signals + (fuel + 1))
        (signals.map topPair) = emitDepth1 signals := by
  induction signals using List.reverseRecOn with
  | nil => intro fuel _; simp [iterSignalsAux, nodeCountList, emitDepth1]
  | append_singleton ss t ih =>
    intro fuel hwf
    have hwt : ∀ p ∈ t.multiplexed, ∀ c ∈ p.2, c.multiplexed = [] :=
      hwf t (by simp)
    have hcp_leaves : ∀ p ∈ childPairs t, p.2.multiplexed = [] := by
      intro p hp
      unfold childPairs at hp
      rw [List.mem_flatMap] at hp
      obtain ⟨q, hq, hpm⟩ := hp
      rw [List.mem_map] at hpm
      obtain ⟨c, hc, rfl⟩ := hpm
      exact hwt q hq c hc
    have hnc : t.nodeCount = 1 + (childPairs t).length := by
      rw [nodeCount_eq t, nodeCountMux_depth1 t.multiplexed hwt, ← childPairs_length]
    have harith : nodeCountList (ss ++ [t]) + (fuel + 1) =
        ((nodeCountList ss + (fuel + 1)) + (childPairs t).length) + 1 := by
      rw [nodeCountList_append]
      have h1 : nodeCountList [t] = t.nodeCount := by
        rw [nodeCountList, nodeCountList]
        omega
      rw [h1, hnc]
      omega
    have hpush : ((topPair t).2.multiplexed.flatMap fun p =>
        List.map (fun c => ({ is_multiplexer := !c.multiplexed.isEmpty, mux_index := some p.1 }, c)) p.2) = childPairs t := rfl
    have hstep : iterSignalsAux F
        (((nodeCountList ss + (fuel + 1)) + (childPairs t).length) + 1)
        (ss.map topPair ++ [topPair t]) =
        topPair t :: iterSignalsAux F
          ((nodeCountList ss + (fuel + 1)) + (childPairs t).length)
          (ss.map topPair ++ childPairs t) := by
      rw [iterSignalsAux]
      simp [List.getLast?_concat, List.dropLast_concat, hpush]
    rw [List.map_append, harith]
    simp only [List.map_cons, List.map_nil]
    rw [hstep, iterAux_leaves (childPairs t) (nodeCountList ss + (fuel + 1))
      (ss.map topPair) hcp_leaves,
      ih fuel (fun s hs => hwf s (by simp [hs]))]
    rw [emitDepth1_append]
    simp [emitDepth1]

theorem iterSignals_depth1 {F : Type} (m : Message F)
    (h : wfDepth1 m.signals) : iterSignals m = emitDepth1 m.signals := by
  unfold iterSignals
  exact iterAux_top m.signals 0 h

/-! ### The `BO_` branch on one rendered message block. -/

/-- The `MessageNative` the parser records for a rendered message. -/
def msgNativeOf {F : Type} (m : Message F) : MessageNative :=
  { id := m.id, name := m.name, len := m.len, transmitter := m.transmitter }

/-- The state transition the `BO_` branch performs for one rendered
message. -/
def stepBO (fm : FloatModel) (st : PState fm.F) (m : Message fm.F) :
    PState fm.F :=
  let st1 := { st with messages_dbc := st.messages_dbc ++ [msgNativeOf m] }
  let inline0 := alistGetD st1.inl m.id []
  let ms0 := alistGetD st1.signals_db m.id []
  let ms := insertNatives ms0 (iterSignals m)
  let inline1 := inlineMuxFromSignals ms inline0
  let st2 := { st1 with inl := alistInsert st1.inl m.id inline1 }
  { st2 with signals_db := alistInsert st2.signals_db m.id ms }

theorem flatMap_len_ge {α β : Type} (L : List α) (f : α → List β)
    (h : ∀ x ∈ L, 1 ≤ (f x).length) : L.length ≤ (L.flatMap f).length := by
  induction L with
  | nil => simp
  | cons x L ih =>
    rw [List.flatMap_cons, List.length_append, List.length_cons]
    have h1 := h x (by simp)
    have h2 := ih (fun y hy => h y (by simp [hy]))
    omega

theorem renderSignalLine_len (fm : FloatModel) (ind : MultiplexerIndicator)
    (sig : Signal fm.F) : 1 ≤ (renderSignalLine fm ind sig).length := by
  rw [renderSignalLine, List.length_append]
  have : (strL " SG_").length = 4 := rfl
  omega

theorem handleBO_render (fm : FloatModel) (m : Message fm.F) (st : PState fm.F)
    (rest : Lex)
    (hid : m.id < 2 ^ 32) (hlen : m.len < 2 ^ 32)
    (hname : validIdent m.name = true)
    (htr : ∀ t, m.transmitter = some t → validIdent t = true ∧ t ≠ EMPTY_ECU)
    (hsigs : ∀ p ∈ iterSignals m, wfSigLine fm p)
    (hrest : spaceChar (cur rest) = false) (hkw : kwChar (cur rest) = false) :
    handleBO fm (renderMsgBody fm m ++ rest) st = .ok (stepBO fm st m, rest) := by
  have htrv : validIdent (m.transmitter.getD EMPTY_ECU) = true := by
    cases h : m.transmitter with
    | none => decide
    | some t => simpa using (htr t h).1
  have htr2 : (if m.transmitter.getD EMPTY_ECU = EMPTY_ECU then none
      else some (m.transmitter.getD EMPTY_ECU)) = m.transmitter := by
    cases h : m.transmitter with
    | none => simp
    | some t =>
      have := (htr t h).2
      simp [this]
  set SL := (iterSignals m).flatMap (fun p => renderSignalLine fm p.1 p.2) ++
    rest with hSL
  set Str := m.transmitter.getD EMPTY_ECU ++ ('\n' :: SL) with hStr
  set Slen := natToDecimal m.len ++ (' ' :: Str) with hSlen
  set Snm := m.name ++ (':' :: ' ' :: Slen) with hSnm
  set Sid := natToDecimal m.id ++ (' ' :: Snm) with hSid
  have hbody : renderMsgBody fm m ++ rest = ' ' :: Sid := by
    rw [hSid, hSnm, hSlen, hStr, hSL]
    simp [renderMsgBody, show strL ": " = [':', ' '] from rfl]
  rw [hbody]
  have h1 : expect_spaces (' ' :: Sid) = .ok Sid := by
    rw [hSid]
    exact expect_spaces_one _ (natToDecimal_cur_not_space _ _)
  have h2 : expect_unsigned fm Sid = .ok (m.id, ' ' :: Snm) := by
    rw [hSid]
    exact expect_unsigned_exact fm _ (by omega) _ (stop_of _ _ _ (by decide))
  have h3 : expect_spaces (' ' :: Snm) = .ok Snm := by
    rw [hSnm]
    exact expect_spaces_one _ (validIdent_cur_not_space _ hname _)
  have h4 : expect_dbc_identifier Snm = .ok (m.name, ':' :: ' ' :: Slen) := by
    rw [hSnm]
    exact expect_dbc_identifier_exact _ hname _ (stop_of _ _ _ (by decide))
  have h5 : next_spaces (':' :: ' ' :: Slen) = ([], ':' :: ' ' :: Slen) :=
    next_spaces_none _ (stop_of _ _ _ (by decide))
  have h6 : expect_char ':' (':' :: ' ' :: Slen) = .ok (' ' :: Slen) :=
    expect_char_hit _ _
  have h7 : next_spaces (' ' :: Slen) = ([' '], Slen) := by
    rw [hSlen]
    simpa using next_spaces_exact [' '] (by simp [spaceChar]) _
      (natToDecimal_cur_not_space _ _)
  have h8 : expect_unsigned fm Slen = .ok (m.len, ' ' :: Str) := by
    rw [hSlen]
    exact expect_unsigned_exact fm _ (by omega) _ (stop_of _ _ _ (by decide))
  have h9 : expect_spaces (' ' :: Str) = .ok Str := by
    rw [hStr]
    exact expect_spaces_one _ (validIdent_cur_not_space _ htrv _)
  have h10 : expect_dbc_identifier Str =
      .ok (m.transmitter.getD EMPTY_ECU, '\n' :: SL) := by
    rw [hStr]
    exact expect_dbc_identifier_exact _ htrv _ (stop_of _ _ _ (by decide))
  have h11 : next_spaces ('\n' :: SL) = ([], '\n' :: SL) :=
    next_spaces_none _ (stop_of _ _ _ (by decide))
  have h12 : expect_newline ('\n' :: SL) = .ok SL := expect_newline_nl SL
  have hfuel : (iterSignals m).length < SL.length + 1 := by
    rw [hSL, List.length_append]
    have := flatMap_len_ge (iterSignals m) (fun p => renderSignalLine fm p.1 p.2)
      (fun p _ => renderSignalLine_len fm p.1 p.2)
    omega
  have h13 := boSignalsLoop_render fm (iterSignals m) (SL.length + 1)
    (alistGetD st.signals_db m.id []) rest hfuel hsigs hrest hkw
  rw [← hSL] at h13
  simp only [handleBO, h1, ok_bind, h2, h3, h4, h5, h6, h7, h8, h9, h10, h11,
    h12, h13, castAsU32_small _ hid, castAsU32_small _ hlen]
  simp [stepBO, msgNativeOf, htr2, castAsU32_small _ hid]

/-! ### The `VAL_` branch on one rendered statement. -/

theorem decimalShape_cur_cases (l : List Char) (h : decimalShape l) (rest : Lex) :
    cur (l ++ rest) = '-' ∨ isAsciiDigit (cur (l ++ rest)) = true := by
  obtain ⟨sgn, ip, frac, hsgn, hip_ne, hip_dig, _, rfl⟩ := h
  rcases hsgn with rfl | rfl
  · cases ip with
    | nil => exact absurd rfl hip_ne
    | cons c cs => exact Or.inr (hip_dig c (by simp))
  · exact Or.inl rfl

theorem decimalShape_cur_ne_semi (l : List Char) (h : decimalShape l)
    (rest : Lex) : cur (l ++ rest) ≠ ';' := by
  rcases decimalShape_cur_cases l h rest with hc | hc
  · rw [hc]; decide
  · intro he
    rw [he] at hc
    exact absurd hc (by decide)

theorem valTail_cur_not_space (vds : List (Int × NameL)) (tail : Lex) :
    spaceChar (cur (vds.flatMap (fun kv => pairChunk kv ++ [' ']) ++
      ';' :: tail)) = false := by
  cases vds with
  | nil => exact (by decide : spaceChar ';' = false)
  | cons kv vds2 =>
    have : (((kv :: vds2).flatMap (fun kv => pairChunk kv ++ [' '])) ++
        ';' :: tail) = intToDecimal kv.1 ++ (strL " \"" ++ kv.2 ++ ['"'] ++
          ([' '] ++ (vds2.flatMap (fun kv => pairChunk kv ++ [' ']) ++
            ';' :: tail))) := by
      simp [pairChunk]
    rw [this]
    exact decimalShape_cur_not_space _ (intToDecimal_shape _) _

theorem valueDescsLoop_render (fm : FloatModel) (vds : List (Int × NameL)) :
    ∀ fuel acc tail, vds.length < fuel →
      (∀ kv ∈ vds, kv.1.natAbs < 2 ^ 53 ∧ ∀ c ∈ kv.2, plainChar c) →
      valueDescsLoop fm fuel
        (vds.flatMap (fun kv => pairChunk kv ++ [' ']) ++ ';' :: tail) acc =
        .ok (vds.foldl (fun a kv => alistInsert a kv.1 kv.2) acc, tail) := by
  induction vds with
  | nil =>
    intro fuel acc tail hf _
    obtain ⟨f, rfl⟩ : ∃ f, fuel = f + 1 := ⟨fuel - 1, by omega⟩
    simp [valueDescsLoop, next_char_hit]
  | cons kv vds ih =>
    intro fuel acc tail hf hwf
    obtain ⟨f, rfl⟩ : ∃ f, fuel = f + 1 := ⟨fuel - 1, by omega⟩
    have hf' : vds.length < f := by simp at hf; omega
    obtain ⟨hk, hv⟩ := hwf kv (by simp)
    set X := vds.flatMap (fun kv => pairChunk kv ++ [' ']) ++ ';' :: tail with hX
    have hin : (kv :: vds).flatMap (fun kv => pairChunk kv ++ [' ']) ++
        ';' :: tail = intToDecimal kv.1 ++ (' ' :: '"' :: (kv.2 ++ ('"' :: ' ' :: X))) := by
      rw [hX]
      simp [pairChunk, show strL " \"" = [' ', '"'] from rfl]
    have h0 : next_char ';' (intToDecimal kv.1 ++
        (' ' :: '"' :: (kv.2 ++ ('"' :: ' ' :: X)))) =
        (false, intToDecimal kv.1 ++ (' ' :: '"' :: (kv.2 ++ ('"' :: ' ' :: X)))) :=
      next_char_miss _ _ (decimalShape_cur_ne_semi _ (intToDecimal_shape _) _)
    have h1 : expect_signed fm (intToDecimal kv.1 ++
        (' ' :: '"' :: (kv.2 ++ ('"' :: ' ' :: X)))) =
        .ok (kv.1, ' ' :: '"' :: (kv.2 ++ ('"' :: ' ' :: X))) :=
      expect_signed_exact fm _ hk _ (stop_of _ _ _ (by decide))
    have h2 : expect_spaces (' ' :: '"' :: (kv.2 ++ ('"' :: ' ' :: X))) =
        .ok ('"' :: (kv.2 ++ ('"' :: ' ' :: X))) :=
      expect_spaces_one _ (stop_of _ _ _ (by decide))
    have h3 : expect_string ('"' :: (kv.2 ++ ('"' :: ' ' :: X))) =
        .ok (kv.2, ' ' :: X) := expect_string_plain _ hv _
    have h4 : next_spaces (' ' :: X) = ([' '], X) := by
      have hstop : spaceChar (cur X) = false := by
        rw [hX]; exact valTail_cur_not_space vds tail
      simpa using next_spaces_exact [' '] (by simp [spaceChar]) X hstop
    have h5 := ih f (alistInsert acc kv.1 kv.2) tail hf'
      (fun q hq => hwf q (by simp [hq]))
    rw [hin]
    rw [← hX] at h5
    simp [valueDescsLoop, h0, h1, h2, h3, h4, ok_bind, h5]

theorem alistInsert_fresh {K V : Type} [DecidableEq K] (m : List (K × V))
    (k : K) (v : V) (h : alistContains m k = false) :
    alistInsert m k v = m ++ [(k, v)] := by
  simp [alistInsert, h]

theorem alistContains_iff {K V : Type} [DecidableEq K] (m : List (K × V))
    (k : K) : alistContains m k = true ↔ k ∈ m.map Prod.fst := by
  induction m with
  | nil => simp [alistContains, alistGet]
  | cons p m ih =>
    by_cases hp : p.1 = k
    · simp [alistContains, alistGet, List.find?, hp]
    · have : alistContains (p :: m) k = alistContains m k := by
        simp [alistContains, alistGet, List.find?, hp]
      rw [this, ih]
      simp [hp]
      tauto

theorem foldl_alistInsert_append {K V : Type} [DecidableEq K]
    (l : List (K × V)) :
    ∀ acc : List (K × V), (l.map Prod.fst).Nodup →
      (∀ k ∈ l.map Prod.fst, k ∉ acc.map Prod.fst) →
      l.foldl (fun a kv => alistInsert a kv.1 kv.2) acc = acc ++ l := by
  induction l with
  | nil => intro acc _ _; simp
  | cons kv l ih =>
    intro acc hnd hdisj
    have hfresh : alistContains acc kv.1 = false := by
      cases hc : alistContains acc kv.1
      · rfl
      · exact absurd ((alistContains_iff acc kv.1).mp hc)
          (hdisj kv.1 (by simp))
    rw [List.foldl_cons, alistInsert_fresh acc kv.1 kv.2 hfresh]
    have hnd2 : kv.1 ∉ l.map Prod.fst ∧ (l.map Prod.fst).Nodup := by
      rw [List.map_cons, List.nodup_cons] at hnd
      exact hnd
    have hdisj' : ∀ k ∈ l.map Prod.fst, k ∉ (acc ++ [kv]).map Prod.fst := by
      intro k hk
      rw [List.map_append, List.mem_append]
      rintro (hmem | hmem)
      · exact hdisj k (by simp [hk]) hmem
      · simp at hmem
        subst hmem
        exact hnd2.1 hk
    have := ih (acc ++ [kv]) hnd2.2 hdisj'
    rw [this]
    simp

theorem foldl_alistInsert_nodup {K V : Type} [DecidableEq K]
    (l : List (K × V)) (hnd : (l.map Prod.fst).Nodup) :
    l.foldl (fun a kv => alistInsert a kv.1 kv.2) [] = l := by
  have := foldl_alistInsert_append l [] hnd (by simp)
  simpa using this

theorem pairChunk_len (kv : Int × NameL) : 1 ≤ (pairChunk kv ++ [' ']).length := by
  simp

theorem handleVAL_render (fm : FloatModel) (mid : Nat) (sname : NameL)
    (vds : List (Int × NameL)) (vals : List (Nat × ValsMap)) (rest : Lex)
    (hmid : mid < 2 ^ 32) (hsname : validIdent sname = true)
    (hvds : ∀ kv ∈ vds, kv.1.natAbs < 2 ^ 53 ∧ ∀ c ∈ kv.2, plainChar c) :
    handleVAL fm (renderValBody mid sname vds ++ rest) vals =
      .ok (alistModify vals mid [] (fun mm => alistInsert mm sname
        (vds.foldl (fun a kv => alistInsert a kv.1 kv.2) [])), rest) := by
  set X := vds.flatMap (fun kv => pairChunk kv ++ [' ']) ++ ';' :: '\n' :: rest
    with hX
  set Snm := sname ++ (' ' :: X) with hSnm
  set Sid := natToDecimal mid ++ (' ' :: Snm) with hSid
  have hbody : renderValBody mid sname vds ++ rest = ' ' :: Sid := by
    rw [hSid, hSnm, hX]
    simp [renderValBody, show strL ";\n" = [';', '\n'] from rfl]
  rw [hbody]
  have h1 : expect_spaces (' ' :: Sid) = .ok Sid := by
    rw [hSid]
    exact expect_spaces_one _ (natToDecimal_cur_not_space _ _)
  have h2 : expect_unsigned fm Sid = .ok (mid, ' ' :: Snm) := by
    rw [hSid]
    exact expect_unsigned_exact fm _ (by omega) _ (stop_of _ _ _ (by decide))
  have h3 : expect_spaces (' ' :: Snm) = .ok Snm := by
    rw [hSnm]
    exact expect_spaces_one _ (validIdent_cur_not_space _ hsname _)
  have h4 : expect_dbc_identifier Snm = .ok (sname, ' ' :: X) := by
    rw [hSnm]
    exact expect_dbc_identifier_exact _ hsname _ (stop_of _ _ _ (by decide))
  have h5 : next_spaces (' ' :: X) = ([' '], X) := by
    have hstop : spaceChar (cur X) = false := by
      rw [hX]
      exact valTail_cur_not_space vds ('\n' :: rest)
    simpa using next_spaces_exact [' '] (by simp [spaceChar]) X hstop
  have hfuel : vds.length < X.length + 1 := by
    rw [hX, List.length_append]
    have := flatMap_len_ge vds (fun kv => pairChunk kv ++ [' '])
      (fun kv _ => pairChunk_len kv)
    omega
  have h6 := valueDescsLoop_render fm vds (X.length + 1) [] ('\n' :: rest)
    hfuel hvds
  rw [← hX] at h6
  have h7 : expect_newline ('\n' :: rest) = .ok rest := expect_newline_nl rest
  simp only [handleVAL, h1, ok_bind, h2, h3, h4, h5, h6, h7,
    castAsU32_small _ hmid]

/-! ### The header statements on rendered text. -/

theorem is_eof_cons (c : Char) (X : Lex) : is_eof (c :: X) = decide (c = '\x00') :=
  rfl

theorem kwChar_not_space {c : Char} (h : kwChar c = true) :
    spaceChar c = false := by
  cases hs : spaceChar c
  · rfl
  · exfalso
    have : c = ' ' ∨ c = '\t' := by simpa [spaceChar] using hs
    rcases this with rfl | rfl <;> exact absurd h (by decide)

theorem handleVERSION_render (rest : Lex) :
    handleVERSION (' ' :: '"' :: '"' :: '\n' :: rest) = .ok rest := by
  have h1 : expect_spaces (' ' :: '"' :: '"' :: '\n' :: rest) =
      .ok ('"' :: '"' :: '\n' :: rest) :=
    expect_spaces_one _ (stop_of _ _ _ (by decide))
  have h2 : expect_string ('"' :: '"' :: '\n' :: rest) = .ok ([], '\n' :: rest) := by
    have := expect_string_plain [] (by simp) ('\n' :: rest)
    simpa using this
  simp [handleVERSION, h1, h2, ok_bind, expect_newline_nl]

theorem handleBS_render (rest : Lex) :
    handleBS (':' :: '\n' :: rest) = .ok rest := by
  have h1 : next_spaces (':' :: '\n' :: rest) = ([], ':' :: '\n' :: rest) :=
    next_spaces_none _ (stop_of _ _ _ (by decide))
  have h2 : next_spaces ('\n' :: rest) = ([], '\n' :: rest) :=
    next_spaces_none _ (stop_of _ _ _ (by decide))
  simp [handleBS, h1, h2, expect_char_hit, ok_bind, expect_newline_nl]

theorem nsKeywordLoop_go (sy : NameL) (hne : sy ≠ [])
    (hkw : ∀ c ∈ sy, kwChar c = true) (X : Lex) (acc : List NameL) :
    ∀ f, nsKeywordLoop (f + 2) (sy ++ '\n' :: X) acc = (acc ++ [sy], '\n' :: X) := by
  intro f
  have h1 : next_keyword (sy ++ '\n' :: X) = (some sy, '\n' :: X) :=
    next_keyword_exact sy hne hkw _ (stop_of _ _ _ (by decide))
  have h2 : next_keyword ('\n' :: X) = (none, '\n' :: X) :=
    next_keyword_none _ (stop_of _ _ _ (by decide))
  rw [show f + 2 = (f + 1) + 1 by omega]
  rw [nsKeywordLoop]
  simp only [h1]
  rw [nsKeywordLoop]
  simp [h2]

theorem nsLinesLoop_render (L : List NameL) :
    ∀ fuel acc rest, L.length < fuel →
      (∀ sy ∈ L, sy ≠ [] ∧ ∀ c ∈ sy, kwChar c = true) →
      spaceChar (cur rest) = false →
      nsLinesLoop fuel (L.flatMap (fun sy => strL "    " ++ sy ++ ['\n']) ++ rest)
        acc = .ok (acc ++ L, rest) := by
  induction L with
  | nil =>
    intro fuel acc rest hf _ hsp
    obtain ⟨f, rfl⟩ : ∃ f, fuel = f + 1 := ⟨fuel - 1, by omega⟩
    have h1 : next_spaces rest = ([], rest) := next_spaces_none _ hsp
    simp [nsLinesLoop, h1]
  | cons sy L ih =>
    intro fuel acc rest hf hwf hsp
    obtain ⟨f, rfl⟩ : ∃ f, fuel = f + 1 := ⟨fuel - 1, by omega⟩
    have hf' : L.length < f := by simp at hf; omega
    obtain ⟨hne, hkw⟩ := hwf sy (by simp)
    set X := L.flatMap (fun sy => strL "    " ++ sy ++ ['\n']) ++ rest with hX
    have hin : (sy :: L).flatMap (fun sy => strL "    " ++ sy ++ ['\n']) ++ rest =
        ' ' :: ' ' :: ' ' :: ' ' :: (sy ++ '\n' :: X) := by
      rw [hX]
      simp [show strL "    " = [' ', ' ', ' ', ' '] from rfl]
    have hsy_cur : spaceChar (cur (sy ++ '\n' :: X)) = false := by
      cases sy with
      | nil => exact absurd rfl hne
      | cons c cs => exact kwChar_not_space (hkw c (by simp))
    have h1 : next_spaces (' ' :: ' ' :: ' ' :: ' ' :: (sy ++ '\n' :: X)) =
        ([' ', ' ', ' ', ' '], sy ++ '\n' :: X) := by
      have := next_spaces_exact [' ', ' ', ' ', ' '] (by simp [spaceChar])
        (sy ++ '\n' :: X) hsy_cur
      simpa using this
    have hlen2 : ∃ g, (sy ++ '\n' :: X).length + 1 = g + 2 := by
      refine ⟨(sy ++ '\n' :: X).length - 1, ?_⟩
      rw [List.length_append]
      cases sy with
      | nil => exact absurd rfl hne
      | cons c cs => simp; omega
    obtain ⟨g, hg⟩ := hlen2
    have h2 : nsKeywordLoop ((sy ++ '\n' :: X).length + 1) (sy ++ '\n' :: X) acc =
        (acc ++ [sy], '\n' :: X) := by
      rw [hg]
      exact nsKeywordLoop_go sy hne hkw X acc g
    have h3 := ih f (acc ++ [sy]) rest hf' (fun q hq => hwf q (by simp [hq])) hsp
    rw [← hX] at h3
    simp only [List.length_append, List.length_cons] at h2
    rw [hin]
    simp [nsLinesLoop, h1, h2, expect_newline_nl, ok_bind, h3]


theorem next_dbc_identifier_none (s : Lex) (h : identStart (cur s) = false) :
    next_dbc_identifier s = (none, s) := by
  obtain ⟨h1, h2⟩ : isAsciiAlphabetic (cur s) = false ∧ ¬cur s = '_' := by
    revert h
    unfold identStart
    cases ha : isAsciiAlphabetic (cur s) <;> simp
  unfold next_dbc_identifier
  rw [if_pos ⟨by simp [h1], h2⟩]

theorem handleNS_render (L : List NameL) (syms : List NameL) (rest : Lex)
    (hsp : spaceChar (cur rest) = false)
    (hwfL : ∀ sy ∈ L, sy ≠ [] ∧ ∀ c ∈ sy, kwChar c = true) :
    handleNS (' ' :: ':' :: '\n' ::
        (L.flatMap (fun sy => strL "    " ++ sy ++ ['\n']) ++ rest))
      syms = .ok (syms ++ L, rest) := by
  set SL := L.flatMap (fun sy => strL "    " ++ sy ++ ['\n']) ++ rest with hSL
  have h1 : next_spaces (' ' :: ':' :: '\n' :: SL) = ([' '], ':' :: '\n' :: SL) := by
    simpa using next_spaces_exact [' '] (by simp [spaceChar]) (':' :: '\n' :: SL)
      (stop_of _ _ _ (by decide))
  have h2 : next_spaces ('\n' :: SL) = ([], '\n' :: SL) :=
    next_spaces_none _ (stop_of _ _ _ (by decide))
  have hfuel : L.length < SL.length + 1 := by
    rw [hSL, List.length_append]
    have := flatMap_len_ge L (fun sy => strL "    " ++ sy ++ ['\n'])
      (fun sy _ => by
        rw [List.length_append, List.length_append]
        have h4 : (strL "    ").length = 4 := rfl
        omega)
    omega
  have h3 := nsLinesLoop_render L (SL.length + 1) syms rest hfuel hwfL hsp
  rw [← hSL] at h3
  simp only [handleNS, h1, h2, expect_char_hit, expect_newline_nl, ok_bind, h3]

/-- The lexer state at the head of each `BU_` node-loop iteration. -/
def buNodesForm (ns : List NameL) (rest : Lex) : Lex :=
  match ns with
  | [] => '\n' :: rest
  | n :: ns2 => n ++ (ns2.flatMap (fun x => [' '] ++ x) ++ '\n' :: rest)

theorem buNodesLoop_go (ns : List NameL) :
    ∀ f rest, ns.length < f → (∀ n ∈ ns, validIdent n = true) →
      buNodesLoop f (buNodesForm ns rest) = '\n' :: rest := by
  induction ns with
  | nil =>
    intro f rest hf _
    obtain ⟨g, rfl⟩ : ∃ g, f = g + 1 := ⟨f - 1, by omega⟩
    have h1 : next_dbc_identifier ('\n' :: rest) = (none, '\n' :: rest) :=
      next_dbc_identifier_none _ (by exact (by decide : identStart '\n' = false))
    simp [buNodesForm, buNodesLoop, h1]
  | cons n ns ih =>
    intro f rest hf hwf
    obtain ⟨g, rfl⟩ : ∃ g, f = g + 1 := ⟨f - 1, by omega⟩
    have hg : ns.length < g := by simp at hf; omega
    have hnv := hwf n (by simp)
    have hstop : identChar (cur (ns.flatMap (fun x => [' '] ++ x) ++
        '\n' :: rest)) = false := by
      cases ns with
      | nil => exact (by decide : identChar '\n' = false)
      | cons m ns2 => exact (by decide : identChar ' ' = false)
    have h1 : next_dbc_identifier (n ++ (ns.flatMap (fun x => [' '] ++ x) ++
        '\n' :: rest)) = (some n, ns.flatMap (fun x => [' '] ++ x) ++ '\n' :: rest) :=
      next_dbc_identifier_exact n hnv _ hstop
    have h2 : next_spaces (ns.flatMap (fun x => [' '] ++ x) ++ '\n' :: rest) =
        (if ns.isEmpty then [] else [' '], buNodesForm ns rest) := by
      cases ns with
      | nil =>
        simpa [buNodesForm] using
          next_spaces_none ('\n' :: rest) (stop_of _ _ _ (by decide))
      | cons m ns2 =>
        have hmv := hwf m (by simp)
        have := next_spaces_exact [' '] (by simp [spaceChar])
          (m ++ (ns2.flatMap (fun x => [' '] ++ x) ++ '\n' :: rest))
          (validIdent_cur_not_space m hmv _)
        simpa [buNodesForm] using this
    have h3 := ih g rest hg (fun q hq => hwf q (by simp [hq]))
    simp only [buNodesForm, buNodesLoop, h1, h2]
    exact h3

theorem handleBU_render (nodes : List NameL) (rest : Lex)
    (hwf : ∀ n ∈ nodes, validIdent n = true) :
    handleBU (':' :: (nodes.flatMap (fun n => [' '] ++ n) ++ '\n' :: rest)) =
      .ok rest := by
  have h1 : next_spaces (':' :: (nodes.flatMap (fun n => [' '] ++ n) ++
      '\n' :: rest)) = ([], ':' :: (nodes.flatMap (fun n => [' '] ++ n) ++
      '\n' :: rest)) := next_spaces_none _ (stop_of _ _ _ (by decide))
  have h2 : next_spaces (nodes.flatMap (fun n => [' '] ++ n) ++ '\n' :: rest) =
      (if nodes.isEmpty then [] else [' '], buNodesForm nodes rest) := by
    cases nodes with
    | nil =>
      simpa [buNodesForm] using
        next_spaces_none ('\n' :: rest) (stop_of _ _ _ (by decide))
    | cons m ns2 =>
      have hmv := hwf m (by simp)
      have := next_spaces_exact [' '] (by simp [spaceChar])
        (m ++ (ns2.flatMap (fun x => [' '] ++ x) ++ '\n' :: rest))
        (validIdent_cur_not_space m hmv _)
      simpa [buNodesForm] using this
  have hfuel : nodes.length < (buNodesForm nodes rest).length + 1 := by
    cases nodes with
    | nil => simp [buNodesForm]
    | cons m ns2 =>
      rw [buNodesForm, List.length_cons, List.length_append, List.length_append,
        List.length_cons]
      have := flatMap_len_ge ns2 (fun x => [' '] ++ x) (fun x _ => by simp)
      omega
  have h3 := buNodesLoop_go nodes _ rest hfuel hwf
  simp only [handleBU, h1, expect_char_hit, ok_bind, h2]
  simp [h3, expect_newline_nl]


/-- The writer's fixed header over an abstract symbol list and node list. -/
def renderHeaderG (L nodes : List NameL) : List Char :=
  strL "VERSION \"\"\n\n" ++
  strL "NS_ :\n" ++
  L.flatMap (fun sy => strL "    " ++ sy ++ ['\n']) ++
  ['\n'] ++
  strL "BS_:\n" ++
  ['\n'] ++
  strL "BU_:" ++ nodes.flatMap (fun n => [' '] ++ n) ++ ['\n'] ++
  ['\n']

theorem renderHeader_eq {F : Type} (d : Dbc F) :
    renderHeader d = renderHeaderG nsSymbolList (collectNodes d) := rfl

theorem parseLoopD_blank (fm : FloatModel) (f : Nat) (X : Lex)
    (st : PState fm.F) :
    parseLoopD fm (f + 1) ('\n' :: X) st = parseLoopD fm f X st := by
  have hk : next_keyword ('\n' :: X) = (none, '\n' :: X) :=
    next_keyword_none _ (stop_of _ _ _ (by decide))
  have hs : next_spaces ('\n' :: X) = ([], '\n' :: X) :=
    next_spaces_none _ (stop_of _ _ _ (by decide))
  rw [parseLoopD]
  simp [is_eof_cons, hk, hs, expect_newline_nl, ok_bind]

theorem parseLoopD_version (fm : FloatModel) (f : Nat) (X : Lex)
    (st : PState fm.F) :
    parseLoopD fm (f + 1)
      ('V' :: 'E' :: 'R' :: 'S' :: 'I' :: 'O' :: 'N' :: ' ' :: '"' :: '"' ::
        '\n' :: X) st = parseLoopD fm f X st := by
  have hk : next_keyword
      ('V' :: 'E' :: 'R' :: 'S' :: 'I' :: 'O' :: 'N' :: ' ' :: '"' :: '"' ::
        '\n' :: X) =
      (some ['V', 'E', 'R', 'S', 'I', 'O', 'N'],
       ' ' :: '"' :: '"' :: '\n' :: X) := by
    have := next_keyword_exact ['V', 'E', 'R', 'S', 'I', 'O', 'N'] (by decide)
      (by decide) (' ' :: '"' :: '"' :: '\n' :: X) (stop_of _ _ _ (by decide))
    simpa using this
  rw [parseLoopD]
  simp [is_eof_cons, hk, handleVERSION_render, ok_bind]

theorem parseLoopD_ns (fm : FloatModel) (f : Nat) (L : List NameL) (X : Lex)
    (st : PState fm.F)
    (hwfL : ∀ sy ∈ L, sy ≠ [] ∧ ∀ c ∈ sy, kwChar c = true)
    (hX : spaceChar (cur X) = false) :
    parseLoopD fm (f + 1)
      ('N' :: 'S' :: '_' :: ' ' :: ':' :: '\n' ::
        (L.flatMap (fun sy => strL "    " ++ sy ++ ['\n']) ++ X)) st =
    parseLoopD fm f X { st with new_symbols := st.new_symbols ++ L } := by
  have hk : next_keyword
      ('N' :: 'S' :: '_' :: ' ' :: ':' :: '\n' ::
        (L.flatMap (fun sy => strL "    " ++ sy ++ ['\n']) ++ X)) =
      (some ['N', 'S', '_'],
       ' ' :: ':' :: '\n' :: (L.flatMap (fun sy => strL "    " ++ sy ++ ['\n']) ++ X)) := by
    have := next_keyword_exact ['N', 'S', '_'] (by decide) (by decide)
      (' ' :: ':' :: '\n' :: (L.flatMap (fun sy => strL "    " ++ sy ++ ['\n']) ++ X))
      (stop_of _ _ _ (by decide))
    simpa using this
  have hns := handleNS_render L st.new_symbols X hX hwfL
  rw [parseLoopD]
  simp only [List.append_assoc] at hk hns
  simp [is_eof_cons, hk, hns, ok_bind]

theorem parseLoopD_bs (fm : FloatModel) (f : Nat) (X : Lex) (st : PState fm.F) :
    parseLoopD fm (f + 1) ('B' :: 'S' :: '_' :: ':' :: '\n' :: X) st =
      parseLoopD fm f X st := by
  have hk : next_keyword ('B' :: 'S' :: '_' :: ':' :: '\n' :: X) =
      (some ['B', 'S', '_'], ':' :: '\n' :: X) := by
    have := next_keyword_exact ['B', 'S', '_'] (by decide) (by decide)
      (':' :: '\n' :: X) (stop_of _ _ _ (by decide))
    simpa using this
  rw [parseLoopD]
  simp [is_eof_cons, hk, handleBS_render, ok_bind]

theorem parseLoopD_bu (fm : FloatModel) (f : Nat) (nodes : List NameL) (X : Lex)
    (st : PState fm.F) (hwfN : ∀ n ∈ nodes, validIdent n = true) :
    parseLoopD fm (f + 1)
      ('B' :: 'U' :: '_' :: ':' ::
        (nodes.flatMap (fun n => [' '] ++ n) ++ '\n' :: X)) st =
      parseLoopD fm f X st := by
  have hk : next_keyword
      ('B' :: 'U' :: '_' :: ':' ::
        (nodes.flatMap (fun n => [' '] ++ n) ++ '\n' :: X)) =
      (some ['B', 'U', '_'],
       ':' :: (nodes.flatMap (fun n => [' '] ++ n) ++ '\n' :: X)) := by
    have := next_keyword_exact ['B', 'U', '_'] (by decide) (by decide)
      (':' :: (nodes.flatMap (fun n => [' '] ++ n) ++ '\n' :: X))
      (stop_of _ _ _ (by decide))
    simpa using this
  have hbu := handleBU_render nodes X hwfN
  rw [parseLoopD]
  simp only [List.singleton_append] at hk hbu
  simp [is_eof_cons, hk, hbu, ok_bind]

theorem parseLoopD_header (fm : FloatModel) (L nodes : List NameL)
    (hwfL : ∀ sy ∈ L, sy ≠ [] ∧ ∀ c ∈ sy, kwChar c = true)
    (hwfN : ∀ n ∈ nodes, validIdent n = true)
    (f : Nat) (st : PState fm.F) (rest : Lex) :
    parseLoopD fm (f + 8) (renderHeaderG L nodes ++ rest) st =
      parseLoopD fm f rest { st with new_symbols := st.new_symbols ++ L } := by
  set I8 := '\n' :: rest with hI8
  set I7 := 'B' :: 'U' :: '_' :: ':' ::
    (nodes.flatMap (fun n => [' '] ++ n) ++ '\n' :: I8) with hI7
  set I6 := '\n' :: I7 with hI6
  set I5 := 'B' :: 'S' :: '_' :: ':' :: '\n' :: I6 with hI5
  set I4 := '\n' :: I5 with hI4
  set I3 := 'N' :: 'S' :: '_' :: ' ' :: ':' :: '\n' ::
    (L.flatMap (fun sy => strL "    " ++ sy ++ ['\n']) ++ I4) with hI3
  set I2 := '\n' :: I3 with hI2
  have hbody : renderHeaderG L nodes ++ rest =
      'V' :: 'E' :: 'R' :: 'S' :: 'I' :: 'O' :: 'N' :: ' ' :: '"' :: '"' ::
        '\n' :: I2 := by
    rw [hI2, hI3, hI4, hI5, hI6, hI7, hI8]
    simp [renderHeaderG,
      show strL "VERSION \"\"\n\n" =
        ['V', 'E', 'R', 'S', 'I', 'O', 'N', ' ', '"', '"', '\n', '\n'] from rfl,
      show strL "NS_ :\n" = ['N', 'S', '_', ' ', ':', '\n'] from rfl,
      show strL "BS_:\n" = ['B', 'S', '_', ':', '\n'] from rfl,
      show strL "BU_:" = ['B', 'U', '_', ':'] from rfl]
  rw [hbody]
  rw [show f + 8 = f + 7 + 1 by omega, parseLoopD_version fm (f + 7) I2 st]
  rw [hI2, show f + 7 = f + 6 + 1 by omega, parseLoopD_blank fm (f + 6) I3 st]
  rw [hI3, show f + 6 = f + 5 + 1 by omega,
    parseLoopD_ns fm (f + 5) L I4 st hwfL (by rw [hI4]; exact stop_of _ _ _ (by decide))]
  rw [hI4, show f + 5 = f + 4 + 1 by omega, parseLoopD_blank fm (f + 4) I5 _]
  rw [hI5, show f + 4 = f + 3 + 1 by omega, parseLoopD_bs fm (f + 3) I6 _]
  rw [hI6, show f + 3 = f + 2 + 1 by omega, parseLoopD_blank fm (f + 2) I7 _]
  rw [hI7, show f + 2 = f + 1 + 1 by omega,
    parseLoopD_bu fm (f + 1) nodes I8 _ hwfN]
  rw [hI8, parseLoopD_blank fm f rest _]


/-! ### The parse loop over the rendered message section. -/

/-- Well-formedness of one message as needed to parse its rendered block. -/
def wfMsgR (fm : FloatModel) (m : Message fm.F) : Prop :=
  m.id < 2 ^ 32 ∧ m.len < 2 ^ 32 ∧ validIdent m.name = true ∧
  (∀ t, m.transmitter = some t → validIdent t = true ∧ t ≠ EMPTY_ECU) ∧
  ∀ p ∈ iterSignals m, wfSigLine fm p

theorem renderMsgBody_cur (fm : FloatModel) (m : Message fm.F) (X : Lex) :
    cur (renderMsgBody fm m ++ X) = ' ' := rfl

theorem parseLoopD_bo (fm : FloatModel) (f : Nat) (m : Message fm.F) (X : Lex)
    (st : PState fm.F) (hwf : wfMsgR fm m) :
    parseLoopD fm (f + 2)
      ('B' :: 'O' :: '_' :: (renderMsgBody fm m ++ '\n' :: X)) st =
      parseLoopD fm f X (stepBO fm st m) := by
  obtain ⟨hid, hlen, hname, htr, hsigs⟩ := hwf
  have hk : next_keyword ('B' :: 'O' :: '_' :: (renderMsgBody fm m ++ '\n' :: X)) =
      (some ['B', 'O', '_'], renderMsgBody fm m ++ '\n' :: X) := by
    have := next_keyword_exact ['B', 'O', '_'] (by decide) (by decide)
      (renderMsgBody fm m ++ '\n' :: X)
      (by rw [renderMsgBody_cur]; decide)
    simpa using this
  have hbo := handleBO_render fm m st ('\n' :: X) hid hlen hname htr hsigs
    (by rw [cur_cons]; decide) (by rw [cur_cons]; decide)
  rw [show f + 2 = f + 1 + 1 by omega]
  rw [parseLoopD]
  simp [is_eof_cons, hk, hbo, ok_bind, parseLoopD_blank]

theorem parseLoopD_msgs (fm : FloatModel) (msgs : List (Message fm.F)) :
    ∀ (f : Nat) (st : PState fm.F) (rest : Lex),
    (∀ m ∈ msgs, wfMsgR fm m) →
    parseLoopD fm (f + 2 * msgs.length)
      (msgs.flatMap (fun m => renderMsg fm m) ++ rest) st =
      parseLoopD fm f rest (msgs.foldl (fun s m => stepBO fm s m) st) := by
  induction msgs with
  | nil => intro f st rest _; simp
  | cons m msgs ih =>
    intro f st rest hwf
    have hbody : (m :: msgs).flatMap (fun m => renderMsg fm m) ++ rest =
        'B' :: 'O' :: '_' :: (renderMsgBody fm m ++ '\n' ::
          (msgs.flatMap (fun m => renderMsg fm m) ++ rest)) := by
      simp [renderMsg, show strL "BO_" = ['B', 'O', '_'] from rfl]
    rw [hbody, List.length_cons,
      show f + 2 * (msgs.length + 1) = f + 2 * msgs.length + 2 by ring,
      parseLoopD_bo fm (f + 2 * msgs.length) m _ st (hwf m (by simp)),
      ih (f) (stepBO fm st m) rest (fun x hx => hwf x (by simp [hx]))]
    simp

/-! ### The parse loop over the rendered `VAL_` section. -/

/-- Well-formedness of a signal's value descriptions as needed to parse the
rendered `VAL_` statement. -/
def wfVd {F : Type} (s : Signal F) : Prop :=
  (s.value_descriptions.map Prod.fst).Nodup ∧
  ∀ kv ∈ s.value_descriptions, kv.1.natAbs < 2 ^ 53 ∧ ∀ c ∈ kv.2, plainChar c

/-- The `vals` update one emitted signal contributes: signals without value
descriptions emit no `VAL_` statement and leave the map unchanged. -/
def valsUpd {F : Type} (mid : Nat) (vals : List (Nat × ValsMap))
    (p : MultiplexerIndicator × Signal F) : List (Nat × ValsMap) :=
  match p.2.value_descriptions with
  | [] => vals
  | _ => alistModify vals mid []
      (fun mm => alistInsert mm p.2.name p.2.value_descriptions)

/-- Number of `VAL_` statements a message's emitted signal list produces. -/
def vdCount {F : Type} (L : List (MultiplexerIndicator × Signal F)) : Nat :=
  (L.filter (fun p => !p.2.value_descriptions.isEmpty)).length

theorem renderValBody_cur (mid : Nat) (sname : NameL) (vds : List (Int × NameL))
    (X : Lex) : cur (renderValBody mid sname vds ++ X) = ' ' := rfl

theorem parseLoopD_val (fm : FloatModel) (f : Nat) (mid : Nat) (sname : NameL)
    (vds : List (Int × NameL)) (X : Lex) (st : PState fm.F)
    (hmid : mid < 2 ^ 32) (hsname : validIdent sname = true)
    (hnd : (vds.map Prod.fst).Nodup)
    (hvds : ∀ kv ∈ vds, kv.1.natAbs < 2 ^ 53 ∧ ∀ c ∈ kv.2, plainChar c) :
    parseLoopD fm (f + 1)
      ('V' :: 'A' :: 'L' :: '_' :: (renderValBody mid sname vds ++ X)) st =
      parseLoopD fm f X { st with vals := alistModify st.vals mid [] (fun mm => alistInsert mm sname vds) } := by
  have hk : next_keyword ('V' :: 'A' :: 'L' :: '_' ::
      (renderValBody mid sname vds ++ X)) =
      (some ['V', 'A', 'L', '_'], renderValBody mid sname vds ++ X) := by
    have := next_keyword_exact ['V', 'A', 'L', '_'] (by decide) (by decide)
      (renderValBody mid sname vds ++ X)
      (by rw [renderValBody_cur]; decide)
    simpa using this
  have hv := handleVAL_render fm mid sname vds st.vals X hmid hsname hvds
  rw [parseLoopD]
  simp only [foldl_alistInsert_nodup vds hnd] at hv
  simp [is_eof_cons, hk, hv, ok_bind]

theorem parseLoopD_vallines (fm : FloatModel) (mid : Nat)
    (L : List (MultiplexerIndicator × Signal fm.F)) :
    ∀ (f : Nat) (st : PState fm.F) (rest : Lex),
    mid < 2 ^ 32 →
    (∀ p ∈ L, validIdent p.2.name = true ∧ wfVd p.2) →
    parseLoopD fm (f + vdCount L)
      (L.flatMap (fun p => renderValLine mid p.2.name p.2.value_descriptions)
        ++ rest) st =
      parseLoopD fm f rest
        { st with vals := L.foldl (fun v p => valsUpd mid v p) st.vals } := by
  induction L with
  | nil => intro f st rest _ _; simp [vdCount]
  | cons p L ih =>
    intro f st rest hmid hwf
    obtain ⟨hn, hnd, hkv⟩ := hwf p (by simp)
    cases hvd : p.2.value_descriptions with
    | nil =>
      have hline : renderValLine mid p.2.name p.2.value_descriptions = [] := by
        rw [hvd]; rfl
      have hcnt : vdCount (p :: L) = vdCount L := by
        simp [vdCount, hvd]
      have hupd : valsUpd mid st.vals p = st.vals := by
        rw [valsUpd, hvd]
      rw [List.flatMap_cons, hline, List.nil_append, hcnt, List.foldl_cons, hupd]
      exact ih f st rest hmid (fun x hx => hwf x (by simp [hx]))
    | cons v0 vr =>
      have hline : renderValLine mid p.2.name p.2.value_descriptions =
          'V' :: 'A' :: 'L' :: '_' ::
            renderValBody mid p.2.name p.2.value_descriptions := by
        rw [hvd]; rfl
      have hcnt : vdCount (p :: L) = vdCount L + 1 := by
        simp [vdCount, hvd]
      have hupd : valsUpd mid st.vals p = alistModify st.vals mid []
          (fun mm => alistInsert mm p.2.name p.2.value_descriptions) := by
        rw [valsUpd, hvd]
      rw [List.flatMap_cons, hline, hcnt, show f + (vdCount L + 1) =
        f + vdCount L + 1 by omega]
      simp only [List.cons_append, List.append_assoc]
      rw [parseLoopD_val fm (f + vdCount L) mid p.2.name
        p.2.value_descriptions _ st hmid hn hnd hkv]
      rw [ih f _ rest hmid (fun x hx => hwf x (by simp [hx]))]
      rw [List.foldl_cons, hupd]

/-! ### Assembling the full parse of a rendered file. -/

theorem parseLoopD_msgvals (fm : FloatModel) (m : Message fm.F) (f : Nat)
    (st : PState fm.F) (rest : Lex) (hmid : m.id < 2 ^ 32)
    (hwf : ∀ p ∈ iterSignals m, validIdent p.2.name = true ∧ wfVd p.2) :
    parseLoopD fm (f + vdCount (iterSignals m)) (renderMsgVals m ++ rest) st =
      parseLoopD fm f rest { st with vals := (iterSignals m).foldl (fun v p => valsUpd m.id v p) st.vals } := by
  have h := parseLoopD_vallines fm m.id (iterSignals m) f st rest hmid hwf
  exact h

/-- Total number of `VAL_` statements the writer emits. -/
def vdTotal {F : Type} (msgs : List (Message F)) : Nat :=
  (msgs.map (fun m => vdCount (iterSignals m))).sum

theorem parseLoopD_valsec (fm : FloatModel) (msgs : List (Message fm.F)) :
    ∀ (f : Nat) (st : PState fm.F) (rest : Lex),
    (∀ m ∈ msgs, m.id < 2 ^ 32 ∧
      ∀ p ∈ iterSignals m, validIdent p.2.name = true ∧ wfVd p.2) →
    parseLoopD fm (f + vdTotal msgs)
      (msgs.flatMap (fun m => renderMsgVals m) ++ rest) st =
      parseLoopD fm f rest { st with vals := msgs.foldl (fun v m => (iterSignals m).foldl (fun v2 p => valsUpd m.id v2 p) v) st.vals } := by
  induction msgs with
  | nil => intro f st rest _; simp [vdTotal]
  | cons m msgs ih =>
    intro f st rest hwf
    have htot : vdTotal (m :: msgs) = vdCount (iterSignals m) + vdTotal msgs := by
      simp [vdTotal]
    rw [htot, List.flatMap_cons, List.append_assoc,
      show f + (vdCount (iterSignals m) + vdTotal msgs) =
        f + vdTotal msgs + vdCount (iterSignals m) by omega,
      parseLoopD_msgvals fm m (f + vdTotal msgs) st _ (hwf m (by simp)).1
        (hwf m (by simp)).2,
      ih f _ rest (fun x hx => hwf x (by simp [hx]))]
    simp

theorem parseLoopD_eof (fm : FloatModel) (f : Nat) (st : PState fm.F) :
    parseLoopD fm (f + 1) [] st = .ok (st, []) := by
  rw [parseLoopD]
  simp [is_eof, cur]

/-! Length lower bounds: the rendered file is long enough that the fuel
`contents.length + 1` covers every statement plus the final EOF check. -/

theorem renderHeaderG_len (L nodes : List NameL) :
    8 ≤ (renderHeaderG L nodes).length := by
  rw [renderHeaderG]
  simp only [List.length_append,
    show (strL "VERSION \"\"\n\n").length = 12 from rfl]
  omega

theorem msgsec_len (fm : FloatModel) (msgs : List (Message fm.F)) :
    2 * msgs.length ≤ (msgs.flatMap (fun m => renderMsg fm m)).length := by
  induction msgs with
  | nil => simp
  | cons m msgs ih =>
    rw [List.flatMap_cons, List.length_append, List.length_cons]
    have h1 : 2 ≤ (renderMsg fm m).length := by
      rw [renderMsg]
      simp only [List.length_append, show (strL "BO_").length = 3 from rfl]
      omega
    omega

theorem vallines_len {F : Type} (mid : Nat)
    (L : List (MultiplexerIndicator × Signal F)) :
    vdCount L ≤
      (L.flatMap (fun p => renderValLine mid p.2.name p.2.value_descriptions)).length := by
  induction L with
  | nil => simp [vdCount]
  | cons p L ih =>
    rw [List.flatMap_cons, List.length_append]
    cases hvd : p.2.value_descriptions with
    | nil =>
      have hcnt : vdCount (p :: L) = vdCount L := by simp [vdCount, hvd]
      omega
    | cons v0 vr =>
      have hcnt : vdCount (p :: L) = vdCount L + 1 := by simp [vdCount, hvd]
      have hlen : 1 ≤ (renderValLine mid p.2.name (v0 :: vr)).length := by
        rw [renderValLine]
        simp only [List.length_append, show (strL "VAL_").length = 4 from rfl]
        omega
      omega

theorem valsec_len {F : Type} (msgs : List (Message F)) :
    vdTotal msgs ≤ (msgs.flatMap (fun m => renderMsgVals m)).length := by
  induction msgs with
  | nil => simp [vdTotal]
  | cons m msgs ih =>
    rw [List.flatMap_cons, List.length_append]
    have htot : vdTotal (m :: msgs) = vdCount (iterSignals m) + vdTotal msgs := by
      simp [vdTotal]
    have h1 : vdCount (iterSignals m) ≤ (renderMsgVals m).length :=
      vallines_len m.id (iterSignals m)
    omega

/-- The parser state at the end of the loop over a rendered model. -/
def finalState (fm : FloatModel) (d : Dbc fm.F) : PState fm.F :=
  let st2 := d.messages.foldl (fun s m => stepBO fm s m)
    { PState.init fm.F with new_symbols := nsSymbolList }
  { st2 with vals := d.messages.foldl (fun v m => (iterSignals m).foldl (fun v2 p => valsUpd m.id v2 p) v) st2.vals }

/-- Well-formedness of a whole model as needed for the writer's output to
parse back deterministically. -/
def wfRender (fm : FloatModel) (d : Dbc fm.F) : Prop :=
  (∀ n ∈ collectNodes d, validIdent n = true) ∧
  (∀ m ∈ d.messages, wfMsgR fm m) ∧
  ∀ m ∈ d.messages, ∀ p ∈ iterSignals m, wfVd p.2

theorem parseLoop_saveDbc (fm : FloatModel) (d : Dbc fm.F)
    (hwf : wfRender fm d) :
    parseLoopD fm ((saveDbc fm d).length + 1) (saveDbc fm d)
      (PState.init fm.F) = .ok (finalState fm d, []) := by
  obtain ⟨hN, hM, hV⟩ := hwf
  have hL : ∀ sy ∈ nsSymbolList, sy ≠ [] ∧ ∀ c ∈ sy, kwChar c = true := by decide
  have hlen : 8 + 2 * d.messages.length + vdTotal d.messages ≤
      (saveDbc fm d).length := by
    rw [saveDbc, renderHeader_eq, List.length_append, List.length_append]
    have h1 := renderHeaderG_len nsSymbolList (collectNodes d)
    have h2 := msgsec_len fm d.messages
    have h3 := valsec_len d.messages
    omega
  have hslack : 1 ≤ (saveDbc fm d).length + 1 -
      (8 + 2 * d.messages.length + vdTotal d.messages) := by omega
  set slack := (saveDbc fm d).length + 1 -
    (8 + 2 * d.messages.length + vdTotal d.messages) with hsl
  have hfuel : (saveDbc fm d).length + 1 =
      slack + vdTotal d.messages + 2 * d.messages.length + 8 := by
    rw [hsl]; omega
  have hbody : saveDbc fm d = renderHeaderG nsSymbolList (collectNodes d) ++
      (d.messages.flatMap (fun m => renderMsg fm m) ++
        (d.messages.flatMap (fun m => renderMsgVals m) ++ [])) := by
    rw [saveDbc, renderHeader_eq]
    simp
  rw [hfuel]
  conv_lhs => rw [hbody]
  rw [parseLoopD_header fm nsSymbolList (collectNodes d) hL hN
    (slack + vdTotal d.messages + 2 * d.messages.length) (PState.init fm.F) _]
  rw [parseLoopD_msgs fm d.messages (slack + vdTotal d.messages) _ _ hM]
  rw [parseLoopD_valsec fm d.messages slack _ []
    (fun m hm => ⟨(hM m hm).1, fun p hp => ⟨((hM m hm).2.2.2.2 p hp).1, hV m hm p hp⟩⟩)]
  rw [show slack = (slack - 1) + 1 by omega, parseLoopD_eof]
  rw [finalState]
  simp [PState.init]

/-! ### Association-list lemmas for the final parser state. -/

theorem alistGet_cons {K V : Type} [DecidableEq K] (p : K × V) (l : List (K × V))
    (k : K) : alistGet (p :: l) k = if p.1 = k then some p.2 else alistGet l k := by
  rw [alistGet, List.find?_cons]
  by_cases h : p.1 = k
  · simp [h]
  · simp [h, alistGet]

theorem alistGet_not_mem {K V : Type} [DecidableEq K] (l : List (K × V)) (k : K)
    (h : ∀ p ∈ l, p.1 ≠ k) : alistGet l k = none := by
  induction l with
  | nil => rfl
  | cons p l ih =>
    rw [alistGet_cons, if_neg (h p (by simp))]
    exact ih (fun q hq => h q (by simp [hq]))

theorem alistContains_eq_false {K V : Type} [DecidableEq K] (l : List (K × V))
    (k : K) (h : ∀ p ∈ l, p.1 ≠ k) : alistContains l k = false := by
  cases hcc : alistContains l k with
  | false => rfl
  | true =>
    obtain ⟨p, hp, hk⟩ := List.mem_map.mp ((alistContains_iff l k).mp hcc)
    exact absurd hk (h p hp)

theorem not_mem_of_contains_false {K V : Type} [DecidableEq K]
    (l : List (K × V)) (k : K) (h : alistContains l k = false) :
    ∀ p ∈ l, p.1 ≠ k := by
  intro p hp hk
  have hc : alistContains l k = true :=
    (alistContains_iff l k).mpr (hk ▸ List.mem_map_of_mem Prod.fst hp)
  rw [h] at hc
  exact Bool.false_ne_true hc

theorem alistGetD_fresh {K V : Type} [DecidableEq K] (l : List (K × V)) (k : K)
    (d : V) (h : alistContains l k = false) : alistGetD l k d = d := by
  rw [alistContains] at h
  rw [alistGetD]
  cases hg : alistGet l k with
  | none => rfl
  | some v => rw [hg] at h; simp at h

theorem alistModify_fresh {K V : Type} [DecidableEq K] (l : List (K × V)) (k : K)
    (d : V) (f : V → V) (h : alistContains l k = false) :
    alistModify l k d f = l ++ [(k, f d)] := by
  rw [alistModify, if_neg (by simp [h])]

theorem alistModify_last {K V : Type} [DecidableEq K] (l : List (K × V)) (k : K)
    (mm : V) (d : V) (f : V → V) (h : alistContains l k = false) :
    alistModify (l ++ [(k, mm)]) k d f = l ++ [(k, f mm)] := by
  have hc : alistContains (l ++ [(k, mm)]) k = true := by
    rw [alistContains]
    have : alistGet (l ++ [(k, mm)]) k = some mm := by
      induction l with
      | nil => simp [alistGet_cons]
      | cons p l ih =>
        rw [List.cons_append, alistGet_cons,
          if_neg (not_mem_of_contains_false _ _ h p (by simp))]
        exact ih (alistContains_eq_false _ _
          (fun q hq => not_mem_of_contains_false _ _ h q (by simp [hq])))
    simp [this]
  rw [alistModify, if_pos hc, List.map_append]
  congr 1
  · have hid : ∀ p ∈ l, (if p.1 = k then (k, f p.2) else p) = id p := by
      intro p hp
      rw [if_neg (not_mem_of_contains_false _ _ h p hp)]
      rfl
    rw [List.map_congr_left hid, List.map_id]
  · simp

theorem alistGet_map_key {A K V : Type} [DecidableEq K] (key : A → K)
    (g : A → V) (l : List A) (x : A) (hx : x ∈ l)
    (hnd : (l.map key).Nodup) :
    alistGet (l.map (fun a => (key a, g a))) (key x) = some (g x) := by
  induction l with
  | nil => simp at hx
  | cons a l ih =>
    rw [List.map_cons, alistGet_cons]
    rcases List.mem_cons.mp hx with hax | hxl
    · subst hax; simp
    · have hne : key a ≠ key x := by
        intro he
        have : key x ∈ l.map key := List.mem_map_of_mem key hxl
        rw [← he] at this
        exact (List.nodup_cons.mp (by simpa using hnd)).1 this
      rw [if_neg hne]
      exact ih hxl (List.nodup_cons.mp (by simpa using hnd)).2

/-! ### The final parser state, explicitly. -/

/-- The per-message signal map the parser builds. -/
def sigMapOf {F : Type} (m : Message F) : SigMap F :=
  insertNatives [] (iterSignals m)

/-- The per-message inline multiplex relation the parser builds. -/
def inlMuxOf {F : Type} (m : Message F) : MuxMap :=
  inlineMuxFromSignals (sigMapOf m) []

theorem stepBO_fresh (fm : FloatModel) (st : PState fm.F) (m : Message fm.F)
    (h1 : alistContains st.signals_db m.id = false)
    (h2 : alistContains st.inl m.id = false) :
    stepBO fm st m =
      { st with messages_dbc := st.messages_dbc ++ [msgNativeOf m],
                inl := st.inl ++ [(m.id, inlMuxOf m)],
                signals_db := st.signals_db ++ [(m.id, sigMapOf m)] } := by
  rw [stepBO]
  simp only [alistGetD_fresh _ _ _ h1, alistGetD_fresh _ _ _ h2,
    alistInsert_fresh _ _ _ h1, alistInsert_fresh _ _ _ h2]
  rfl

theorem foldl_stepBO (fm : FloatModel) (msgs : List (Message fm.F)) :
    ∀ (st : PState fm.F),
    (msgs.map Message.id).Nodup →
    (∀ m ∈ msgs, alistContains st.signals_db m.id = false ∧
      alistContains st.inl m.id = false) →
    msgs.foldl (fun s m => stepBO fm s m) st =
      { st with messages_dbc := st.messages_dbc ++ msgs.map msgNativeOf,
                inl := st.inl ++ msgs.map (fun m => (m.id, inlMuxOf m)),
                signals_db := st.signals_db ++
                  msgs.map (fun m => (m.id, sigMapOf m)) } := by
  induction msgs with
  | nil => intro st _ _; simp
  | cons m msgs ih =>
    intro st hnd hfr
    have hnd2 := List.nodup_cons.mp (by simpa using hnd :
      (m.id :: msgs.map Message.id).Nodup)
    have hne : ∀ m' ∈ msgs, m'.id ≠ m.id := by
      intro m' hm' he
      exact hnd2.1 (he ▸ List.mem_map_of_mem Message.id hm')
    have hfr' : ∀ m' ∈ msgs,
        alistContains (st.signals_db ++ [(m.id, sigMapOf m)]) m'.id = false ∧
        alistContains (st.inl ++ [(m.id, inlMuxOf m)]) m'.id = false := by
      intro m' hm'
      constructor
      · apply alistContains_eq_false
        intro p hp
        rw [List.mem_append] at hp
        rcases hp with hp | hp
        · exact not_mem_of_contains_false _ _ (hfr m' (by simp [hm'])).1 p hp
        · simp at hp
          subst hp
          simp
          exact fun he => hne m' hm' he.symm
      · apply alistContains_eq_false
        intro p hp
        rw [List.mem_append] at hp
        rcases hp with hp | hp
        · exact not_mem_of_contains_false _ _ (hfr m' (by simp [hm'])).2 p hp
        · simp at hp
          subst hp
          simp
          exact fun he => hne m' hm' he.symm
    have hstep := stepBO_fresh fm st m (hfr m (by simp)).1 (hfr m (by simp)).2
    have hrec := ih { st with messages_dbc := st.messages_dbc ++ [msgNativeOf m], inl := st.inl ++ [(m.id, inlMuxOf m)], signals_db := st.signals_db ++ [(m.id, sigMapOf m)] } hnd2.2 (fun m' hm' => hfr' m' hm')
    rw [List.foldl_cons, hstep, hrec]
    simp

/-! ### The `vals` map at the end of the loop, explicitly. -/

/-- One step of the per-message value-description accumulation. -/
def innerStep {F : Type} (mm : ValsMap) (p : MultiplexerIndicator × Signal F) :
    ValsMap :=
  match p.2.value_descriptions with
  | [] => mm
  | _ => alistInsert mm p.2.name p.2.value_descriptions

/-- The per-message value-description map accumulated over emitted signals. -/
def innerVals {F : Type} (L : List (MultiplexerIndicator × Signal F)) : ValsMap :=
  L.foldl (fun mm p => innerStep mm p) []

theorem valsUpd_eq_modify {F : Type} (mid : Nat) (v : List (Nat × ValsMap))
    (p : MultiplexerIndicator × Signal F) (h : p.2.value_descriptions ≠ []) :
    valsUpd mid v p = alistModify v mid []
      (fun m2 => alistInsert m2 p.2.name p.2.value_descriptions) := by
  cases hvd : p.2.value_descriptions with
  | nil => exact absurd hvd h
  | cons v0 vr => rw [valsUpd, hvd]

theorem valsUpd_eq_self {F : Type} (mid : Nat) (v : List (Nat × ValsMap))
    (p : MultiplexerIndicator × Signal F) (h : p.2.value_descriptions = []) :
    valsUpd mid v p = v := by
  rw [valsUpd, h]

theorem innerStep_eq_insert {F : Type} (mm : ValsMap)
    (p : MultiplexerIndicator × Signal F) (h : p.2.value_descriptions ≠ []) :
    innerStep mm p = alistInsert mm p.2.name p.2.value_descriptions := by
  cases hvd : p.2.value_descriptions with
  | nil => exact absurd hvd h
  | cons v0 vr => rw [innerStep, hvd]

theorem innerStep_eq_self {F : Type} (mm : ValsMap)
    (p : MultiplexerIndicator × Signal F) (h : p.2.value_descriptions = []) :
    innerStep mm p = mm := by
  rw [innerStep, h]

theorem alistInsert_ne_nil {K V : Type} [DecidableEq K] (mm : List (K × V))
    (k : K) (v : V) : alistInsert mm k v ≠ [] := by
  cases mm with
  | nil => simp [alistInsert, alistContains, alistGet]
  | cons p l => rw [alistInsert]; split <;> simp

theorem foldl_innerStep_ne {F : Type} (L : List (MultiplexerIndicator × Signal F)) :
    ∀ mm, mm ≠ [] → L.foldl (fun mm p => innerStep mm p) mm ≠ [] := by
  induction L with
  | nil => intro mm h; simpa using h
  | cons p L ih =>
    intro mm h
    rw [List.foldl_cons]
    apply ih
    cases hvd : p.2.value_descriptions with
    | nil => rw [innerStep_eq_self mm p hvd]; exact h
    | cons v0 vr =>
      rw [innerStep_eq_insert mm p (by rw [hvd]; simp)]
      exact alistInsert_ne_nil _ _ _

theorem foldl_valsUpd_present {F : Type} (mid : Nat)
    (L : List (MultiplexerIndicator × Signal F)) :
    ∀ (v : List (Nat × ValsMap)) (mm : ValsMap),
    alistContains v mid = false →
    L.foldl (fun v2 p => valsUpd mid v2 p) (v ++ [(mid, mm)]) =
      v ++ [(mid, L.foldl (fun mm p => innerStep mm p) mm)] := by
  induction L with
  | nil => intro v mm _; simp
  | cons p L ih =>
    intro v mm hv
    rw [List.foldl_cons, List.foldl_cons]
    cases hvd : p.2.value_descriptions with
    | nil =>
      rw [valsUpd_eq_self mid _ p hvd, innerStep_eq_self mm p hvd]
      exact ih v mm hv
    | cons v0 vr =>
      have hne : p.2.value_descriptions ≠ [] := by rw [hvd]; simp
      rw [valsUpd_eq_modify mid _ p hne, alistModify_last _ _ _ _ _ hv,
        innerStep_eq_insert mm p hne]
      exact ih v _ hv

theorem foldl_valsUpd_fresh {F : Type} (mid : Nat)
    (L : List (MultiplexerIndicator × Signal F)) (v : List (Nat × ValsMap))
    (hv : alistContains v mid = false) :
    L.foldl (fun v2 p => valsUpd mid v2 p) v =
      v ++ (if innerVals L = [] then [] else [(mid, innerVals L)]) := by
  induction L generalizing v with
  | nil => simp [innerVals]
  | cons p L ih =>
    rw [List.foldl_cons]
    cases hvd : p.2.value_descriptions with
    | nil =>
      have h2 : innerVals (p :: L) = innerVals L := by
        rw [innerVals, List.foldl_cons, innerStep_eq_self _ p hvd]
        rfl
      rw [valsUpd_eq_self mid v p hvd, h2]
      exact ih v hv
    | cons v0 vr =>
      have hne : p.2.value_descriptions ≠ [] := by rw [hvd]; simp
      have h2 : innerVals (p :: L) =
          L.foldl (fun mm p => innerStep mm p)
            (alistInsert [] p.2.name p.2.value_descriptions) := by
        rw [innerVals, List.foldl_cons, innerStep_eq_insert _ p hne]
      have hni : innerVals (p :: L) ≠ [] := by
        rw [h2]
        exact foldl_innerStep_ne L _ (alistInsert_ne_nil _ _ _)
      rw [valsUpd_eq_modify mid v p hne, alistModify_fresh _ _ _ _ hv,
        foldl_valsUpd_present mid L v ((fun m2 => alistInsert m2 p.2.name p.2.value_descriptions) ([] : ValsMap)) hv,
        if_neg hni, h2]

/-- The `vals` entries one message contributes. -/
def valsEntry {F : Type} (m : Message F) : List (Nat × ValsMap) :=
  if innerVals (iterSignals m) = [] then []
  else [(m.id, innerVals (iterSignals m))]

theorem valsEntry_keys {F : Type} (m : Message F) (p : Nat × ValsMap)
    (hp : p ∈ valsEntry m) : p.1 = m.id := by
  rw [valsEntry] at hp
  split at hp
  · simp at hp
  · simp at hp
    rw [hp]

theorem foldl_vals {F : Type} (msgs : List (Message F)) :
    ∀ (v : List (Nat × ValsMap)),
    (msgs.map Message.id).Nodup →
    (∀ m ∈ msgs, alistContains v m.id = false) →
    msgs.foldl (fun v m => (iterSignals m).foldl (fun v2 p => valsUpd m.id v2 p) v) v =
      v ++ msgs.flatMap (fun m => valsEntry m) := by
  induction msgs with
  | nil => intro v _ _; simp
  | cons m msgs ih =>
    intro v hnd hfr
    have hnd2 := List.nodup_cons.mp (by simpa using hnd :
      (m.id :: msgs.map Message.id).Nodup)
    have hne : ∀ m' ∈ msgs, m'.id ≠ m.id := by
      intro m' hm' he
      exact hnd2.1 (he ▸ List.mem_map_of_mem Message.id hm')
    have hfr' : ∀ m' ∈ msgs, alistContains (v ++ valsEntry m) m'.id = false := by
      intro m' hm'
      apply alistContains_eq_false
      intro p hp
      rw [List.mem_append] at hp
      rcases hp with hp | hp
      · exact not_mem_of_contains_false _ _ (hfr m' (by simp [hm'])) p hp
      · rw [valsEntry_keys m p hp]
        exact fun he => hne m' hm' he.symm
    rw [List.foldl_cons, foldl_valsUpd_fresh m.id (iterSignals m) v (hfr m (by simp)),
      show v ++ (if innerVals (iterSignals m) = [] then [] else [(m.id, innerVals (iterSignals m))]) = v ++ valsEntry m from by rw [valsEntry],
      ih (v ++ valsEntry m) hnd2.2 hfr']
    simp

theorem alistGet_append_or {K V : Type} [DecidableEq K] (l1 l2 : List (K × V))
    (k : K) :
    alistGet (l1 ++ l2) k =
      match alistGet l1 k with
      | some v => some v
      | none => alistGet l2 k := by
  induction l1 with
  | nil => simp [alistGet]
  | cons p l1 ih =>
    rw [List.cons_append, alistGet_cons, alistGet_cons]
    by_cases h : p.1 = k
    · simp [h]
    · rw [if_neg h, if_neg h, ih]

theorem alistGet_valsEntries {F : Type} (msgs : List (Message F))
    (m : Message F) (hm : m ∈ msgs) (hnd : (msgs.map Message.id).Nodup) :
    alistGet (msgs.flatMap (fun m => valsEntry m)) m.id =
      (if innerVals (iterSignals m) = [] then none
       else some (innerVals (iterSignals m))) := by
  induction msgs with
  | nil => simp at hm
  | cons m0 msgs ih =>
    have hnd2 := List.nodup_cons.mp (by simpa using hnd :
      (m0.id :: msgs.map Message.id).Nodup)
    rw [List.flatMap_cons, alistGet_append_or]
    rcases List.mem_cons.mp hm with he | hm'
    · subst he
      have hnone : alistGet (msgs.flatMap (fun m => valsEntry m)) m.id = none := by
        apply alistGet_not_mem
        intro p hp
        obtain ⟨m', hm', hpm⟩ := List.mem_flatMap.mp hp
        rw [valsEntry_keys m' p hpm]
        intro he
        exact hnd2.1 (he ▸ List.mem_map_of_mem Message.id hm')
      by_cases hi : innerVals (iterSignals m) = []
      · rw [valsEntry, if_pos hi, if_pos hi]
        exact hnone
      · rw [valsEntry, if_neg hi, if_neg hi, alistGet_cons]
        simp
    · have hne2 : m.id ≠ m0.id := by
        intro he
        exact hnd2.1 (he ▸ List.mem_map_of_mem Message.id hm')
      have h0 : alistGet (valsEntry m0) m.id = none := by
        apply alistGet_not_mem
        intro p hp
        rw [valsEntry_keys m0 p hp]
        exact fun he => hne2 he.symm
      rw [h0, ih hm' hnd2.2]

/-! ### The per-message signal map as an explicit association list. -/

theorem insertNatives_eq_map {F : Type}
    (L : List (MultiplexerIndicator × Signal F))
    (hnd : (L.map (fun p => p.2.name)).Nodup) :
    insertNatives [] L = L.map (fun p => (p.2.name, nativeOf p.1 p.2)) := by
  have h1 : insertNatives ([] : SigMap F) L =
      (L.map (fun p => (p.2.name, nativeOf p.1 p.2))).foldl
        (fun a kv => alistInsert a kv.1 kv.2) [] := by
    rw [insertNatives, List.foldl_map]
    rfl
  rw [h1]
  apply foldl_alistInsert_nodup
  have h2 : (L.map (fun p => (p.2.name, nativeOf p.1 p.2))).map Prod.fst =
      L.map (fun p => p.2.name) := by
    rw [List.map_map]
    rfl
  rw [h2]
  exact hnd

theorem alistGet_sigPairs {F : Type}
    (L : List (MultiplexerIndicator × Signal F))
    (q : MultiplexerIndicator × Signal F) (hq : q ∈ L)
    (hnd : (L.map (fun p => p.2.name)).Nodup) :
    alistGet (L.map (fun p => (p.2.name, nativeOf p.1 p.2))) q.2.name =
      some (nativeOf q.1 q.2) := by
  exact alistGet_map_key (fun p => p.2.name) (fun p => nativeOf p.1 p.2) L q hq hnd

/-! ### Top-level entries of the emission. -/

theorem childPairs_mux_index {F : Type} (s : Signal F)
    (q : MultiplexerIndicator × Signal F) (hq : q ∈ childPairs s) :
    ∃ k, q.1.mux_index = some k := by
  rw [childPairs] at hq
  obtain ⟨pr, _, hq2⟩ := List.mem_flatMap.mp hq
  obtain ⟨c, _, hc2⟩ := List.mem_map.mp hq2
  rw [← hc2]
  exact ⟨pr.1, rfl⟩

theorem emitDepth1_filter_top {F : Type} (sigs : List (Signal F)) :
    (emitDepth1 sigs).filter (fun p => p.1.mux_index = none) =
      (sigs.reverse).map (fun s => topPair s) := by
  induction sigs with
  | nil => rfl
  | cons s rest ih =>
    rw [emitDepth1, List.filter_append, ih]
    have h1 : (topPair s :: (childPairs s).reverse).filter
        (fun p => p.1.mux_index = none) = [topPair s] := by
      rw [List.filter_cons]
      have htop : (decide ((topPair s).1.mux_index = none)) = true := by
        rw [topPair]
        rfl
      rw [if_pos (by simpa using htop)]
      have hchild : ((childPairs s).reverse).filter
          (fun p => p.1.mux_index = none) = [] := by
        rw [List.filter_eq_nil_iff]
        intro q hq
        obtain ⟨k, hk⟩ := childPairs_mux_index s q (List.mem_reverse.mp hq)
        simp [hk]
      rw [hchild]
    rw [h1, List.reverse_cons, List.map_append]
    rfl

/-! ### `mapM` over a list where every element succeeds. -/

theorem mapM_ok_of {α β : Type} (f : α → Except DbcErr β) (g : α → β)
    (l : List α) (h : ∀ x ∈ l, f x = .ok (g x)) :
    l.mapM f = .ok (l.map g) := by
  induction l with
  | nil => rfl
  | cons a l ih =>
    rw [List.mapM_cons, h a (by simp), ok_bind,
      ih (fun x hx => h x (by simp [hx])), ok_bind]
    rfl

/-! ### `inline_mux_from_signals` on the rendered signal map. -/

/-- The signals of a message with a nonempty multiplex tree, in order. -/
def muxersOf {F : Type} (sigs : List (Signal F)) : List (Signal F) :=
  sigs.filter (fun s => ¬s.multiplexed.isEmpty)

/-- One step of `inline_mux_from_signals` for a fixed muxer name. -/
def muxAct {F : Type} (tname : NameL) (im : MuxMap)
    (p : MultiplexerIndicator × Signal F) : MuxMap :=
  match p.1.mux_index with
  | some ix => alistModify im tname []
      (fun inner => alistModify inner ix [] (fun l => l ++ [p.2.name]))
  | none => im

/-- The selector-level step of `inline_mux_from_signals`. -/
def selStep {F : Type} (inner : List (Nat × List NameL))
    (p : MultiplexerIndicator × Signal F) : List (Nat × List NameL) :=
  match p.1.mux_index with
  | some ix => alistModify inner ix [] (fun l => l ++ [p.2.name])
  | none => inner

theorem muxAct_none {F : Type} (tname : NameL) (im : MuxMap)
    (p : MultiplexerIndicator × Signal F) (h : p.1.mux_index = none) :
    muxAct tname im p = im := by
  rw [muxAct, h]

theorem muxAct_eq_outer {F : Type} (tname : NameL) (im : MuxMap)
    (p : MultiplexerIndicator × Signal F) (ix : Nat)
    (h : p.1.mux_index = some ix) :
    muxAct tname im p =
      alistModify im tname [] (fun inner => selStep inner p) := by
  simp only [muxAct, selStep, h]

theorem foldl_congr_mem {α β : Type} (l : List α) (f g : β → α → β)
    (h : ∀ b, ∀ a ∈ l, f b a = g b a) :
    ∀ init, l.foldl f init = l.foldl g init := by
  induction l with
  | nil => intro init; rfl
  | cons a l ih =>
    intro init
    rw [List.foldl_cons, List.foldl_cons, h init a (by simp)]
    exact ih (fun b x hx => h b x (by simp [hx])) _

theorem foldl_outer_single {F : Type} (tname : NameL)
    (xs : List (MultiplexerIndicator × Signal F)) :
    ∀ (inner : List (Nat × List NameL)),
    xs.foldl (fun im x => alistModify im tname [] (fun inner2 => selStep inner2 x))
      [(tname, inner)] = [(tname, xs.foldl (fun inner2 x => selStep inner2 x) inner)] := by
  induction xs with
  | nil => intro inner; rfl
  | cons x xs ih =>
    intro inner
    rw [List.foldl_cons, List.foldl_cons]
    have h1 : alistModify [(tname, inner)] tname []
        (fun inner2 => selStep inner2 x) = [(tname, selStep inner x)] := by
      have := alistModify_last ([] : MuxMap) tname inner []
        (fun inner2 => selStep inner2 x) (by rfl)
      simpa using this
    rw [h1]
    exact ih _

theorem foldl_outer_nil {F : Type} (tname : NameL)
    (xs : List (MultiplexerIndicator × Signal F)) (hxs : xs ≠ []) :
    xs.foldl (fun im x => alistModify im tname [] (fun inner2 => selStep inner2 x))
      [] = [(tname, xs.foldl (fun inner2 x => selStep inner2 x) [])] := by
  cases xs with
  | nil => exact absurd rfl hxs
  | cons x xs =>
    rw [List.foldl_cons, List.foldl_cons,
      show alistModify ([] : MuxMap) tname [] (fun inner2 => selStep inner2 x) =
        [(tname, selStep [] x)] from rfl]
    exact foldl_outer_single tname xs _

theorem fold_sel_present (sel : Nat) (ns : List NameL) :
    ∀ (inner : List (Nat × List NameL)) (l : List NameL),
    alistContains inner sel = false →
    ns.foldl (fun inner2 n => alistModify inner2 sel [] (fun l2 => l2 ++ [n]))
      (inner ++ [(sel, l)]) = inner ++ [(sel, l ++ ns)] := by
  induction ns with
  | nil => intro inner l _; simp
  | cons n ns ih =>
    intro inner l hfr
    rw [List.foldl_cons, alistModify_last _ _ _ _ _ hfr, ih inner (l ++ [n]) hfr]
    simp

theorem fold_sel_fresh (sel : Nat) (ns : List NameL)
    (inner : List (Nat × List NameL)) (hfr : alistContains inner sel = false)
    (hne : ns ≠ []) :
    ns.foldl (fun inner2 n => alistModify inner2 sel [] (fun l2 => l2 ++ [n]))
      inner = inner ++ [(sel, ns)] := by
  cases ns with
  | nil => exact absurd rfl hne
  | cons n ns =>
    rw [List.foldl_cons, alistModify_fresh _ _ _ _ hfr,
      fold_sel_present sel ns inner _ hfr]
    rfl

theorem foldl_selStep_groups {F : Type} (groups : List (Nat × List (Signal F))) :
    ∀ (inner : List (Nat × List NameL)),
    (groups.map Prod.fst).Nodup →
    (∀ g ∈ groups, alistContains inner g.1 = false) →
    (∀ g ∈ groups, g.2 ≠ []) →
    (groups.flatMap (fun g => g.2.map (fun c =>
        (({ is_multiplexer := !c.multiplexed.isEmpty, mux_index := some g.1 } :
          MultiplexerIndicator), c)))).foldl
      (fun inner2 p => selStep inner2 p) inner =
      inner ++ groups.map (fun g => (g.1, g.2.map Signal.name)) := by
  induction groups with
  | nil => intro inner _ _ _; simp
  | cons g groups ih =>
    intro inner hnd hfr hne
    have hnd2 := List.nodup_cons.mp (by simpa using hnd :
      (g.1 :: groups.map Prod.fst).Nodup)
    rw [List.flatMap_cons, List.foldl_append]
    have hgrp : (g.2.map (fun c =>
        (({ is_multiplexer := !c.multiplexed.isEmpty, mux_index := some g.1 } :
          MultiplexerIndicator), c))).foldl (fun inner2 p => selStep inner2 p)
        inner = inner ++ [(g.1, g.2.map Signal.name)] := by
      rw [List.foldl_map]
      rw [show (fun (inner2 : List (Nat × List NameL)) (c : Signal F) => selStep inner2 (({ is_multiplexer := !c.multiplexed.isEmpty, mux_index := some g.1 } : MultiplexerIndicator), c)) = (fun inner2 c => alistModify inner2 g.1 [] (fun l2 => l2 ++ [c.name])) from rfl]
      have h2 : g.2.foldl (fun inner2 c => alistModify inner2 g.1 []
          (fun l2 => l2 ++ [c.name])) inner =
          (g.2.map Signal.name).foldl (fun inner2 n => alistModify inner2 g.1 []
            (fun l2 => l2 ++ [n])) inner := by
        rw [List.foldl_map]
      rw [h2]
      exact fold_sel_fresh g.1 (g.2.map Signal.name) inner (hfr g (by simp))
        (by simpa using hne g (by simp))
    have hfr' : ∀ g' ∈ groups,
        alistContains (inner ++ [(g.1, g.2.map Signal.name)]) g'.1 = false := by
      intro g' hg'
      apply alistContains_eq_false
      intro p hp
      rw [List.mem_append] at hp
      rcases hp with hp | hp
      · exact not_mem_of_contains_false _ _ (hfr g' (by simp [hg'])) p hp
      · simp at hp
        subst hp
        simp
        intro he
        exact hnd2.1 (he ▸ List.mem_map_of_mem Prod.fst hg')
    rw [hgrp, ih (inner ++ [(g.1, g.2.map Signal.name)]) hnd2.2 hfr'
      (fun g' hg' => hne g' (by simp [hg']))]
    simp

theorem reverse_flatMap {α β : Type} (l : List α) (f : α → List β) :
    (l.flatMap f).reverse = l.reverse.flatMap (fun a => (f a).reverse) := by
  induction l with
  | nil => rfl
  | cons a l ih =>
    rw [List.flatMap_cons, List.reverse_append, ih, List.reverse_cons,
      List.flatMap_append]
    simp

theorem childPairs_reverse {F : Type} (t : Signal F) :
    (childPairs t).reverse =
      (t.multiplexed.reverse.map (fun pr => (pr.1, pr.2.reverse))).flatMap
        (fun g => g.2.map (fun c =>
          (({ is_multiplexer := !c.multiplexed.isEmpty, mux_index := some g.1 } :
            MultiplexerIndicator), c))) := by
  rw [childPairs, reverse_flatMap, List.flatMap_map]
  apply List.flatMap_congr
  intro pr _
  rw [← List.map_reverse]

/-! ### The inline multiplex relation computed from a rendered emission. -/

theorem childPairs_unpack {F : Type} (s : Signal F)
    (q : MultiplexerIndicator × Signal F) (hq : q ∈ childPairs s) :
    ∃ pr ∈ s.multiplexed, ∃ c ∈ pr.2,
      q = (({ is_multiplexer := !c.multiplexed.isEmpty, mux_index := some pr.1 } :
        MultiplexerIndicator), c) := by
  rw [childPairs] at hq
  obtain ⟨pr, hpr, hq2⟩ := List.mem_flatMap.mp hq
  obtain ⟨c, hc, hc2⟩ := List.mem_map.mp hq2
  exact ⟨pr, hpr, c, hc, hc2.symm⟩

theorem muxersOf_nil_all {F : Type} (sigs : List (Signal F))
    (h : muxersOf sigs = []) : ∀ s ∈ sigs, s.multiplexed = [] := by
  rw [muxersOf, List.filter_eq_nil_iff] at h
  intro s hs
  have := h s hs
  simp at this
  exact this

theorem muxersOf_cons_nil {F : Type} (s : Signal F) (rest : List (Signal F))
    (hmx : s.multiplexed = []) : muxersOf (s :: rest) = muxersOf rest := by
  simp [muxersOf, List.filter_cons, hmx]

theorem muxersOf_cons_mux {F : Type} (s : Signal F) (rest : List (Signal F))
    (pr : Nat × List (Signal F)) (mxr : List (Nat × List (Signal F)))
    (hmx : s.multiplexed = pr :: mxr) :
    muxersOf (s :: rest) = s :: muxersOf rest := by
  simp [muxersOf, List.filter_cons, hmx]

theorem emitDepth1_filter_mux {F : Type} (sigs : List (Signal F))
    (hd : wfDepth1 sigs) :
    (emitDepth1 sigs).filter (fun p => p.1.is_multiplexer) =
      (muxersOf sigs).reverse.map (fun s => topPair s) := by
  induction sigs with
  | nil => rfl
  | cons s rest ih =>
    rw [emitDepth1, List.filter_append]
    have hchild : ((childPairs s).reverse).filter (fun p => p.1.is_multiplexer) = [] := by
      rw [List.filter_eq_nil_iff]
      intro q hq
      obtain ⟨pr, hpr, c, hc, hq2⟩ :=
        childPairs_unpack s q (List.mem_reverse.mp hq)
      have hcmx : c.multiplexed = [] := hd s (by simp) pr hpr c hc
      rw [hq2]
      simp [hcmx]
    have ihr := ih (fun x hx => hd x (by simp [hx]))
    cases hmx : s.multiplexed with
    | nil =>
      have htp : (topPair s :: (childPairs s).reverse).filter
          (fun p => p.1.is_multiplexer) = [] := by
        rw [List.filter_cons]
        have : (topPair s).1.is_multiplexer = false := by
          simp [topPair, hmx]
        rw [this]
        simpa using hchild
      rw [htp, List.append_nil, ihr, muxersOf_cons_nil s rest hmx]
    | cons pr mxr =>
      have htp : (topPair s :: (childPairs s).reverse).filter
          (fun p => p.1.is_multiplexer) = [topPair s] := by
        rw [List.filter_cons]
        have : (topPair s).1.is_multiplexer = true := by
          simp [topPair, hmx]
        rw [this]
        simpa using hchild
      rw [htp, ihr, muxersOf_cons_mux s rest pr mxr hmx, List.reverse_cons,
        List.map_append]
      rfl

theorem fold_muxAct_nomux {F : Type} (tname : NameL) (sigs : List (Signal F))
    (h : ∀ s ∈ sigs, s.multiplexed = []) :
    ∀ im, (emitDepth1 sigs).foldl (fun im p => muxAct tname im p) im = im := by
  induction sigs with
  | nil => intro im; rfl
  | cons s rest ih =>
    intro im
    rw [emitDepth1, List.foldl_append,
      ih (fun x hx => h x (by simp [hx])) im]
    have hcp : childPairs s = [] := by
      rw [childPairs, h s (by simp)]
      rfl
    rw [hcp]
    show muxAct tname im (topPair s) = im
    exact muxAct_none tname im (topPair s) rfl

theorem fold_muxAct_one {F : Type} (tname : NameL) (sigs : List (Signal F))
    (t : Signal F) (hmo : muxersOf sigs = [t]) :
    ∀ im, (emitDepth1 sigs).foldl (fun im p => muxAct tname im p) im =
      ((childPairs t).reverse).foldl (fun im p => muxAct tname im p) im := by
  induction sigs with
  | nil => simp [muxersOf] at hmo
  | cons s rest ih =>
    intro im
    rw [emitDepth1, List.foldl_append]
    cases hmx : s.multiplexed with
    | nil =>
      have hmo2 : muxersOf rest = [t] := by
        rw [← muxersOf_cons_nil s rest hmx]
        exact hmo
      rw [ih hmo2 im]
      have hcp : childPairs s = [] := by
        rw [childPairs, hmx]
        rfl
      rw [hcp]
      show muxAct tname (((childPairs t).reverse).foldl (fun im p => muxAct tname im p) im) (topPair s) = _
      rw [muxAct_none tname _ (topPair s) rfl]
    | cons pr mxr =>
      have h2 : s :: muxersOf rest = t :: [] := by
        rw [← muxersOf_cons_mux s rest pr mxr hmx]
        exact hmo
      have hst1 : s = t := ((List.cons.injEq _ _ _ _).mp h2).1
      have hst2 : muxersOf rest = [] := ((List.cons.injEq _ _ _ _).mp h2).2
      rw [fold_muxAct_nomux tname rest (muxersOf_nil_all rest hst2) im]
      rw [List.foldl_cons, muxAct_none tname im (topPair s) rfl, hst1]

theorem mem_muxersOf_ne {F : Type} (sigs : List (Signal F)) (t : Signal F)
    (h : t ∈ muxersOf sigs) : t.multiplexed ≠ [] := by
  rw [muxersOf] at h
  have := List.of_mem_filter h
  intro he
  rw [he] at this
  simp at this

theorem foldl_body_eq_muxAct {F : Type} (tname : NameL)
    (l : List (MultiplexerIndicator × Signal F)) (init : MuxMap) :
    (l.map (fun p => (p.2.name, nativeOf p.1 p.2))).foldl
      (fun im p => match p.2.multiplexer_indicator.mux_index with
        | some ix => alistModify im tname []
            (fun inner => alistModify inner ix [] (fun l2 => l2 ++ [p.2.name]))
        | none => im) init =
      l.foldl (fun im q => muxAct tname im q) init := by
  rw [List.foldl_map]
  rfl

theorem inlineMux_render_none {F : Type} (sigs : List (Signal F))
    (hd : wfDepth1 sigs) (hmo : muxersOf sigs = []) (inline0 : MuxMap) :
    inlineMuxFromSignals
      ((emitDepth1 sigs).map (fun p => (p.2.name, nativeOf p.1 p.2)))
      inline0 = inline0 := by
  have hf : ((emitDepth1 sigs).map (fun p => (p.2.name, nativeOf p.1 p.2))).filter
      (fun p => p.2.multiplexer_indicator.is_multiplexer) = [] := by
    rw [List.filter_map,
      show ((fun (p : NameL × SignalNative F) => p.2.multiplexer_indicator.is_multiplexer) ∘ (fun (p : MultiplexerIndicator × Signal F) => (p.2.name, nativeOf p.1 p.2))) = (fun (p : MultiplexerIndicator × Signal F) => p.1.is_multiplexer) from rfl,
      emitDepth1_filter_mux sigs hd, hmo]
    rfl
  rw [inlineMuxFromSignals, hf]

theorem inlineMux_render_one {F : Type} (sigs : List (Signal F)) (t : Signal F)
    (hd : wfDepth1 sigs) (hmo : muxersOf sigs = [t])
    (hsel : (t.multiplexed.map Prod.fst).Nodup)
    (hcs : ∀ pr ∈ t.multiplexed, pr.2 ≠ []) :
    inlineMuxFromSignals
      ((emitDepth1 sigs).map (fun p => (p.2.name, nativeOf p.1 p.2))) [] =
      [(t.name, (t.multiplexed.map (fun pr =>
        (pr.1, (pr.2.map Signal.name).reverse))).reverse)] := by
  have hf : ((emitDepth1 sigs).map (fun p => (p.2.name, nativeOf p.1 p.2))).filter
      (fun p => p.2.multiplexer_indicator.is_multiplexer) =
      [((topPair t).2.name, nativeOf (topPair t).1 (topPair t).2)] := by
    rw [List.filter_map,
      show ((fun (p : NameL × SignalNative F) => p.2.multiplexer_indicator.is_multiplexer) ∘ (fun (p : MultiplexerIndicator × Signal F) => (p.2.name, nativeOf p.1 p.2))) = (fun (p : MultiplexerIndicator × Signal F) => p.1.is_multiplexer) from rfl,
      emitDepth1_filter_mux sigs hd, hmo]
    rfl
  have hred : inlineMuxFromSignals
      ((emitDepth1 sigs).map (fun p => (p.2.name, nativeOf p.1 p.2))) [] =
      ((emitDepth1 sigs).map (fun p => (p.2.name, nativeOf p.1 p.2))).foldl
        (fun im p => match p.2.multiplexer_indicator.mux_index with
          | some ix => alistModify im t.name []
              (fun inner => alistModify inner ix [] (fun l2 => l2 ++ [p.2.name]))
          | none => im) [] := by
    rw [inlineMuxFromSignals, hf]
    rfl
  rw [hred, foldl_body_eq_muxAct t.name _ _, fold_muxAct_one t.name sigs t hmo []]
  have htne : t.multiplexed ≠ [] := mem_muxersOf_ne sigs t (by rw [hmo]; simp)
  have hcpne : (childPairs t).reverse ≠ [] := by
    intro he
    rw [List.reverse_eq_nil_iff, childPairs, List.flatMap_eq_nil_iff] at he
    cases hmx : t.multiplexed with
    | nil => exact htne hmx
    | cons pr mxr =>
      have := he pr (by rw [hmx]; simp)
      rw [List.map_eq_nil_iff] at this
      exact hcs pr (by rw [hmx]; simp) this
  have hcongr : ((childPairs t).reverse).foldl (fun im p => muxAct t.name im p) [] =
      ((childPairs t).reverse).foldl
        (fun im p => alistModify im t.name [] (fun inner2 => selStep inner2 p)) [] := by
    apply foldl_congr_mem
    intro im q hq
    obtain ⟨pr, hpr, c, hc, hq2⟩ :=
      childPairs_unpack t q (List.mem_reverse.mp hq)
    exact muxAct_eq_outer t.name im q pr.1 (by rw [hq2])
  rw [hcongr, foldl_outer_nil t.name _ hcpne]
  have hgrps : ((childPairs t).reverse).foldl (fun inner2 p => selStep inner2 p) [] =
      (t.multiplexed.reverse.map (fun pr => (pr.1, pr.2.reverse))).map
        (fun g => (g.1, g.2.map Signal.name)) := by
    rw [childPairs_reverse t]
    have hnd : ((t.multiplexed.reverse.map (fun pr => (pr.1, pr.2.reverse))).map
        Prod.fst).Nodup := by
      rw [List.map_map,
        show (Prod.fst ∘ (fun (pr : Nat × List (Signal F)) => (pr.1, pr.2.reverse))) = (fun (pr : Nat × List (Signal F)) => pr.1) from rfl]
      rw [show (t.multiplexed.reverse.map (fun (pr : Nat × List (Signal F)) => pr.1)) = (t.multiplexed.map (fun (pr : Nat × List (Signal F)) => pr.1)).reverse from (List.map_reverse _ _)]
      rw [List.nodup_reverse]
      exact hsel
    have hfr0 : ∀ g ∈ t.multiplexed.reverse.map (fun pr => (pr.1, pr.2.reverse)),
        alistContains ([] : List (Nat × List NameL)) g.1 = false := by
      intro g _
      rfl
    have hne0 : ∀ g ∈ t.multiplexed.reverse.map (fun pr => (pr.1, pr.2.reverse)),
        g.2 ≠ [] := by
      intro g hg
      obtain ⟨pr, hpr, hg2⟩ := List.mem_map.mp hg
      rw [← hg2]
      simpa using hcs pr (List.mem_reverse.mp hpr)
    have := foldl_selStep_groups
      (t.multiplexed.reverse.map (fun pr => (pr.1, pr.2.reverse))) [] hnd hfr0 hne0
    simpa using this
  rw [hgrps]
  rw [List.map_map]
  rw [show (t.multiplexed.map (fun pr => (pr.1, (pr.2.map Signal.name).reverse))).reverse = t.multiplexed.reverse.map (fun pr => (pr.1, (pr.2.map Signal.name).reverse)) from (List.map_reverse _ _).symm]
  have hperel : ∀ pr ∈ t.multiplexed.reverse,
      ((fun (g : Nat × List (Signal F)) => (g.1, g.2.map Signal.name)) ∘
        (fun (pr : Nat × List (Signal F)) => (pr.1, pr.2.reverse))) pr =
      (fun (pr : Nat × List (Signal F)) => (pr.1, (pr.2.map Signal.name).reverse)) pr := by
    intro pr _
    simp [Function.comp, List.map_reverse]
  exact congrArg (fun x => [(t.name, x)]) (List.map_congr_left hperel)

/-! ### `sort_by(start_bit)` on a reversed strictly sorted list. -/

theorem insertByStartBit_perm {F : Type} (x : Signal F) (l : List (Signal F)) :
    List.Perm (insertByStartBit x l) (x :: l) := by
  induction l with
  | nil => rfl
  | cons y ys ih =>
    rw [insertByStartBit]
    split
    · rfl
    · exact (ih.cons y).trans (List.Perm.swap x y ys)

theorem sortByStartBit_perm {F : Type} (l : List (Signal F)) :
    List.Perm (sortByStartBit l) l := by
  induction l with
  | nil => rfl
  | cons x xs ih =>
    rw [sortByStartBit]
    exact (insertByStartBit_perm x (sortByStartBit xs)).trans (ih.cons x)

theorem insertByStartBit_sorted {F : Type} (x : Signal F) (l : List (Signal F))
    (h : List.Pairwise (fun a b => a.start_bit ≤ b.start_bit) l) :
    List.Pairwise (fun a b => a.start_bit ≤ b.start_bit) (insertByStartBit x l) := by
  induction l with
  | nil => simp [insertByStartBit]
  | cons y ys ih =>
    rw [insertByStartBit]
    have hy := List.pairwise_cons.mp h
    split
    · apply List.pairwise_cons.mpr
      refine ⟨?_, h⟩
      intro z hz
      rcases List.mem_cons.mp hz with hz | hz
      · subst hz
        omega
      · have := hy.1 z hz
        omega
    · apply List.pairwise_cons.mpr
      constructor
      · intro z hz
        have hz2 := (insertByStartBit_perm x ys).mem_iff.mp hz
        rcases List.mem_cons.mp hz2 with hz2 | hz2
        · subst hz2
          omega
        · exact hy.1 z hz2
      · exact ih hy.2

theorem sortByStartBit_sorted {F : Type} (l : List (Signal F)) :
    List.Pairwise (fun a b => a.start_bit ≤ b.start_bit) (sortByStartBit l) := by
  induction l with
  | nil => simp [sortByStartBit]
  | cons x xs ih =>
    rw [sortByStartBit]
    exact insertByStartBit_sorted x (sortByStartBit xs) ih

theorem nodup_map_pairwise_ne {α β : Type} (f : α → β) (l : List α)
    (h : (l.map f).Nodup) : List.Pairwise (fun a b => f a ≠ f b) l := by
  induction l with
  | nil => exact List.Pairwise.nil
  | cons a l ih =>
    rw [List.map_cons, List.nodup_cons] at h
    apply List.pairwise_cons.mpr
    refine ⟨?_, ih h.2⟩
    intro b hb he
    exact h.1 (he ▸ List.mem_map_of_mem f hb)

theorem pairwise_ne_nodup_map {α β : Type} (f : α → β) (l : List α)
    (h : List.Pairwise (fun a b => f a ≠ f b) l) : (l.map f).Nodup := by
  induction l with
  | nil => simp
  | cons a l ih =>
    rw [List.map_cons, List.nodup_cons]
    have h2 := List.pairwise_cons.mp h
    refine ⟨?_, ih h2.2⟩
    intro hmem
    obtain ⟨b, hb, hbe⟩ := List.mem_map.mp hmem
    exact h2.1 b hb hbe.symm

theorem sortByStartBit_of_rev_sorted {F : Type} (cs : List (Signal F))
    (hs : List.Pairwise (fun a b => a.start_bit < b.start_bit) cs) :
    sortByStartBit cs.reverse = cs := by
  haveI : IsAntisymm (Signal F)
      (fun a b => a.start_bit < b.start_bit) :=
    ⟨fun a b h1 h2 => absurd h2 (by omega)⟩
  have hperm : List.Perm (sortByStartBit cs.reverse) cs :=
    (sortByStartBit_perm cs.reverse).trans (List.reverse_perm cs)
  have hnd : ((sortByStartBit cs.reverse).map Signal.start_bit).Nodup := by
    have hnd0 : (cs.map Signal.start_bit).Nodup :=
      pairwise_ne_nodup_map Signal.start_bit cs (hs.imp (fun h => by omega))
    exact ((hperm.map Signal.start_bit).nodup_iff).mpr hnd0
  have hlt : List.Pairwise (fun (a b : Signal F) => a.start_bit < b.start_bit)
      (sortByStartBit cs.reverse) := by
    have hle := sortByStartBit_sorted cs.reverse
    have hne := nodup_map_pairwise_ne Signal.start_bit _ hnd
    have := hle.and hne
    exact this.imp (fun h => by omega)
  exact List.eq_of_perm_of_sorted hperm hlt hs

/-! ### `build_multiplexed_signals` on the rendered maps. -/

/-- A top-level signal as the round trip reconstructs it: the multiplex
association list comes back reversed (in the embedding's fixed order; the
program's order is arbitrary). -/
def revTopSignal {F : Type} (s : Signal F) : Signal F :=
  s.withMultiplexed s.multiplexed.reverse

/-- The selector map the parser stores for the unique muxer of a message. -/
def selMapOf {F : Type} (t : Signal F) : List (Nat × List NameL) :=
  (t.multiplexed.map (fun pr => (pr.1, (pr.2.map Signal.name).reverse))).reverse

/-- The signal map of one rendered message, as a literal association list. -/
def emitPairs {F : Type} (sigs : List (Signal F)) : SigMap F :=
  (emitDepth1 sigs).map (fun p => (p.2.name, nativeOf p.1 p.2))

/-- The value-description lookup of one rendered message. -/
def emitValsOpt {F : Type} (sigs : List (Signal F)) : Option ValsMap :=
  if innerVals (emitDepth1 sigs) = [] then none
  else some (innerVals (emitDepth1 sigs))

theorem withMultiplexed_nil {F : Type} (s : Signal F) (h : s.multiplexed = []) :
    s.withMultiplexed [] = s := by
  cases s with
  | mk n sb sz bo vt fc off mi ma un rc vd mx =>
    simp [Signal.multiplexed] at h
    subst h
    rfl

theorem rebuild_eq {F : Type} (ind : MultiplexerIndicator) (s : Signal F)
    (vdopt : Option (List (Int × NameL))) (mx' : List (Nat × List (Signal F)))
    (hvd : vdopt.getD [] = s.value_descriptions) :
    (signalFromNative (nativeOf ind s) vdopt).withMultiplexed mx' =
      s.withMultiplexed mx' := by
  cases s with
  | mk n sb sz bo vt fc off mi ma un rc vd mx =>
    simp [Signal.value_descriptions] at hvd
    show Signal.mk n sb sz bo vt fc off mi ma un rc (vdopt.getD []) mx' =
      Signal.mk n sb sz bo vt fc off mi ma un rc vd mx'
    rw [hvd]

theorem foldl_innerStep_filter {F : Type}
    (L : List (MultiplexerIndicator × Signal F)) :
    ∀ mm, L.foldl (fun mm p => innerStep mm p) mm =
      ((L.filter (fun p => !p.2.value_descriptions.isEmpty)).map
        (fun p => (p.2.name, p.2.value_descriptions))).foldl
        (fun a kv => alistInsert a kv.1 kv.2) mm := by
  induction L with
  | nil => intro mm; rfl
  | cons p L ih =>
    intro mm
    rw [List.foldl_cons, List.filter_cons]
    cases hvd : p.2.value_descriptions with
    | nil =>
      rw [innerStep_eq_self mm p hvd, if_neg (by simp)]
      exact ih mm
    | cons v0 vr =>
      rw [innerStep_eq_insert mm p (by rw [hvd]; simp), if_pos (show (!(v0 :: vr).isEmpty) = true from rfl),
        List.map_cons, List.foldl_cons]
      exact ih _

theorem innerVals_eq {F : Type} (L : List (MultiplexerIndicator × Signal F))
    (hnd : ((L.filter (fun p => !p.2.value_descriptions.isEmpty)).map
      (fun p => p.2.name)).Nodup) :
    innerVals L = (L.filter (fun p => !p.2.value_descriptions.isEmpty)).map
      (fun p => (p.2.name, p.2.value_descriptions)) := by
  rw [innerVals, foldl_innerStep_filter]
  apply foldl_alistInsert_nodup
  rw [List.map_map]
  exact hnd

theorem mem_emitDepth1_top {F : Type} (sigs : List (Signal F)) (s : Signal F)
    (hs : s ∈ sigs) : topPair s ∈ emitDepth1 sigs := by
  induction sigs with
  | nil => simp at hs
  | cons s0 rest ih =>
    rw [emitDepth1, List.mem_append]
    rcases List.mem_cons.mp hs with he | hm
    · right
      rw [he]
      simp
    · left
      exact ih hm

theorem mem_emitDepth1_child {F : Type} (sigs : List (Signal F)) (s : Signal F)
    (q : MultiplexerIndicator × Signal F) (hs : s ∈ sigs)
    (hq : q ∈ childPairs s) : q ∈ emitDepth1 sigs := by
  induction sigs with
  | nil => simp at hs
  | cons s0 rest ih =>
    rw [emitDepth1, List.mem_append]
    rcases List.mem_cons.mp hs with he | hm
    · right
      subst he
      simp [hq]
    · left
      exact ih hm

theorem vd_restore {F : Type} (sigs : List (Signal F))
    (hnames : ((emitDepth1 sigs).map (fun p => p.2.name)).Nodup)
    (q : MultiplexerIndicator × Signal F) (hq : q ∈ emitDepth1 sigs) :
    ((emitValsOpt sigs).bind (fun x => alistGet x q.2.name)).getD [] =
      q.2.value_descriptions := by
  have hfn : (((emitDepth1 sigs).filter
      (fun p => !p.2.value_descriptions.isEmpty)).map
      (fun p => p.2.name)).Nodup :=
    hnames.sublist ((List.filter_sublist _).map _)
  have hinj := List.inj_on_of_nodup_map hnames
  rw [emitValsOpt]
  by_cases hi : innerVals (emitDepth1 sigs) = []
  · rw [if_pos hi]
    have hfe : (emitDepth1 sigs).filter
        (fun p => !p.2.value_descriptions.isEmpty) = [] := by
      have := innerVals_eq _ hfn
      rw [hi] at this
      exact List.map_eq_nil_iff.mp this.symm
    rw [List.filter_eq_nil_iff] at hfe
    have := hfe q hq
    simp at this
    simp [this]
  · rw [if_neg hi]
    show (alistGet (innerVals (emitDepth1 sigs)) q.2.name).getD [] =
      q.2.value_descriptions
    rw [innerVals_eq _ hfn]
    cases hqvd : q.2.value_descriptions with
    | nil =>
      have hnone : alistGet (((emitDepth1 sigs).filter
          (fun p => !p.2.value_descriptions.isEmpty)).map
          (fun p => (p.2.name, p.2.value_descriptions))) q.2.name = none := by
        apply alistGet_not_mem
        intro p hp
        obtain ⟨p0, hp0, hpe⟩ := List.mem_map.mp hp
        rw [← hpe]
        show p0.2.name ≠ q.2.name
        intro he
        have hp0E : p0 ∈ emitDepth1 sigs := List.mem_of_mem_filter hp0
        have hpq : p0 = q := hinj hp0E hq he
        have := List.of_mem_filter hp0
        rw [hpq, hqvd] at this
        simp at this
      rw [hnone]
      rfl
    | cons v0 vr =>
      have hqf : q ∈ (emitDepth1 sigs).filter
          (fun p => !p.2.value_descriptions.isEmpty) :=
        List.mem_filter.mpr ⟨hq, by rw [hqvd]; rfl⟩
      rw [alistGet_map_key (fun p => p.2.name)
        (fun p => p.2.value_descriptions) _ q hqf hfn]
      rw [hqvd]
      rfl

/-! ### Rebuilding each signal tree from the rendered maps. -/

theorem mapM_ok_of_map {α β γ : Type} (g : α → β) (f : β → Except DbcErr γ)
    (h2 : α → γ) (l : List α) (h : ∀ x ∈ l, f (g x) = .ok (h2 x)) :
    (l.map g).mapM f = .ok (l.map h2) := by
  induction l with
  | nil => rfl
  | cons a l ih =>
    rw [List.map_cons, List.mapM_cons, h a (by simp), ok_bind,
      ih (fun x hx => h x (by simp [hx])), ok_bind]
    rfl

/-- The child lookup-and-build step of `build_multiplexed_signals`. -/
def childLookup (F : Type) (f : Nat) (mux? : Option MuxMap)
    (sdb : List (NameL × SignalNative F)) (vdb : Option ValsMap)
    (nm : NameL) : Except DbcErr (Signal F) :=
  match alistGet sdb nm with
  | none => .error .panicked
  | some rawc => build_multiplexed_signals F f rawc mux? sdb vdb

/-- The per-selector step of `build_multiplexed_signals`. -/
def entryBuild (F : Type) (f : Nat) (mux? : Option MuxMap)
    (sdb : List (NameL × SignalNative F)) (vdb : Option ValsMap)
    (mux : Nat × List NameL) : Except DbcErr (Nat × List (Signal F)) :=
  (mux.2.mapM (childLookup F f mux? sdb vdb)) >>=
    (fun children => pure (mux.1, sortByStartBit children))

theorem build_leaf_ok {F : Type} (sigs : List (Signal F))
    (hnames : ((emitDepth1 sigs).map (fun p => p.2.name)).Nodup)
    (f : Nat) (inl1 : MuxMap) (q : MultiplexerIndicator × Signal F)
    (hq : q ∈ emitDepth1 sigs) (hqmx : q.2.multiplexed = [])
    (hget : alistGet inl1 q.2.name = none) :
    build_multiplexed_signals F (f + 1) (nativeOf q.1 q.2) (some inl1)
      (emitPairs sigs) (emitValsOpt sigs) = .ok q.2 := by
  have h1 : build_multiplexed_signals F (f + 1) (nativeOf q.1 q.2) (some inl1)
      (emitPairs sigs) (emitValsOpt sigs) =
      .ok ((signalFromNative (nativeOf q.1 q.2)
        ((emitValsOpt sigs).bind (fun x => alistGet x q.2.name))).withMultiplexed []) := by
    rw [build_multiplexed_signals,
      show (nativeOf q.1 q.2).name = q.2.name from rfl, hget]
  rw [h1, rebuild_eq q.1 q.2 _ [] (vd_restore sigs hnames q hq),
    withMultiplexed_nil q.2 hqmx]

theorem build_top_mux_ok {F : Type} (sigs : List (Signal F)) (t : Signal F)
    (ht : t ∈ sigs)
    (hd : wfDepth1 sigs)
    (hnames : ((emitDepth1 sigs).map (fun p => p.2.name)).Nodup)
    (hsort : ∀ pr ∈ t.multiplexed,
      List.Pairwise (fun a b => a.start_bit < b.start_bit) pr.2)
    (f : Nat) :
    build_multiplexed_signals F (f + 2) (nativeOf (topPair t).1 (topPair t).2)
      (some [(t.name, selMapOf t)]) (emitPairs sigs) (emitValsOpt sigs) =
      .ok (revTopSignal t) := by
  have htq : topPair t ∈ emitDepth1 sigs := mem_emitDepth1_top sigs t ht
  have hinj := List.inj_on_of_nodup_map hnames
  have hchild_ne : ∀ pr ∈ t.multiplexed, ∀ c ∈ pr.2, c.name ≠ t.name := by
    intro pr hpr c hc he
    have hcq : (({ is_multiplexer := !c.multiplexed.isEmpty, mux_index := some pr.1 } : MultiplexerIndicator), c) ∈ emitDepth1 sigs := by
      apply mem_emitDepth1_child sigs t _ ht
      rw [childPairs]
      exact List.mem_flatMap.mpr ⟨pr, hpr, List.mem_map.mpr ⟨c, hc, rfl⟩⟩
    have heq := hinj hcq htq (show c.name = (topPair t).2.name from he)
    have hmi := congrArg (fun (x : MultiplexerIndicator × Signal F) => x.1.mux_index) heq
    simp [topPair] at hmi
  have hentry : ∀ pr ∈ t.multiplexed.reverse,
      entryBuild F (f + 1) (some [(t.name, selMapOf t)]) (emitPairs sigs)
        (emitValsOpt sigs) ((fun pr => (pr.1, (pr.2.map Signal.name).reverse)) pr) =
      .ok pr := by
    intro pr hpr
    have hpr0 := List.mem_reverse.mp hpr
    have hall : ∀ c ∈ pr.2.reverse,
        childLookup F (f + 1) (some [(t.name, selMapOf t)]) (emitPairs sigs)
          (emitValsOpt sigs) (Signal.name c) = .ok c := by
      intro c hc
      have hc0 := List.mem_reverse.mp hc
      have hcq : (({ is_multiplexer := !c.multiplexed.isEmpty, mux_index := some pr.1 } : MultiplexerIndicator), c) ∈ emitDepth1 sigs := by
        apply mem_emitDepth1_child sigs t _ ht
        rw [childPairs]
        exact List.mem_flatMap.mpr ⟨pr, hpr0, List.mem_map.mpr ⟨c, hc0, rfl⟩⟩
      have hlk : alistGet (emitPairs sigs) c.name =
          some (nativeOf ({ is_multiplexer := !c.multiplexed.isEmpty, mux_index := some pr.1 } : MultiplexerIndicator) c) :=
        alistGet_sigPairs (emitDepth1 sigs) _ hcq hnames
      have hcmx : c.multiplexed = [] := hd t ht pr hpr0 c hc0
      have hgetc : alistGet [(t.name, selMapOf t)] c.name = none := by
        rw [alistGet_cons, if_neg (fun he => hchild_ne pr hpr0 c hc0 he.symm)]
        rfl
      rw [childLookup, hlk]
      exact build_leaf_ok sigs hnames f [(t.name, selMapOf t)] _ hcq hcmx hgetc
    have hchildren : ((pr.2.map Signal.name).reverse).mapM
        (childLookup F (f + 1) (some [(t.name, selMapOf t)]) (emitPairs sigs)
          (emitValsOpt sigs)) = .ok (pr.2.reverse.map (fun c => c)) := by
      rw [← List.map_reverse]
      exact mapM_ok_of_map Signal.name _ (fun c => c) pr.2.reverse hall
    show ((pr.2.map Signal.name).reverse).mapM
        (childLookup F (f + 1) (some [(t.name, selMapOf t)]) (emitPairs sigs)
          (emitValsOpt sigs)) >>=
        (fun children => pure (pr.1, sortByStartBit children)) = .ok pr
    rw [hchildren, ok_bind, show pr.2.reverse.map (fun c => c) = pr.2.reverse from List.map_id _,
      sortByStartBit_of_rev_sorted pr.2 (hsort pr hpr0)]
    rfl
  have hsel : selMapOf t = t.multiplexed.reverse.map
      (fun pr => (pr.1, (pr.2.map Signal.name).reverse)) := by
    rw [selMapOf, ← List.map_reverse]
  have hmapMg : ∀ inl1 : MuxMap,
      (∀ pr ∈ t.multiplexed.reverse,
        entryBuild F (f + 1) (some inl1) (emitPairs sigs) (emitValsOpt sigs)
          ((fun pr => (pr.1, (pr.2.map Signal.name).reverse)) pr) = .ok pr) →
      (selMapOf t).mapM (entryBuild F (f + 1) (some inl1) (emitPairs sigs)
        (emitValsOpt sigs)) = .ok t.multiplexed.reverse := by
    intro inl1 hent
    rw [hsel,
      mapM_ok_of_map (fun pr => (pr.1, (pr.2.map Signal.name).reverse)) _
        (fun pr => pr) t.multiplexed.reverse hent]
    exact congrArg Except.ok (List.map_id t.multiplexed.reverse)
  have hmapM := hmapMg [(t.name, selMapOf t)] hentry
  have hget : alistGet [(t.name, selMapOf t)] (nativeOf (topPair t).1 (topPair t).2).name =
      some (selMapOf t) := by
    rw [show (nativeOf (topPair t).1 (topPair t).2).name = t.name from rfl,
      alistGet_cons]
    simp
  rw [build_multiplexed_signals, hget]
  show ((selMapOf t).mapM
      (entryBuild F (f + 1) (some [(t.name, selMapOf t)]) (emitPairs sigs)
        (emitValsOpt sigs))) >>=
      (fun mx => Except.ok ((signalFromNative (nativeOf (topPair t).1 t)
        ((emitValsOpt sigs).bind (fun x => alistGet x t.name))).withMultiplexed mx)) =
      .ok (revTopSignal t)
  rw [hmapM, ok_bind]
  have hvd : ((emitValsOpt sigs).bind (fun x => alistGet x t.name)).getD [] =
      t.value_descriptions := vd_restore sigs hnames (topPair t) htq
  rw [rebuild_eq (topPair t).1 t _ _ hvd]
  rfl

/-! ### All top-level signals of one rendered message rebuilt. -/

theorem revTopSignal_nil {F : Type} (s : Signal F) (h : s.multiplexed = []) :
    revTopSignal s = s := by
  rw [revTopSignal, h]
  exact withMultiplexed_nil s h

theorem mem_muxersOf {F : Type} (sigs : List (Signal F)) (s : Signal F)
    (hs : s ∈ sigs) (pr : Nat × List (Signal F))
    (mxr : List (Nat × List (Signal F))) (hmx : s.multiplexed = pr :: mxr) :
    s ∈ muxersOf sigs := by
  apply List.mem_filter.mpr
  refine ⟨hs, ?_⟩
  rw [hmx]
  rfl

theorem build_msg_tops {F : Type} (sigs : List (Signal F)) (n : Nat)
    (hd : wfDepth1 sigs)
    (hnames : ((emitDepth1 sigs).map (fun p => p.2.name)).Nodup)
    (hmux1 : (muxersOf sigs).length ≤ 1)
    (hmxwf : ∀ s ∈ sigs, (s.multiplexed.map Prod.fst).Nodup ∧
      ∀ pr ∈ s.multiplexed, pr.2 ≠ [] ∧
        List.Pairwise (fun a b => a.start_bit < b.start_bit) pr.2)
    (hn : muxersOf sigs ≠ [] → 1 ≤ n) :
    ((emitPairs sigs).filter
      (fun p => p.2.multiplexer_indicator.mux_index = none)).mapM
      (fun p => build_multiplexed_signals F (n + 1) p.2
        (some (inlineMuxFromSignals (emitPairs sigs) []))
        (emitPairs sigs) (emitValsOpt sigs)) =
      .ok (sigs.reverse.map (fun s => revTopSignal s)) := by
  have hinj := List.inj_on_of_nodup_map hnames
  have hfl : (emitPairs sigs).filter
      (fun p => p.2.multiplexer_indicator.mux_index = none) =
      ((sigs.reverse).map (fun s => topPair s)).map
        (fun p => (p.2.name, nativeOf p.1 p.2)) := by
    rw [emitPairs, List.filter_map,
      show ((fun (p : NameL × SignalNative F) => decide (p.2.multiplexer_indicator.mux_index = none)) ∘ (fun (p : MultiplexerIndicator × Signal F) => (p.2.name, nativeOf p.1 p.2))) = (fun (p : MultiplexerIndicator × Signal F) => decide (p.1.mux_index = none)) from rfl,
      emitDepth1_filter_top]
  rw [hfl, List.map_map]
  cases hmo : muxersOf sigs with
  | nil =>
    have hin : inlineMuxFromSignals (emitPairs sigs) [] = [] := by
      rw [emitPairs]
      exact inlineMux_render_none sigs hd hmo []
    rw [hin]
    apply mapM_ok_of_map
    intro s hs
    have hs0 := List.mem_reverse.mp hs
    have hmxs : s.multiplexed = [] := muxersOf_nil_all sigs hmo s hs0
    rw [revTopSignal_nil s hmxs]
    exact build_leaf_ok sigs hnames n [] (topPair s)
      (mem_emitDepth1_top sigs s hs0) hmxs rfl
  | cons t rest =>
    have hrest : rest = [] := by
      have hlen : (t :: rest).length ≤ 1 := by rw [← hmo]; exact hmux1
      rw [List.length_cons] at hlen
      have h0 : rest.length = 0 := by omega
      exact List.length_eq_zero.mp h0
    subst hrest
    have ht : t ∈ sigs := by
      have hmem : t ∈ muxersOf sigs := by rw [hmo]; simp
      exact List.mem_of_mem_filter hmem
    have hin : inlineMuxFromSignals (emitPairs sigs) [] = [(t.name, selMapOf t)] := by
      rw [emitPairs]
      exact inlineMux_render_one sigs t hd hmo (hmxwf t ht).1
        (fun pr hpr => ((hmxwf t ht).2 pr hpr).1)
    rw [hin]
    apply mapM_ok_of_map
    intro s hs
    have hs0 := List.mem_reverse.mp hs
    by_cases hst : s = t
    · subst hst
      obtain ⟨n2, rfl⟩ : ∃ n2, n = n2 + 1 :=
        ⟨n - 1, by have := hn (by rw [hmo]; simp); omega⟩
      rw [show n2 + 1 + 1 = n2 + 2 from rfl]
      exact build_top_mux_ok sigs s hs0 hd hnames
        (fun pr hpr => ((hmxwf s hs0).2 pr hpr).2) n2
    · have hmxs : s.multiplexed = [] := by
        cases hmx2 : s.multiplexed with
        | nil => rfl
        | cons pr mxr =>
          have hsm := mem_muxersOf sigs s hs0 pr mxr hmx2
          rw [hmo] at hsm
          simp at hsm
          exact absurd hsm hst
      have hget : alistGet [(t.name, selMapOf t)] s.name = none := by
        rw [alistGet_cons, if_neg ?hne]
        · rfl
        case hne =>
          intro he
          have heq := hinj (mem_emitDepth1_top sigs t ht)
            (mem_emitDepth1_top sigs s hs0)
            (show (topPair t).2.name = (topPair s).2.name from he)
          have := congrArg (fun (x : MultiplexerIndicator × Signal F) => x.2) heq
          exact hst (this.symm)
      rw [revTopSignal_nil s hmxs]
      exact build_leaf_ok sigs hnames n [(t.name, selMapOf t)] (topPair s)
        (mem_emitDepth1_top sigs s hs0) hmxs hget

/-! ### `Dbc::parse ∘ Dbc::save` on a well-formed model. -/

/-- One message as the round trip reconstructs it inside the embedding's
fixed iteration order: the top-level signal list and each muxer's selector
map come back reversed.  The reversal is an artifact of the
association-list model of `HashMap`; only its permutation class reflects
the program. -/
def roundTripMessage {F : Type} (m : Message F) : Message F :=
  { id := m.id, name := m.name, len := m.len, transmitter := m.transmitter,
    signals := m.signals.reverse.map (fun s => revTopSignal s) }

/-- A whole model as the round trip reconstructs it inside the embedding's
fixed iteration order. -/
def roundTripModel {F : Type} (d : Dbc F) : Dbc F :=
  ⟨d.messages.map (fun m => roundTripMessage m)⟩

/-- Well-formedness of a model under which the writer's output parses back
deterministically: valid identifiers and bounds on every rendered line,
distinct message ids, distinct signal names inside each message, a multiplex
forest of depth at most one per message with at most one multiplexer,
nonempty strictly `start_bit`-sorted child lists, and per-signal value
descriptions with distinct keys in the printable range. -/
def wfDbc (fm : FloatModel) (d : Dbc fm.F) : Prop :=
  (∀ n ∈ collectNodes d, validIdent n = true) ∧
  (d.messages.map Message.id).Nodup ∧
  ∀ m ∈ d.messages, wfMsgR fm m ∧ wfDepth1 m.signals ∧
    ((emitDepth1 m.signals).map (fun p => p.2.name)).Nodup ∧
    (muxersOf m.signals).length ≤ 1 ∧
    (∀ s ∈ m.signals, (s.multiplexed.map Prod.fst).Nodup ∧
      ∀ pr ∈ s.multiplexed, pr.2 ≠ [] ∧
        List.Pairwise (fun a b => a.start_bit < b.start_bit) pr.2) ∧
    (∀ p ∈ iterSignals m, wfVd p.2)

theorem foldl_len_le {F : Type} (l : List (Nat × SigMap F)) :
    ∀ acc, acc ≤ l.foldl (fun a p => a + p.2.length) acc := by
  induction l with
  | nil => intro acc; exact Nat.le_refl acc
  | cons x l ih =>
    intro acc
    have := ih (acc + x.2.length)
    rw [List.foldl_cons]
    omega

theorem foldl_len_mem {F : Type} (l : List (Nat × SigMap F))
    (e : Nat × SigMap F) (he : e ∈ l) :
    ∀ acc, e.2.length ≤ l.foldl (fun a p => a + p.2.length) acc := by
  induction l with
  | nil => simp at he
  | cons x l ih =>
    intro acc
    rw [List.foldl_cons]
    rcases List.mem_cons.mp he with hex | hel
    · subst hex
      have := foldl_len_le l (acc + e.2.length)
      omega
    · exact ih hel _

theorem buildMessages_eq {F : Type} (st : PState F)
    (MD : List MessageNative) (SDB : List (Nat × SigMap F))
    (VALS : List (Nat × ValsMap)) (CH : List (Nat × MuxMap))
    (h1 : st.messages_dbc = MD) (h2 : st.signals_db = SDB)
    (h3 : st.vals = VALS)
    (h4 : (if ¬st.ext.isEmpty then st.ext else st.inl) = CH) :
    buildMessages F st = MD.mapM (fun mn =>
      match alistGet SDB mn.id with
      | none => .error .panicked
      | some msdb =>
        ((msdb.filter (fun p => p.2.multiplexer_indicator.mux_index = none)).mapM
          (fun p => build_multiplexed_signals F (buildFuel st) p.2
            (alistGet CH mn.id) msdb (alistGet VALS mn.id))) >>=
        (fun sigs => pure { id := mn.id, name := mn.name, len := mn.len, transmitter := mn.transmitter, signals := sigs })) := by
  rw [buildMessages, h4, h1, h2, h3]
  rfl

theorem buildMessages_finalState (fm : FloatModel) (d : Dbc fm.F)
    (hwf : wfDbc fm d) :
    buildMessages fm.F (finalState fm d) =
      .ok (d.messages.map (fun m => roundTripMessage m)) := by
  obtain ⟨hN, hnd, hms⟩ := hwf
  have hfr0 : ∀ m ∈ d.messages,
      alistContains (PState.init fm.F).signals_db m.id = false ∧
      alistContains (PState.init fm.F).inl m.id = false :=
    fun m _ => ⟨rfl, rfl⟩
  have h2 := foldl_stepBO fm d.messages
    { PState.init fm.F with new_symbols := nsSymbolList } hnd
    (fun m hm => hfr0 m hm)
  have hmdbc : (finalState fm d).messages_dbc = d.messages.map msgNativeOf := by
    rw [finalState, h2]
    rfl
  have hsdb : (finalState fm d).signals_db =
      d.messages.map (fun m => (m.id, sigMapOf m)) := by
    rw [finalState, h2]
    rfl
  have hinl : (finalState fm d).inl =
      d.messages.map (fun m => (m.id, inlMuxOf m)) := by
    rw [finalState, h2]
    rfl
  have hext : (finalState fm d).ext = [] := by
    rw [finalState, h2]
    rfl
  have hvals : (finalState fm d).vals =
      d.messages.flatMap (fun m => valsEntry m) := by
    rw [finalState, h2]
    show d.messages.foldl (fun v m => (iterSignals m).foldl (fun v2 p => valsUpd m.id v2 p) v) [] = d.messages.flatMap (fun m => valsEntry m)
    have := foldl_vals d.messages [] hnd (fun m _ => rfl)
    simpa using this
  have hch : (if ¬(finalState fm d).ext.isEmpty then (finalState fm d).ext
      else (finalState fm d).inl) =
      d.messages.map (fun m => (m.id, inlMuxOf m)) := by
    rw [hext, hinl]
    simp
  rw [buildMessages_eq (finalState fm d) _ _ _ _ hmdbc hsdb hvals hch]
  apply mapM_ok_of_map
  intro m hm
  obtain ⟨hR, hd1, hnm, hmux1, hmxwf, hvd⟩ := hms m hm
  have hiter : iterSignals m = emitDepth1 m.signals := iterSignals_depth1 m hd1
  have hsig : sigMapOf m = emitPairs m.signals := by
    rw [sigMapOf, hiter, emitPairs]
    exact insertNatives_eq_map _ hnm
  have hinlm : inlMuxOf m = inlineMuxFromSignals (emitPairs m.signals) [] := by
    rw [inlMuxOf, hsig]
  have hlkS : alistGet (d.messages.map (fun m => (m.id, sigMapOf m)))
      (msgNativeOf m).id = some (sigMapOf m) := by
    rw [show (msgNativeOf m).id = m.id from rfl]
    exact alistGet_map_key Message.id sigMapOf d.messages m hm hnd
  have hlkC : alistGet (d.messages.map (fun m => (m.id, inlMuxOf m)))
      (msgNativeOf m).id = some (inlMuxOf m) := by
    rw [show (msgNativeOf m).id = m.id from rfl]
    exact alistGet_map_key Message.id inlMuxOf d.messages m hm hnd
  have hlkV : alistGet (d.messages.flatMap (fun m => valsEntry m))
      (msgNativeOf m).id = emitValsOpt m.signals := by
    rw [show (msgNativeOf m).id = m.id from rfl,
      alistGet_valsEntries d.messages m hm hnd, emitValsOpt, hiter]
  rw [hlkS]
  show ((sigMapOf m).filter
      (fun p => p.2.multiplexer_indicator.mux_index = none)).mapM
      (fun p => build_multiplexed_signals fm.F (buildFuel (finalState fm d)) p.2
        (alistGet (d.messages.map (fun m => (m.id, inlMuxOf m))) (msgNativeOf m).id)
        (sigMapOf m)
        (alistGet (d.messages.flatMap (fun m => valsEntry m)) (msgNativeOf m).id)) >>=
      (fun sigs => pure { id := (msgNativeOf m).id, name := (msgNativeOf m).name, len := (msgNativeOf m).len, transmitter := (msgNativeOf m).transmitter, signals := sigs }) = .ok (roundTripMessage m)
  rw [hlkC, hlkV, hsig, hinlm]
  have hfuel : ∃ n, buildFuel (finalState fm d) = n + 1 ∧
      (muxersOf m.signals ≠ [] → 1 ≤ n) := by
    have hbf : buildFuel (finalState fm d) =
        (finalState fm d).signals_db.foldl (fun a p => a + p.2.length) 0 + 1 := rfl
    refine ⟨(finalState fm d).signals_db.foldl (fun a p => a + p.2.length) 0,
      hbf, ?_⟩
    intro hne
    obtain ⟨t, ht⟩ : ∃ t, t ∈ muxersOf m.signals := by
      cases hc : muxersOf m.signals with
      | nil => exact absurd hc hne
      | cons t r => exact ⟨t, List.mem_cons_self t r⟩
    have htop : topPair t ∈ emitDepth1 m.signals :=
      mem_emitDepth1_top m.signals t (List.mem_of_mem_filter ht)
    have hlen : 1 ≤ (emitPairs m.signals).length := by
      rw [emitPairs, List.length_map]
      exact List.length_pos.mpr (List.ne_nil_of_mem htop)
    have hmem : (m.id, sigMapOf m) ∈ (finalState fm d).signals_db := by
      rw [hsdb]
      exact List.mem_map_of_mem (fun m => (m.id, sigMapOf m)) hm
    have := foldl_len_mem (finalState fm d).signals_db (m.id, sigMapOf m) hmem 0
    rw [show (m.id, sigMapOf m).2 = sigMapOf m from rfl, hsig] at this
    exact le_trans hlen this
  obtain ⟨n, hfe, hn⟩ := hfuel
  rw [hfe, build_msg_tops m.signals n hd1 hnm hmux1 hmxwf hn, ok_bind]
  rfl

/-- The round trip computed inside the embedding: under the association-list
model, which fixes one iteration order for every Rust `HashMap`, parsing the
saved text yields exactly `roundTripModel d`.  Only order-insensitive
consequences of this equation describe the program, whose hash-map iteration
order is arbitrary; the round-trip claim below therefore compares the result
with `d` only up to permutation of the hash-map-backed collections. -/
theorem parse_save_eq_roundTripModel (fm : FloatModel) (d : Dbc fm.F)
    (hwf : wfDbc fm d) :
    parseDbc fm (saveDbc fm d) = .ok (roundTripModel d) := by
  have hR : wfRender fm d :=
    ⟨hwf.1, fun m hm => (hwf.2.2 m hm).1,
     fun m hm p hp => (hwf.2.2 m hm).2.2.2.2.2 p hp⟩
  rw [parseDbc, parseLoop_saveDbc fm d hR]
  show (match buildMessages fm.F (finalState fm d) with
    | Except.error e => Except.error e
    | Except.ok msgs => Except.ok (⟨msgs⟩ : Dbc fm.F)) = Except.ok (roundTripModel d)
  rw [buildMessages_finalState fm d hwf]
  rfl

/-! ### The round-trip claim on concrete models. -/

instance decidableForallSome {α : Type} (o : Option α) (P : α → Prop)
    [DecidablePred P] : Decidable (∀ k, o = some k → P k) :=
  match o with
  | none => isTrue (fun _ h => nomatch h)
  | some a =>
    decidable_of_iff (P a)
      ⟨fun hp k hk => by injection hk with he; exact he ▸ hp,
       fun hall => hall a rfl⟩

instance instDecWfSigLine (fm : FloatModel)
    (p : MultiplexerIndicator × Signal fm.F) : Decidable (wfSigLine fm p) := by
  unfold wfSigLine
  infer_instance

instance instDecWfVd {F : Type} (s : Signal F) : Decidable (wfVd s) := by
  unfold wfVd
  infer_instance

/-- A little-endian unsigned test signal. -/
def sigC (name : String) (sb sz : Nat) (vd : List (Int × NameL))
    (mx : List (Nat × List (Signal Int))) : Signal Int :=
  .mk name.toList sb sz .littleEndian .unsigned 1 0 0 0 [] [] vd mx

/-- Is a parse result a success?  (`Result::is_ok`.) -/
def parseOk {F : Type} (e : Except DbcErr (Dbc F)) : Bool :=
  match e with
  | .ok _ => true
  | .error _ => false

/-- A model whose message name is not a DBC identifier: the writer prints
it verbatim, and the parser stops at the space. -/
def badNameModel : Dbc Int :=
  ⟨[⟨1, strL "A B", 8, none, []⟩]⟩

set_option maxRecDepth 100000 in
/-- C3 counterexample: `Dbc::save` writes model strings verbatim, so saving
a model whose message name holds a space yields a `BO_` line on which
`Dbc::parse` fails (the identifier stops at the space and the expected
`':'` is not found); the round trip returns an error, not the model.  This
refutation does not depend on any hash-map iteration order: the failure
happens while parsing the message header, before any map is consulted. -/
theorem dbc_roundtrip_parse_fails :
    parseOk (parseDbc intFloatModel (saveDbc intFloatModel badNameModel)) = false ∧
    parseDbc intFloatModel (saveDbc intFloatModel badNameModel) ≠ .ok badNameModel := by
  have hE : parseOk (parseDbc intFloatModel (saveDbc intFloatModel badNameModel)) =
      false := by rfl
  refine ⟨hE, ?_⟩
  intro h
  rw [h] at hE
  exact absurd hE (by decide)

/-- The test message with one multiplexer, two selector branches and value
descriptions. -/
def wMsg : Message Int :=
  ⟨5, strL "MSG", 8, none, [sigC "Sel" 0 4 [(0, strL "off"), (1, strL "on")] [(0, [sigC "ChildA" 4 4 [] []]), (1, [sigC "ChildB" 4 8 [] []])]]⟩

/-- A model exercising the whole writer/parser path. -/
def wModel : Dbc Int := ⟨[wMsg]⟩

theorem wModel_wf : wfDbc intFloatModel wModel := by
  refine ⟨by decide, by decide, ?_⟩
  intro m hm
  have hm2 : m = wMsg := by simpa [wModel] using hm
  subst hm2
  refine ⟨?_, ?_, by decide, by decide, ?_, by decide⟩
  · exact ⟨by decide, by decide, by decide, by decide, by decide⟩
  · intro s hs pr hpr c hc
    fin_cases hs
    fin_cases hpr <;> fin_cases hc <;> rfl
  · intro s hs
    fin_cases hs
    refine ⟨by decide, ?_⟩
    intro pr hpr
    fin_cases hpr <;> exact ⟨by simp, by decide⟩

/-! ### The round trip compared up to the unordered hash maps. -/

/-- Signal agreement as the claim reads on the program: every scalar field,
the receiver list and each multiplex branch's child list agree exactly,
while the two hash-map-backed collections (`value_descriptions` and
`multiplexed`) agree up to permutation of their entries, since the Rust
`HashMap` iteration order is arbitrary. -/
def sMatches {F : Type} (a b : Signal F) : Prop :=
  a.name = b.name ∧ a.start_bit = b.start_bit ∧ a.signal_size = b.signal_size ∧
  a.byte_order = b.byte_order ∧ a.value_type = b.value_type ∧
  a.factor = b.factor ∧ a.offsetF = b.offsetF ∧ a.minimum = b.minimum ∧
  a.maximum = b.maximum ∧ a.unit = b.unit ∧ a.receiver = b.receiver ∧
  a.value_descriptions.Perm b.value_descriptions ∧
  a.multiplexed.Perm b.multiplexed

/-- Message agreement: the scalar fields agree, and the top-level signal
lists agree up to a permutation matching signals pointwise by `sMatches`
(the parser collects `HashMap::values()`, whose order is arbitrary). -/
def mMatches {F : Type} (a b : Message F) : Prop :=
  a.id = b.id ∧ a.name = b.name ∧ a.len = b.len ∧ a.transmitter = b.transmitter ∧
  ∃ p : List (Signal F), a.signals.Perm p ∧ List.Forall₂ sMatches p b.signals

/-- Model agreement: the message lists agree in order (`messages` is a
`Vec`, iterated in order), message by message. -/
def dbcMatches {F : Type} (a b : Dbc F) : Prop :=
  List.Forall₂ mMatches a.messages b.messages

theorem sMatches_revTop {F : Type} (s : Signal F) : sMatches s (revTopSignal s) := by
  cases s with
  | mk n sb sz bo vt f o mi ma u r vd mx =>
    exact ⟨rfl, rfl, rfl, rfl, rfl, rfl, rfl, rfl, rfl, rfl, rfl,
      List.Perm.refl vd, (List.reverse_perm mx).symm⟩

theorem mMatches_roundTrip {F : Type} (m : Message F) :
    mMatches m (roundTripMessage m) := by
  refine ⟨rfl, rfl, rfl, rfl, m.signals.reverse, (List.reverse_perm m.signals).symm, ?_⟩
  show List.Forall₂ sMatches m.signals.reverse
    (m.signals.reverse.map (fun s => revTopSignal s))
  exact List.forall₂_map_right_iff.mpr
    (List.forall₂_same.mpr (fun s _ => sMatches_revTop s))

theorem dbcMatches_roundTrip {F : Type} (d : Dbc F) :
    dbcMatches d (roundTripModel d) := by
  show List.Forall₂ mMatches d.messages (d.messages.map (fun m => roundTripMessage m))
  exact List.forall₂_map_right_iff.mpr
    (List.forall₂_same.mpr (fun m _ => mMatches_roundTrip m))

/-- C3 (amended): the round trip is not the identity — already a message
name that is not a DBC identifier makes the writer's output unparseable —
but for every well-formed model, parsing the text produced by saving it
succeeds and yields a model agreeing with the original up to the parser's
unordered hash maps: messages in order with their scalar fields, and in
each message the top-level signal list up to permutation, every signal
scalar field, receiver list and multiplex child list exactly, and the
value descriptions and multiplex selector branches up to permutation of
entries. -/
theorem parse_save_roundtrip_upto_perm (fm : FloatModel) (d : Dbc fm.F)
    (hwf : wfDbc fm d) :
    ∃ d2, parseDbc fm (saveDbc fm d) = .ok d2 ∧ dbcMatches d d2 :=
  ⟨roundTripModel d, parse_save_eq_roundTripModel fm d hwf, dbcMatches_roundTrip d⟩

/-- Witness for the amended C3 theorem: the multiplexed test model is
well-formed and its save/parse round trip succeeds with a matching model. -/
theorem parse_save_roundtrip_upto_perm_witness :
    wfDbc intFloatModel wModel ∧
    (∃ d2, parseDbc intFloatModel (saveDbc intFloatModel wModel) = .ok d2 ∧
      dbcMatches wModel d2) :=
  ⟨wModel_wf, parse_save_roundtrip_upto_perm intFloatModel wModel wModel_wf⟩

/-! ### Extended-versus-inline multiplex precedence. -/

/-- Observation of the parser state for one message id: the number of
multiplexer-marked signals in its accumulated signal map, whether its
inline multiplex relation is nonempty, and whether no extended entries
were parsed. -/
def muxInfoAt (fm : FloatModel) (txt : List Char) (mid : Nat) :
    Option (Nat × Bool × Bool) :=
  match parseLoopD fm (txt.length + 1) txt (PState.init fm.F) with
  | .ok (st, _) =>
      some (((alistGetD st.signals_db mid []).filter
          (fun p => p.2.multiplexer_indicator.is_multiplexer)).length,
        !(alistGetD st.inl mid []).isEmpty, st.ext.isEmpty)
  | .error _ => none

/-- Two `BO_` blocks sharing message id 1: the first has one multiplexer
(`S`) with a child, the second adds a second multiplexer (`T`). -/
def c5Text : List Char := strL "BO_ 1 M1: 8 X\n SG_ S M : 0|4@1+ (1,0) [0|0] \"\" Vector__XXX\n SG_ A m0 : 4|4@1+ (1,0) [0|0] \"\" Vector__XXX\n\nBO_ 1 M2: 8 X\n SG_ T M : 8|4@1+ (1,0) [0|0] \"\" Vector__XXX\n\n"

set_option maxRecDepth 100000 in
/-- C5 counterexample: after parsing `c5Text` (a file with no extended
entries), message id 1 holds two multiplexer-marked signals in its signal
map, yet its inline multiplex relation is nonempty: the relation
materialized by the first block survives the second block's two-muxer
bailout, so inline relations are not materialized only for messages with
exactly one multiplexer signal. -/
theorem inline_mux_survives_duplicate_id :
    muxInfoAt intFloatModel c5Text 1 = some (2, true, true) := by
  rfl

/-- C5 (amended): after parsing, if any `SG_MUL_VAL_` (extended) entries
were parsed then the message construction ignores the inline relations
entirely (they are the sole source of the multiplex trees); and one `BO_`
block materializes new inline relations only when its accumulated signal
map holds exactly one multiplexer-marked signal — otherwise
`inline_mux_from_signals` returns the inherited relation unchanged, so a
later block with the same id can still carry an earlier block's
relations. -/
theorem ext_inline_precedence :
    (∀ (F : Type) (st : PState F) (inl2 : List (Nat × MuxMap)), st.ext ≠ [] →
      buildMessages F st = buildMessages F { st with inl := inl2 }) ∧
    (∀ (F : Type) (ms : SigMap F) (inline0 : MuxMap),
      (ms.filter (fun p => p.2.multiplexer_indicator.is_multiplexer)).length ≠ 1 →
      inlineMuxFromSignals ms inline0 = inline0) := by
  constructor
  · intro F st inl2 hext
    have h4a : (if ¬st.ext.isEmpty then st.ext else st.inl) = st.ext := by
      rw [if_pos]
      simpa using hext
    have h4b : (if ¬({ st with inl := inl2 } : PState F).ext.isEmpty
        then ({ st with inl := inl2 } : PState F).ext
        else ({ st with inl := inl2 } : PState F).inl) = st.ext := by
      rw [show ({ st with inl := inl2 } : PState F).ext = st.ext from rfl,
        if_pos]
      simpa using hext
    rw [buildMessages_eq st st.messages_dbc st.signals_db st.vals st.ext
        rfl rfl rfl h4a,
      buildMessages_eq { st with inl := inl2 } st.messages_dbc st.signals_db
        st.vals st.ext rfl rfl rfl h4b]
    rfl
  · intro F ms inline0 hlen
    rw [inlineMuxFromSignals]
    cases hf : ms.filter (fun p => p.2.multiplexer_indicator.is_multiplexer) with
    | nil => rfl
    | cons x xs =>
      cases xs with
      | nil => exact absurd (by rw [hf]; rfl) hlen
      | cons y ys => rfl

/-- A state with one extended entry, and a two-muxer signal map. -/
def extSt : PState Int :=
  { new_symbols := [], messages_dbc := [], ext := [(1, [(strL "P", [(0, [strL "c"])])])], inl := [(1, [(strL "Q", [(1, [strL "d"])])])], signals_db := [], vals := [] }

/-- A signal map holding two multiplexer-marked natives. -/
def twoMuxMs : SigMap Int :=
  [(strL "S", { name := strL "S", multiplexer_indicator := ⟨true, none⟩, start_bit := 0, signal_size := 4, byte_order := .littleEndian, value_type := .unsigned, factor := 1, offset := 0, minimum := 0, maximum := 0, unit := [], receiver := [] }),
   (strL "T", { name := strL "T", multiplexer_indicator := ⟨true, none⟩, start_bit := 8, signal_size := 4, byte_order := .littleEndian, value_type := .unsigned, factor := 1, offset := 0, minimum := 0, maximum := 0, unit := [], receiver := [] })]

/-- Witness for the amended C5 theorem: a state with an extended entry
builds the same messages regardless of the inline map, and a two-muxer
signal map materializes nothing new. -/
theorem ext_inline_precedence_witness :
    (extSt.ext ≠ [] ∧
      buildMessages Int extSt = buildMessages Int { extSt with inl := [] }) ∧
    ((twoMuxMs.filter
        (fun p => p.2.multiplexer_indicator.is_multiplexer)).length ≠ 1 ∧
      inlineMuxFromSignals twoMuxMs [(strL "Q", [])] = [(strL "Q", [])]) :=
  ⟨⟨by simp [extSt], ext_inline_precedence.1 Int extSt [] (by simp [extSt])⟩,
   ⟨by decide, ext_inline_precedence.2 Int twoMuxMs [(strL "Q", [])] (by decide)⟩⟩

end DbcM







